import Mathlib

/-! AVProjectTracker: the task tree engine of the `Project` model.

A shallow embedding of the task methods of `backend/src/models/Project.js`
(`calculateProgress`, `addTask`, `updateTask`, `deleteTask`,
`updateParentTaskStatus`, `canUserAccess`), of the reorder handler of
`backend/src/routes/projects.js`, of the guards of `backend/src/middleware/auth.js`,
of the login handler of `backend/src/routes/auth.js` and of the handlers of
`backend/src/routes/roles.js`, and theorems about them.

Conventions of the embedding:

* a task record is a `Task`; its fields hold JavaScript values (`JsVal`:
  `undefined`, `null`, booleans, integers and strings), and a field that is
  absent from the record reads as `JsVal.undefined`, as in JavaScript; `===`
  on these values is equality of `JsVal`;
* the numbers that `calculateProgress` computes are IEEE 754 doubles, modelled
  as rationals on which every arithmetic operation is followed by the rounding
  `fl` (round to nearest, ties to even, 53 bits);
* the results of `new Date().toISOString()` and the generated id are arguments
  of the operations (`now`, `newId`); the timestamps taken during one call are
  its one `now`;
* a method that assigns to `this.tasks` and `this.progress` is a function from
  `Project` to `Project`; `Array.prototype.find` followed by assignments to the
  object found is `modifyFirst`;
* `Array.prototype.sort` is a stable sort (`arraySort`), and a sequence of
  calls on a project is a list of `Call`s run from left to right;
* a route handler is a function from the request and the rows it reads to the
  response and the rows it leaves; what a handler takes from outside the
  sources (the methods of the `User` model, the token generators) is an
  argument.
-/

namespace AVProjectTracker

/-! ## JavaScript values -/

/-- A JavaScript value as it can occur in a field of a task record. -/
inductive JsVal where
  | undefined : JsVal
  | null : JsVal
  | bool (b : Bool) : JsVal
  | num (n : Int) : JsVal
  | str (s : String) : JsVal
  deriving DecidableEq

/-- The JavaScript truthiness of a value (`if (v)`, `!v`, `v || w`, `v && w`):
`undefined`, `null`, `false`, `0` and `""` are falsy. -/
def JsVal.truthy : JsVal → Bool
  | .undefined => false
  | .null => false
  | .bool b => b
  | .num n => n != 0
  | .str s => s != ""

/-- The JavaScript `a || b`. -/
def jsOr (a b : JsVal) : JsVal := if a.truthy then a else b

/-- Reading a property of an object that may lack it: `o.f`. -/
def rd (f : Option JsVal) : JsVal := f.getD JsVal.undefined

/-- The effect of the spread `...o` on one property of an object literal whose
value so far is `base`: the property of `o` wins when `o` has it. -/
def spread (base : JsVal) (f : Option JsVal) : JsVal := f.getD base

/-! ## Task records -/

/-- A task record. `extra` holds the free-form properties (name, assignee,
dates, description, ...), that is every property other than the seven named
here, in insertion order. -/
structure Task where
  id : JsVal
  parentId : JsVal
  position : JsVal
  status : JsVal
  priority : JsVal
  createdAt : JsVal
  updatedAt : JsVal
  extra : List (String × JsVal)
  deriving DecidableEq

/-- An object received from a caller: the `task` argument of `addTask` and the
`updates` argument of `updateTask`. `none` means that the object does not have
the property. -/
structure TaskInput where
  id : Option JsVal
  parentId : Option JsVal
  position : Option JsVal
  status : Option JsVal
  priority : Option JsVal
  createdAt : Option JsVal
  updatedAt : Option JsVal
  extra : List (String × JsVal)
  deriving DecidableEq

/-- Assignment `o[k] = v` on the free-form properties: an existing key keeps
its place, a new key goes last. -/
def setExtra : List (String × JsVal) → String → JsVal → List (String × JsVal)
  | [], k, v => [(k, v)]
  | (k', v') :: rest, k, v =>
    if k' = k then (k, v) :: rest else (k', v') :: setExtra rest k v

/-- The spread `{...base, ...upd}` on the free-form properties. -/
def spreadExtra (base upd : List (String × JsVal)) : List (String × JsVal) :=
  upd.foldl (fun o kv => setExtra o kv.1 kv.2) base

/-- The project, as far as the task methods read and write it: `this.tasks`
and `this.progress`. A `progress` of `none` stands for a value that is not a
finite number (`NaN`). -/
structure Project where
  tasks : List Task
  progress : Option Int
  deriving DecidableEq

deriving instance DecidableEq for Except

/-! ## Double precision arithmetic -/

/-- Rounding of a rational to the nearest integer, ties to the even one. -/
def roundHalfEven (q : ℚ) : ℤ :=
  let f := ⌊q⌋
  if q - f < 1 / 2 then f
  else if 1 / 2 < q - f then f + 1
  else if f % 2 = 0 then f else f + 1

/-- The loop of `ilog2`: halve `n` at most `fuel` times until it is below 2. -/
def ilog2Loop : Nat → Nat → Nat
  | 0, _ => 0
  | fuel + 1, n => if 2 ≤ n then ilog2Loop fuel (n / 2) + 1 else 0

/-- The position of the leading bit of a natural number: for `n ≥ 1` the `k`
with `2 ^ k ≤ n < 2 ^ (k + 1)`. -/
def ilog2 (n : Nat) : Nat := ilog2Loop n n

/-- The binary exponent of a positive rational: the `e` with
`2 ^ e ≤ q < 2 ^ (e + 1)`. -/
def binade (q : ℚ) : ℤ :=
  let e0 : ℤ := (ilog2 q.num.natAbs : ℤ) - (ilog2 q.den : ℤ)
  if q < (2 : ℚ) ^ e0 then e0 - 1 else e0

/-- Rounding of a positive rational to 53 significant bits, to nearest, ties
to even. -/
def flPos (q : ℚ) : ℚ :=
  let ulp : ℚ := (2 : ℚ) ^ (binade q - 52)
  (roundHalfEven (q / ulp) : ℚ) * ulp

/-- The double nearest to a rational (round to nearest, ties to even). The
exponent range is not modelled: `fl` agrees with IEEE 754 binary64 for
`2 ^ (-1022) ≤ |q| < 2 ^ 1024`, which holds for every non-zero value that
`calculateProgress` forms from a list of fewer than `2 ^ 1022` tasks. -/
def fl (q : ℚ) : ℚ :=
  if q = 0 then 0 else if q < 0 then -flPos (-q) else flPos q

/-- The JavaScript `a / b` on finite doubles, `none` when the result is not
finite (division by zero gives `NaN` or an infinity). -/
def jsDiv (a b : ℚ) : Option ℚ :=
  if b = 0 then none else some (fl (a / b))

/-- The function `Math.round` on a finite double: the nearest integer, a tie going to the
larger one. -/
def mathRound (x : ℚ) : ℤ := ⌊x + 1 / 2⌋

/-! ## The task methods -/

/-- The test `!task.parentId` failed: the task is a subtask. -/
def Task.isSub (t : Task) : Bool := t.parentId.truthy

/-- The callback of `mainTasks.forEach` in `calculateProgress`, as a step on
the pair `(totalWeight, completedWeight)`. Array lengths are exact doubles. -/
def progressStep (tasks : List Task) (acc : ℚ × ℚ) (task : Task) : ℚ × ℚ :=
  let subtasks := tasks.filter (fun st => st.parentId = task.id)
  if subtasks.length = 0 then
    (fl (acc.1 + 1),
      if task.status = JsVal.str "completed" then fl (acc.2 + 1)
      else if task.status = JsVal.str "in-progress" then fl (acc.2 + 1 / 2)
      else acc.2)
  else
    let completedSubtasks :=
      (subtasks.filter (fun st => st.status = JsVal.str "completed")).length
    let subtaskProgress := fl ((completedSubtasks : ℚ) / (subtasks.length : ℚ))
    (fl (acc.1 + 1), fl (acc.2 + subtaskProgress))

/-- The pair `(totalWeight, completedWeight)` when the `forEach` loop of
`calculateProgress` is over. -/
def progressWeights (tasks : List Task) : ℚ × ℚ :=
  (tasks.filter (fun task => !task.isSub)).foldl (progressStep tasks) (0, 0)

/-- The method `Project.prototype.calculateProgress`, on `this.tasks`. -/
def calculateProgress (tasks : List Task) : Option Int :=
  if tasks.length = 0 then some 0
  else
    let mainTasks := tasks.filter (fun task => !task.isSub)
    if mainTasks.length = 0 then some 0
    else
      let w := progressWeights tasks
      (jsDiv w.2 w.1).map (fun r => mathRound (fl (r * 100)))

/-- The in-place update of the object that `Array.prototype.find` returned:
the first element that satisfies `p` is replaced by its image under `f`. -/
def modifyFirst (p : Task → Bool) (f : Task → Task) : List Task → List Task
  | [] => []
  | t :: ts => if p t then f t :: ts else t :: modifyFirst p f ts

/-- The two assignments `parentTask.status = s; parentTask.updatedAt = now`. -/
def assignStatus (s : JsVal) (now : String) (t : Task) : Task :=
  { t with status := s, updatedAt := JsVal.str now }

/-- The method `Project.prototype.updateParentTaskStatus`, on `this.tasks`. -/
def updateParentTaskStatus (parentId : JsVal) (now : String) (tasks : List Task) :
    List Task :=
  if !parentId.truthy then tasks
  else
    let parentTask := tasks.find? (fun t => t.id = parentId)
    let subtasks := tasks.filter (fun t => t.parentId = parentId)
    if parentTask.isSome && decide (subtasks.length > 0) then
      let allCompleted := subtasks.all (fun st => st.status = JsVal.str "completed")
      let anyInProgress := subtasks.any (fun st => st.status = JsVal.str "in-progress")
      let anyStarted := subtasks.any (fun st => st.status ≠ JsVal.str "not-started")
      let newStatus :=
        if allCompleted then JsVal.str "completed"
        else if anyInProgress || anyStarted then JsVal.str "in-progress"
        else JsVal.str "not-started"
      modifyFirst (fun t => t.id = parentId) (assignStatus newStatus now) tasks
    else tasks

/-- The object literal `newTask` of `addTask`: the generated id and the three
defaults, then the spread of the input, then the two timestamps. -/
def newTaskOf (tasks : List Task) (newId now : String) (task : TaskInput) : Task :=
  { id := spread (JsVal.str newId) task.id
    position := spread (jsOr (rd task.position) (JsVal.num tasks.length)) task.position
    status := spread (jsOr (rd task.status) (JsVal.str "not-started")) task.status
    priority := spread (jsOr (rd task.priority) (JsVal.str "medium")) task.priority
    parentId := spread JsVal.undefined task.parentId
    createdAt := JsVal.str now
    updatedAt := JsVal.str now
    extra := spreadExtra [] task.extra }

/-- The method `Project.prototype.addTask`: the outcome of the call (the error thrown or
the task returned) together with the project as the call leaves it. The
`throw` comes before any assignment, so it leaves the project as it was. (The
object returned is the last element of the list; propagation writes to the
first task that has the parent id, which is an older one.) -/
def addTask (p : Project) (newId now : String) (task : TaskInput) :
    Except String Task × Project :=
  let newTask := newTaskOf p.tasks newId now task
  if newTask.parentId.truthy && !(p.tasks.any (fun t => t.id = newTask.parentId)) then
    (Except.error "Parent task not found", p)
  else
    let tasks1 := p.tasks ++ [newTask]
    let progress := calculateProgress tasks1
    let tasks2 :=
      if newTask.parentId.truthy then updateParentTaskStatus newTask.parentId now tasks1
      else tasks1
    (Except.ok newTask, { tasks := tasks2, progress := progress })

/-- The object `{ ...task, ...updates, updatedAt: now }` of `updateTask`. -/
def mergeTask (task : Task) (updates : TaskInput) (now : String) : Task :=
  { id := spread task.id updates.id
    parentId := spread task.parentId updates.parentId
    position := spread task.position updates.position
    status := spread task.status updates.status
    priority := spread task.priority updates.priority
    createdAt := spread task.createdAt updates.createdAt
    updatedAt := JsVal.str now
    extra := spreadExtra task.extra updates.extra }

/-- The method `Project.prototype.updateTask`. -/
def updateTask (p : Project) (taskId : JsVal) (updates : TaskInput) (now : String) :
    Project :=
  match p.tasks.find? (fun task => task.id = taskId) with
  | none => p
  | some oldTask =>
    let tasks1 :=
      p.tasks.map (fun task => if task.id = taskId then mergeTask task updates now else task)
    let tasks2 :=
      if oldTask.parentId.truthy && (rd updates.status).truthy
          && decide (rd updates.status ≠ oldTask.status) then
        updateParentTaskStatus oldTask.parentId now tasks1
      else tasks1
    { tasks := tasks2, progress := calculateProgress tasks2 }

/-- The method `Project.prototype.deleteTask`. -/
def deleteTask (p : Project) (taskId : JsVal) (now : String) : Project :=
  match p.tasks.find? (fun t => t.id = taskId) with
  | none => p
  | some task =>
    let tasks1 := p.tasks.filter (fun t => t.id ≠ taskId && t.parentId ≠ taskId)
    let tasks2 :=
      if task.parentId.truthy then updateParentTaskStatus task.parentId now tasks1
      else tasks1
    { tasks := tasks2, progress := calculateProgress tasks2 }

/-! ## Reference definitions, in the words of the specification -/

/-- The top-level tasks of a list: the tasks without `parentId`. -/
def topLevelTasks (tasks : List Task) : List Task :=
  tasks.filter (fun t => !t.isSub)

/-- The direct subtasks of a task: the tasks of the list whose `parentId`
equals the task's `id`. -/
def directSubtasks (tasks : List Task) (task : Task) : List Task :=
  tasks.filter (fun st => st.parentId = task.id)

/-- The number of tasks of a list whose status is `completed`. -/
def completedCount (ts : List Task) : Nat :=
  ts.countP (fun st => st.status = JsVal.str "completed")

/-- Rounding to the nearest integer, halves up. -/
def roundHalfUp (x : ℚ) : ℤ := ⌊x + 1 / 2⌋

/-- The fraction that a top-level task contributes to the rollup, as an exact
rational: completed subtasks over subtasks when it has a subtask, otherwise
`1`, `1/2` or `0` by its own status. -/
def exactFraction (tasks : List Task) (task : Task) : ℚ :=
  if 1 ≤ (directSubtasks tasks task).length then
    (completedCount (directSubtasks tasks task) : ℚ) / ((directSubtasks tasks task).length : ℚ)
  else if task.status = JsVal.str "completed" then 1
  else if task.status = JsVal.str "in-progress" then 1 / 2
  else 0

/-- The reference rollup in exact arithmetic, for a list with at least one
top-level task: `100 * S / N` rounded halves up. -/
def rollupExact (tasks : List Task) : ℤ :=
  roundHalfUp
    (100 * ((topLevelTasks tasks).map (exactFraction tasks)).sum
      / ((topLevelTasks tasks).length : ℚ))

/-- The fraction of a top-level task as a double: the quotient of the two
counts is rounded once. -/
def doubleFraction (tasks : List Task) (task : Task) : ℚ :=
  if 1 ≤ (directSubtasks tasks task).length then
    fl ((completedCount (directSubtasks tasks task) : ℚ)
      / ((directSubtasks tasks task).length : ℚ))
  else if task.status = JsVal.str "completed" then 1
  else if task.status = JsVal.str "in-progress" then 1 / 2
  else 0

/-- A sum of doubles taken from left to right, each addition rounded. -/
def doubleSum (xs : List ℚ) : ℚ := xs.foldl (fun s x => fl (s + x)) 0

/-- The reference rollup in double precision arithmetic, for a list with at
least one top-level task: `(S / N) * 100`, each operation rounded to the
nearest double, then rounded to the nearest integer, halves up. -/
def rollupDouble (tasks : List Task) : ℤ :=
  roundHalfUp
    (fl (fl (doubleSum ((topLevelTasks tasks).map (doubleFraction tasks))
      / ((topLevelTasks tasks).length : ℚ)) * 100))

/-- The propagation rule, on the statuses of the direct subtasks of a parent:
all completed gives completed; otherwise any in-progress, or any that is not
not-started, gives in-progress; otherwise not-started. -/
def propagationRule (statuses : List JsVal) : JsVal :=
  if ∀ s ∈ statuses, s = JsVal.str "completed" then JsVal.str "completed"
  else if (∃ s ∈ statuses, s = JsVal.str "in-progress")
      ∨ (∃ s ∈ statuses, s ≠ JsVal.str "not-started") then JsVal.str "in-progress"
  else JsVal.str "not-started"

/-- The tasks of a list whose `parentId` is the given id. -/
def subtasksOf (tasks : List Task) (parentId : JsVal) : List Task :=
  tasks.filter (fun t => t.parentId = parentId)

/-- A task with its `status` and `updatedAt` blanked: what is left is every
property that propagation never writes. -/
def Task.withoutStatus (t : Task) : Task :=
  { t with status := JsVal.undefined, updatedAt := JsVal.undefined }

/-- A task with its `status` replaced. -/
def Task.withStatus (s : JsVal) (t : Task) : Task := { t with status := s }

/-- A mutating call on `p` that touches a subtask of the parent id `pid` and
runs propagation for it, leaving the project `p'`: `addTask` accepting a task
whose `parentId` is `pid`; `updateTask` on a task whose `parentId` is `pid`,
with a patch whose `status` is truthy and differs from the task's status;
`deleteTask` on a task whose `parentId` is `pid`. -/
inductive TouchesSubtask (p : Project) (pid : JsVal) : Project → Prop
  | add (newId now : String) (input : TaskInput) (t : Task) :
      rd input.parentId = pid → pid.truthy = true →
      (addTask p newId now input).1 = Except.ok t →
      TouchesSubtask p pid (addTask p newId now input).2
  | update (taskId : JsVal) (patch : TaskInput) (now : String) (old : Task) :
      p.tasks.find? (fun t => decide (t.id = taskId)) = some old →
      old.parentId = pid → pid.truthy = true →
      (rd patch.status).truthy = true → rd patch.status ≠ old.status →
      TouchesSubtask p pid (updateTask p taskId patch now)
  | delete (taskId : JsVal) (now : String) (old : Task) :
      p.tasks.find? (fun t => decide (t.id = taskId)) = some old →
      old.parentId = pid → pid.truthy = true →
      TouchesSubtask p pid (deleteTask p taskId now)

/-! ## Invariants used in the proofs -/

/-- What the loop of `calculateProgress` keeps true of
`(totalWeight, completedWeight)`: the completed weight is between 0 and the
total weight, and the total weight is a double. -/
def WeightsOk (acc : ℚ × ℚ) : Prop :=
  0 ≤ acc.2 ∧ acc.2 ≤ acc.1 ∧ fl acc.1 = acc.1

/-! ## Concrete task lists -/

/-- A top-level task with the given id and status and no other property. -/
def leafTask (id status : String) : Task :=
  { id := JsVal.str id, parentId := JsVal.undefined, position := JsVal.undefined,
    status := JsVal.str status, priority := JsVal.undefined,
    createdAt := JsVal.undefined, updatedAt := JsVal.undefined, extra := [] }

/-- A task with the given id, parent id and status and no other property. -/
def subTask (id parent status : String) : Task :=
  { leafTask id status with parentId := JsVal.str parent }

/-- Two top-level tasks without subtasks, one completed, one in progress. -/
def twoLeaves : List Task :=
  [leafTask "a" "completed", leafTask "b" "in-progress"]

/-- Four top-level tasks: one completed, one in progress, one not started, and
one with five subtasks of which four are completed. The exact rollup is
`100 * 2.3 / 4 = 57.5`. -/
def halfwayCase : List Task :=
  [leafTask "a" "completed", leafTask "b" "in-progress", leafTask "c" "not-started",
   leafTask "d" "in-progress",
   subTask "d1" "d" "completed", subTask "d2" "d" "completed", subTask "d3" "d" "completed",
   subTask "d4" "d" "completed", subTask "d5" "d" "not-started"]

/-- An `addTask` input that names only a parent id and a status. -/
def subtaskInput (parent status : String) : TaskInput :=
  { id := none, parentId := some (JsVal.str parent), position := none,
    status := some (JsVal.str status), priority := none, createdAt := none,
    updatedAt := none, extra := [] }

/-- An `addTask` input without any property. -/
def plainInput : TaskInput :=
  { id := none, parentId := none, position := none, status := none, priority := none,
    createdAt := none, updatedAt := none, extra := [] }

/-- The project without tasks. -/
def emptyProject : Project := { tasks := [], progress := some 0 }

/-- The project after two calls of `addTask` on the empty project: a top-level
task, which gets the id `g`, and a subtask of `g`, which gets the id `p`. -/
def nestedProject : Project :=
  (addTask (addTask emptyProject "g" "now" plainInput).2 "p" "now"
    (subtaskInput "g" "not-started")).2

/-- An `updateTask` patch that names only `status`. -/
def statusPatch (s : JsVal) : TaskInput :=
  { id := none, parentId := none, position := none, status := some s, priority := none,
    createdAt := none, updatedAt := none, extra := [] }

/-- A parent `p`, in progress, with a completed subtask `a` and a subtask `b`
that is not started. -/
def familyProject : Project :=
  { tasks := [leafTask "p" "in-progress", subTask "a" "p" "completed",
      subTask "b" "p" "not-started"],
    progress := some 50 }

/-- A parent `p` whose own status was set back to not-started while its only
subtask `t` is completed. -/
def staleParentProject : Project :=
  { tasks := [leafTask "p" "not-started", subTask "t" "p" "completed"], progress := some 100 }

/-- The project after three calls on the empty project: `addTask` of a
top-level task, which gets the id `p`; `addTask` of a completed subtask of `p`,
which gets the id `t` (propagation marks `p` completed); `updateTask` setting
the status of `p` back to not-started. -/
def reopenedProject : Project :=
  updateTask
    (addTask (addTask emptyProject "p" "now" plainInput).2 "t" "now"
      (subtaskInput "p" "completed")).2
    (JsVal.str "p") (statusPatch (JsVal.str "not-started")) "now"

/-- A completed parent `p` with one completed subtask `t`. -/
def completedProject : Project :=
  { tasks := [leafTask "p" "completed", subTask "t" "p" "completed"], progress := some 100 }

/-- A task whose id is the number 0, not started, and a completed task that
names 0 as its parent. -/
def zeroIdTasks : List Task :=
  [{ leafTask "" "not-started" with id := JsVal.num 0 },
   { leafTask "a" "completed" with parentId := JsVal.num 0 }]

/-- A subtask `t` that comes before its parent `p` in the list. -/
def subtaskFirstProject : Project :=
  { tasks := [subTask "t" "p" "not-started", leafTask "p" "not-started"], progress := some 0 }

/-- A parent `p` with one subtask `t`, and another top-level task `q`. -/
def twoParentsProject : Project :=
  { tasks := [leafTask "p" "not-started", subTask "t" "p" "not-started",
      leafTask "q" "not-started"],
    progress := some 0 }

/-- A patch that names `status` and `id`. -/
def statusIdPatch (s id : JsVal) : TaskInput :=
  { statusPatch s with id := some id }

/-- A patch that names `status` and `parentId`. -/
def statusParentPatch (s parent : JsVal) : TaskInput :=
  { statusPatch s with parentId := some parent }

/-! ## Reading the properties of a record -/

/-- The value of the free-form property `k` of a task, if it has one. -/
def getExtra (fields : List (String × JsVal)) (k : String) : Option JsVal :=
  (fields.find? (fun kv => kv.1 = k)).map (fun kv => kv.2)

/-- The value that an input object gives to the free-form property `k`, if it
names it: the last one, were the key to come twice. -/
def namedExtra : List (String × JsVal) → String → Option JsVal
  | [], _ => none
  | (k', v) :: rest, k =>
    match namedExtra rest k with
    | some w => some w
    | none => if k' = k then some v else none

/-! ## The reorder handler of `routes/projects.js` -/

/-- An element of `taskOrders`, destructured as `{ id, position }`: a property
that the element lacks reads as `undefined`. -/
structure TaskOrder where
  id : JsVal
  position : JsVal
  deriving DecidableEq

/-- The two assignments `project.tasks[taskIndex].position = position` and
`project.tasks[taskIndex].updatedAt = now`. -/
def assignPosition (position : JsVal) (now : String) (t : Task) : Task :=
  { t with position := position, updatedAt := JsVal.str now }

/-- The loop `taskOrders.forEach(...)`: for each element in turn, the first
task with the element's id, if there is one, gets its position. -/
def applyOrders (taskOrders : List TaskOrder) (now : String) (tasks : List Task) :
    List Task :=
  taskOrders.foldl
    (fun ts o => modifyFirst (fun task => task.id = o.id) (assignPosition o.position now) ts)
    tasks

/-- The conversion of a value to a number (`ToNumber`), `none` for `NaN`.
The conversion of strings is the argument `strToNumber`. -/
def toNumber (strToNumber : String → Option Int) : JsVal → Option Int
  | .undefined => none
  | .null => some 0
  | .bool b => some (if b then 1 else 0)
  | .num n => some n
  | .str s => strToNumber s

/-- The value of the comparator `(a, b) => (a.position || 0) - (b.position || 0)`,
`none` for `NaN`. The difference of two integers has the sign of the rounded
difference of the doubles. -/
def comparePositions (strToNumber : String → Option Int) (a b : Task) : Option Int :=
  match toNumber strToNumber (jsOr a.position (JsVal.num 0)),
      toNumber strToNumber (jsOr b.position (JsVal.num 0)) with
  | some x, some y => some (x - y)
  | _, _ => none

/-- The test of `Array.prototype.sort` that `a` has to come before `b`: the
comparator returns a negative number (`NaN` counts as 0). -/
def sortsBefore (cmp : Task → Task → Option Int) (a b : Task) : Bool :=
  match cmp a b with
  | some v => decide (v < 0)
  | none => false

/-- Insertion of `a`, which came before every element of the sorted list `l`,
after the elements that have to come before it. -/
def insertSorted (cmp : Task → Task → Option Int) (a : Task) : List Task → List Task
  | [] => [a]
  | b :: l => if sortsBefore cmp b a then b :: insertSorted cmp a l else a :: b :: l

/-- The method `Array.prototype.sort(cmp)`: a stable sort. When the comparator is
consistent (here: no position converts to `NaN`) the outcome of a stable sort
is determined, and this is it; when it is not, ECMAScript leaves the order to
the implementation. -/
def arraySort (cmp : Task → Task → Option Int) : List Task → List Task
  | [] => []
  | a :: l => insertSorted cmp a (arraySort cmp l)

/-- The reorder handler `PUT /:id/tasks/reorder`, from `taskOrders.forEach` to
`project.tasks.sort`: positions are updated, then the whole list is sorted;
`project.progress` is not written. -/
def reorderTasks (strToNumber : String → Option Int) (p : Project)
    (taskOrders : List TaskOrder) (now : String) : Project :=
  { tasks := arraySort (comparePositions strToNumber) (applyOrders taskOrders now p.tasks)
    progress := p.progress }

/-! ## Sequences of calls -/

/-- A mutating call on a project. -/
inductive Call where
  | add (newId now : String) (task : TaskInput)
  | update (taskId : JsVal) (updates : TaskInput) (now : String)
  | delete (taskId : JsVal) (now : String)
  | reorder (taskOrders : List TaskOrder) (now : String)

/-- The project after a call; an `addTask` that throws leaves it as it was. -/
def Call.run (strToNumber : String → Option Int) (p : Project) : Call → Project
  | .add newId now task => (addTask p newId now task).2
  | .update taskId updates now => updateTask p taskId updates now
  | .delete taskId now => deleteTask p taskId now
  | .reorder taskOrders now => reorderTasks strToNumber p taskOrders now

/-- The project after a sequence of calls. -/
def runCalls (strToNumber : String → Option Int) (p : Project) (calls : List Call) : Project :=
  calls.foldl (Call.run strToNumber) p

/-- Whether every call of the sequence satisfies `ok` in the state in which
it is made. -/
def callsAllowed (strToNumber : String → Option Int) (ok : Project → Call → Bool) :
    Project → List Call → Bool
  | _, [] => true
  | p, c :: cs => ok p c && callsAllowed strToNumber ok (Call.run strToNumber p c) cs

/-! ## Reference definitions for the invariants of the task tree -/

/-- Nesting depth at most one: no task that has a `parentId` is named as the
parent by a task that has a `parentId`. -/
def DepthOne (tasks : List Task) : Prop :=
  ∀ t ∈ tasks, t.isSub = true → ∀ c ∈ tasks, c.isSub = true → c.parentId ≠ t.id

instance (tasks : List Task) : Decidable (DepthOne tasks) :=
  inferInstanceAs
    (Decidable (∀ t ∈ tasks, t.isSub = true → ∀ c ∈ tasks, c.isSub = true → c.parentId ≠ t.id))

/-- No orphaned subtasks: every task that has a `parentId` names the id of a
task of the list. -/
def NoOrphans (tasks : List Task) : Prop :=
  ∀ t ∈ tasks, t.isSub = true → ∃ q ∈ tasks, q.id = t.parentId

instance (tasks : List Task) : Decidable (NoOrphans tasks) :=
  inferInstanceAs (Decidable (∀ t ∈ tasks, t.isSub = true → ∃ q ∈ tasks, q.id = t.parentId))

/-- Whether a task holds subtasks: some task of the list has a `parentId`,
and it is the id of the task. -/
def holdsSubtasks (tasks : List Task) (t : Task) : Bool :=
  tasks.any (fun s => s.isSub && decide (s.parentId = t.id))

/-- Every task that holds subtasks has the status that the propagation rule
derives from the statuses of its subtasks. -/
def ParentsFollowRule (tasks : List Task) : Prop :=
  ∀ P ∈ tasks, holdsSubtasks tasks P = true →
    P.status = propagationRule ((subtasksOf tasks P.id).map (fun st => st.status))

instance (tasks : List Task) : Decidable (ParentsFollowRule tasks) :=
  inferInstanceAs
    (Decidable (∀ P ∈ tasks, holdsSubtasks tasks P = true →
      P.status = propagationRule ((subtasksOf tasks P.id).map (fun st => st.status))))

/-- Ids are fresh: the id occurs nowhere in the task list, neither as the id
nor as the `parentId` of a task. -/
def freshId (tasks : List Task) (id : JsVal) : Bool :=
  tasks.all (fun q => decide (q.id ≠ id) && decide (q.parentId ≠ id))

/-- No subtask is given subtasks: no task with the given id has a `parentId`. -/
def parentTopLevel (tasks : List Task) (parentId : JsVal) : Bool :=
  tasks.all (fun q => decide (q.id ≠ parentId) || !q.isSub)

/-- The calls that keep the tree flat: an `addTask` creates its task under a
fresh id and, when the task has a `parentId`, under a parent without
`parentId`; a patch names neither `id` nor `parentId`. -/
def flatCall (p : Project) : Call → Bool
  | .add newId now task =>
    freshId p.tasks (newTaskOf p.tasks newId now task).id &&
      (!(newTaskOf p.tasks newId now task).isSub ||
        parentTopLevel p.tasks (newTaskOf p.tasks newId now task).parentId)
  | .update _ updates _ => updates.id.isNone && updates.parentId.isNone
  | .delete _ _ => true
  | .reorder _ _ => true

/-- The calls of `flatCall` in which moreover `deleteTask` gets a truthy id. -/
def tidyCall (p : Project) : Call → Bool
  | .delete taskId _ => taskId.truthy
  | c => flatCall p c

/-- The calls of `flatCall` in which moreover no patch names the status of a
task that holds subtasks. -/
def statedCall (p : Project) : Call → Bool
  | .update taskId updates now =>
    flatCall p (.update taskId updates now) &&
      p.tasks.all (fun t =>
        decide (t.id ≠ taskId) || !holdsSubtasks p.tasks t || updates.status.isNone)
  | c => flatCall p c

/-- The calls of `statedCall` in which moreover a patch that names the status
of a task that has a `parentId` names a truthy status. -/
def drivenCall (p : Project) : Call → Bool
  | .update taskId updates now =>
    statedCall p (.update taskId updates now) &&
      p.tasks.all (fun t =>
        decide (t.id ≠ taskId) || !t.isSub || updates.status.isNone
          || (rd updates.status).truthy)
  | c => flatCall p c

/-! ## More concrete inputs -/

/-- A record that names only `id`: an `addTask` input that carries its own id,
or an `updateTask` patch that renames the task. -/
def idInput (id : JsVal) : TaskInput :=
  { plainInput with id := some id }

/-- The project after `addTask` of a top-level task, which gets the id `a`. -/
def oneTaskProject : Project := (addTask emptyProject "a" "now" plainInput).2

/-- A single task that names itself as its parent. -/
def selfParentProject : Project :=
  { tasks := [subTask "s" "s" "not-started"], progress := some 0 }

/-! ## Reference definitions for the reorder operation -/

/-- Whether a value is a number. -/
def JsVal.isNum : JsVal → Bool
  | .num _ => true
  | _ => false

/-- The position of a task as an integer (0 when it is not a number). -/
def positionOf (t : Task) : Int :=
  match t.position with
  | .num n => n
  | _ => 0

/-- Every task of the list has a number as its position. -/
def IntegerPositions (tasks : List Task) : Prop :=
  ∀ t ∈ tasks, t.position.isNum = true

instance (tasks : List Task) : Decidable (IntegerPositions tasks) :=
  inferInstanceAs (Decidable (∀ t ∈ tasks, t.position.isNum = true))

/-- Every entry of the orders sequence has a number as its position. -/
def IntegerOrders (taskOrders : List TaskOrder) : Prop :=
  ∀ o ∈ taskOrders, o.position.isNum = true

instance (taskOrders : List TaskOrder) : Decidable (IntegerOrders taskOrders) :=
  inferInstanceAs (Decidable (∀ o ∈ taskOrders, o.position.isNum = true))

/-- The comparison of two tasks by the difference of their integer positions. -/
def byPosition (a b : Task) : Option Int := some (positionOf a - positionOf b)

/-- The tasks of a list that have a `parentId`. -/
def subtaskList (tasks : List Task) : List Task :=
  tasks.filter (fun t => t.isSub)

/-- The position that the last entry of an orders sequence with the given id
names, if there is such an entry. -/
def lastPosition : List TaskOrder → JsVal → Option JsVal
  | [], _ => none
  | o :: rest, id =>
    match lastPosition rest id with
    | some v => some v
    | none => if o.id = id then some o.position else none

/-- A task with the given id and integer position and no other property. -/
def placedTask (id : String) (position : Int) : Task :=
  { leafTask id "not-started" with position := JsVal.num position }

/-- A subtask with the given id, parent id and integer position. -/
def placedSubtask (id parent : String) (position : Int) : Task :=
  { subTask id parent "not-started" with position := JsVal.num position }

/-- No string is read as a number: a stand-in for the conversion of strings to
numbers where no position is a string. -/
def noStrings : String → Option Int := fun _ => none

/-- A task with its `position` and `updatedAt` blanked: what is left is every
property that the reorder operation never writes. -/
def Task.withoutPosition (t : Task) : Task :=
  { t with position := JsVal.undefined, updatedAt := JsVal.undefined }

/-- Two top-level tasks `a` and `b` at the positions 0 and 1. -/
def twoPlacedProject : Project :=
  { tasks := [placedTask "a" 0, placedTask "b" 1], progress := some 0 }

/-- A parent `p` at position 0 with the subtasks `s1` and `s2` at the
positions 1 and 2. -/
def queueProject : Project :=
  { tasks := [placedTask "p" 0, placedSubtask "s1" "p" 1, placedSubtask "s2" "p" 2],
    progress := some 0 }

/-- Three calls of `addTask`: a top-level task `g`, a subtask `p` of `g`, and
a task `t` with `p` as its parent. -/
def nestingCalls : List Call :=
  [Call.add "g" "now" plainInput, Call.add "p" "now" (subtaskInput "g" "not-started"),
    Call.add "t" "now" (subtaskInput "p" "not-started")]

/-- A parent with two subtasks is built, one subtask is completed, the other
is deleted, and the list is reordered. -/
def familyCalls : List Call :=
  [Call.add "p" "now" plainInput, Call.add "a" "now" (subtaskInput "p" "not-started"),
    Call.add "b" "now" (subtaskInput "p" "not-started"),
    Call.update (JsVal.str "a") (statusPatch (JsVal.str "completed")) "now",
    Call.delete (JsVal.str "b") "now",
    Call.reorder [⟨JsVal.str "a", JsVal.num 0⟩] "now"]

/-- A parent with one subtask is built and the subtask is completed; then a
patch names the status `null` for the subtask. -/
def nullStatusCalls : List Call :=
  [Call.add "p" "now" plainInput, Call.add "a" "now" (subtaskInput "p" "not-started"),
    Call.update (JsVal.str "a") (statusPatch (JsVal.str "completed")) "now",
    Call.update (JsVal.str "a") (statusPatch JsVal.null) "now"]

/-- The place of a task in the tree: its `id` and its `parentId`. -/
def Task.link (t : Task) : JsVal × JsVal := (t.id, t.parentId)

/-- Every task of the first list has the place in the tree of some task of
the second list. -/
def LinkSub (l' l : List Task) : Prop :=
  ∀ t' ∈ l', ∃ t ∈ l, t.link = t'.link

/-- The calls of `nestingCalls`, then `deleteTask` of the top-level task. -/
def orphaningCalls : List Call := nestingCalls ++ [Call.delete (JsVal.str "g") "now"]

/-- The part of a task that the propagation rule reads: its `id`, its
`parentId` and its `status`. -/
def Task.core (t : Task) : JsVal × JsVal × JsVal := (t.id, t.parentId, t.status)

/-! ## More inputs of `addTask` -/

/-- An `addTask` input that names only `createdAt`. -/
def createdAtInput (v : JsVal) : TaskInput :=
  { plainInput with createdAt := some v }

/-- An `addTask` input that names a status, a priority, a position and the
free-form property `name`. -/
def fullInput : TaskInput :=
  { plainInput with
    status := some (JsVal.str "on-hold"), priority := some (JsVal.str "high"),
    position := some (JsVal.num 0), extra := [("name", JsVal.str "Survey")] }

/-! ## Reference definitions for the progress rollup -/

/-- The score of a status on a top-level task without subtasks: 1 for
completed, one half for in-progress, 0 for every other value. -/
def statusWeight (s : JsVal) : ℚ :=
  if s = JsVal.str "completed" then 1
  else if s = JsVal.str "in-progress" then 1 / 2
  else 0

/-- A task with the given id, status and integer position, without parent. -/
def rankedTask (id status : String) (position : Int) : Task :=
  { leafTask id status with position := JsVal.num position }

/-- A task with the given id, parent id, status and integer position. -/
def rankedSubtask (id parent status : String) (position : Int) : Task :=
  { subTask id parent status with position := JsVal.num position }

/-- Four top-level tasks at the positions 0 to 3: `A` with one of three
subtasks completed, `I` in progress, `B` with two of three subtasks completed,
`N` not started; the six subtasks are at the positions 4 to 9. The exact
rollup is `100 * 1.5 / 4 = 37.5`. -/
def thirdsProject : Project :=
  { tasks :=
      [rankedTask "A" "not-started" 0, rankedTask "I" "in-progress" 1,
        rankedTask "B" "not-started" 2, rankedTask "N" "not-started" 3,
        rankedSubtask "a1" "A" "completed" 4, rankedSubtask "a2" "A" "not-started" 5,
        rankedSubtask "a3" "A" "not-started" 6, rankedSubtask "b1" "B" "completed" 7,
        rankedSubtask "b2" "B" "completed" 8, rankedSubtask "b3" "B" "not-started" 9],
    progress := some 38 }

/-- The orders that exchange the positions of `A` and `B` in `thirdsProject`. -/
def swapOrders : List TaskOrder :=
  [⟨JsVal.str "A", JsVal.num 2⟩, ⟨JsVal.str "B", JsVal.num 0⟩]

/-- The rollup reads no less of `t'` than of `t`, tasks at the same place of
two lists of which `l` is the first: they have the same `id` and `parentId`;
if `t` is a top-level task without subtasks, the score of its status is at
most that of `t'`; and if `t` names a top-level task as its parent and is
completed, so is `t'`. -/
def ScoreLe (l : List Task) (t t' : Task) : Prop :=
  t'.link = t.link ∧
    (t.isSub = false → directSubtasks l t = [] →
      statusWeight t.status ≤ statusWeight t'.status) ∧
    ((∃ M ∈ l, M.isSub = false ∧ M.id = t.parentId) →
      t.status = JsVal.str "completed" → t'.status = JsVal.str "completed")

/-- What the loop of `calculateProgress` keeps true of two runs of which the
second scores no less: the total weights are equal, the completed weights are
in order, and the larger one is a double. -/
def WeightsLe (acc acc' : ℚ × ℚ) : Prop :=
  acc.1 = acc'.1 ∧ 0 ≤ acc.2 ∧ acc.2 ≤ acc'.2 ∧ fl acc'.2 = acc'.2

/-- A task `m` with the id `null`, a task `p` that carries `parentId: null`
and so is a top-level task, and a subtask `c` of `p`. -/
def nullIdTasks (status : String) : List Task :=
  [{ leafTask "m" "not-started" with id := JsVal.null },
    { leafTask "p" status with parentId := JsVal.null },
    subTask "c" "p" "not-started"]

/-! ## Roles and users -/

/-- A row of the `Role` model of `models/Role.js`. The elements of the JSON
column `permissions` are strings. -/
structure Role where
  id : Nat
  name : String
  displayName : String
  description : Option String
  permissions : List String
  priority : Int
  isSystem : Bool
  deriving DecidableEq

/-- A row of the `User` model, as far as the routes and the guards read and
write it, with the role that the query includes as `user.Role`. The file
`models/User.js` is not among the sources: the methods of the model that the
routes call are arguments of the handlers (`LoginEnv`). -/
structure User where
  id : JsVal
  email : String
  password : String
  isActive : Bool
  role : Option Role
  refreshToken : Option String
  deriving DecidableEq

/-- The table `DEFAULT_PERMISSIONS` of `models/Role.js`. -/
def defaultPermissions : String → List String
  | "admin" =>
    ["users.create", "users.read", "users.update", "users.delete",
      "projects.create", "projects.read", "projects.update", "projects.delete",
      "reports.executive", "reports.portfolio", "reports.resource", "reports.risk",
      "settings.manage", "roles.manage", "audit.view"]
  | "project_manager" =>
    ["projects.create", "projects.read", "projects.update", "projects.delete",
      "reports.executive", "reports.portfolio", "reports.resource", "reports.risk",
      "users.read", "audit.view"]
  | "team_lead" =>
    ["projects.read", "projects.update", "reports.portfolio", "reports.risk",
      "reports.project", "users.read"]
  | "technician" => ["projects.read", "projects.update.tasks", "reports.project"]
  | "client" => ["projects.read.own", "reports.project.own"]
  | _ => []

/-- The rows that `Role.createDefaultRoles` creates in an empty table. -/
def defaultRoles : List Role :=
  [{ id := 1, name := "admin", displayName := "Administrator",
      description := some "Full system access with all permissions",
      permissions := defaultPermissions "admin", priority := 100, isSystem := true },
    { id := 2, name := "project_manager", displayName := "Project Manager",
      description := some "Can manage all projects and view all reports",
      permissions := defaultPermissions "project_manager", priority := 80, isSystem := true },
    { id := 3, name := "team_lead", displayName := "Team Lead",
      description := some "Can edit assigned projects and view team reports",
      permissions := defaultPermissions "team_lead", priority := 60, isSystem := true },
    { id := 4, name := "technician", displayName := "Technician",
      description := some "Can update task status and add notes",
      permissions := defaultPermissions "technician", priority := 40, isSystem := true },
    { id := 5, name := "client", displayName := "Client",
      description := some "View-only access to specific projects",
      permissions := defaultPermissions "client", priority := 20, isSystem := true }]

/-- The argument of a permission check: the call sites pass a string, and
one call site passes an array of strings. -/
inductive PermissionArg where
  | str (s : String)
  | array (items : List String)
  deriving DecidableEq

/-- The method `Role.prototype.hasPermission`: `this.permissions.includes(permission)`.
An array is an object; `includes` finds it equal to no string, and to no other
value than itself, and the array that a call site writes as a literal is a new
object. -/
def Role.hasPermission (r : Role) : PermissionArg → Bool
  | .str s => r.permissions.contains s
  | .array _ => false

/-- The method `Role.prototype.addPermission`, on the row. -/
def Role.addPermission (r : Role) (permission : String) : Role :=
  if r.permissions.contains permission then r
  else { r with permissions := r.permissions ++ [permission] }

/-- The method `Role.prototype.removePermission`, on the row. -/
def Role.removePermission (r : Role) (permission : String) : Role :=
  { r with permissions := r.permissions.filter (fun q => q ≠ permission) }

/-! ## The guards of `middleware/auth.js` -/

/-- What a guard does with a request: it calls `next()`, or it responds with
a status and an error. -/
inductive Guard where
  | next
  | respond (status : Nat) (error : String)
  deriving DecidableEq

/-- The guard `authorize(permission)`, on `req.user` (`none` when the request
has no user). -/
def authorize (permission : PermissionArg) : Option User → Guard
  | none => Guard.respond 401 "Authentication required"
  | some user =>
    if user.role.map (fun r => r.name) = some "admin" then Guard.next
    else if (user.role.map (fun r => r.hasPermission permission)).getD false then Guard.next
    else Guard.respond 403 "Insufficient permissions"

/-- The guard `requireRole(roles)`, on `req.user`; a single role name is a
list of one. -/
def requireRole (roles : List String) : Option User → Guard
  | none => Guard.respond 401 "Authentication required"
  | some user =>
    if (user.role.map (fun r => roles.contains r.name)).getD false then Guard.next
    else Guard.respond 403 "Insufficient role privileges"

/-- The guard of `GET /api/dashboard/executive-summary`, after `authenticate`:
`authorize(['admin', 'project-manager'])`. -/
def executiveSummaryGuard (user : User) : Guard :=
  authorize (PermissionArg.array ["admin", "project-manager"]) (some user)

/-! ## The method `canUserAccess` of `models/Project.js` -/

/-- The fields of a project that `canUserAccess` reads; `clientUserId` is
`this.metadata.clientUserId`, `undefined` when the metadata lack it. -/
structure ProjectAccess where
  ownerId : JsVal
  teamMembers : List JsVal
  clientUserId : JsVal
  deriving DecidableEq

/-- Whether the characters `sub` are the first characters of `s`. -/
def startsWithChars : List Char → List Char → Bool
  | _, [] => true
  | [], _ :: _ => false
  | c :: cs, d :: ds => decide (c = d) && startsWithChars cs ds

/-- Whether the characters `sub` occur in `s`, one after the other. -/
def includesChars : List Char → List Char → Bool
  | [], sub => startsWithChars [] sub
  | c :: cs, sub => startsWithChars (c :: cs) sub || includesChars cs sub

/-- The method `String.prototype.includes`. -/
def stringIncludes (s sub : String) : Bool := includesChars s.toList sub.toList

/-- The method `Project.prototype.canUserAccess`. -/
def canUserAccess (project : ProjectAccess) (user : User) (permission : String) : Bool :=
  if user.role.map (fun r => r.name) = some "admin" then true
  else if project.ownerId = user.id then true
  else if project.teamMembers.contains user.id
      && (user.role.map (fun r => r.hasPermission (PermissionArg.str permission))).getD false
    then true
  else if user.role.map (fun r => r.name) = some "client"
      && decide (project.clientUserId = user.id) then
    stringIncludes permission "read"
  else false

/-! ## The login handler of `routes/auth.js` -/

/-- What the login handler takes from outside the sources: the methods
`validatePassword` and `updateLoginInfo` of the `User` model, and the two
token generators, which sign with a secret of the environment. -/
structure LoginEnv where
  validatePassword : User → String → Bool
  generateToken : JsVal → String
  generateRefreshToken : JsVal → String
  updateLoginInfo : User → User

/-- The users table and the audit log (user id and action of each entry). -/
structure AuthState where
  users : List User
  auditLog : List (JsVal × String)
  deriving DecidableEq

/-- The response of the login handler: the status and the properties of the
JSON body. -/
structure LoginResponse where
  status : Nat
  error : Option String
  message : Option String
  user : Option User
  token : Option String
  refreshToken : Option String
  deriving DecidableEq

/-- The response `res.status(401).json({ error: 'Invalid credentials' })`. -/
def invalidCredentials : LoginResponse :=
  { status := 401, error := some "Invalid credentials", message := none, user := none,
    token := none, refreshToken := none }

/-- The handler of `POST /api/auth/login`, for a request that has passed the
validation: the response and the state that it leaves. -/
def login (env : LoginEnv) (st : AuthState) (email password : String) :
    LoginResponse × AuthState :=
  match st.users.find? (fun u => decide (u.email = email) && u.isActive) with
  | none => (invalidCredentials, st)
  | some user =>
    if !env.validatePassword user password then (invalidCredentials, st)
    else
      let token := env.generateToken user.id
      let refreshToken := env.generateRefreshToken user.id
      let saved := env.updateLoginInfo { user with refreshToken := some refreshToken }
      ({ status := 200, error := none, message := some "Login successful", user := some saved,
          token := some token, refreshToken := some refreshToken },
        { users := st.users.map (fun u => if u.id = user.id then saved else u),
          auditLog := st.auditLog ++ [(user.id, "LOGIN")] })

/-! ## The handlers of `routes/roles.js` -/

/-- The fields of the body of `PUT /api/roles/:id` that the handler copies;
`none` for a field that the body lacks. -/
structure RoleUpdate where
  displayName : Option String
  description : Option (Option String)
  permissions : Option (List String)
  priority : Option Int
  deriving DecidableEq

/-- The response of a roles handler: the status, and the `error` or the
`message` of the JSON body. -/
structure RoleResponse where
  status : Nat
  error : Option String
  message : Option String
  deriving DecidableEq

/-- The query `Role.findByPk(id)`. -/
def findByPk (roles : List Role) (id : Nat) : Option Role :=
  roles.find? (fun r => decide (r.id = id))

/-- The write of a row back to the table. -/
def saveRole (roles : List Role) (r : Role) : List Role :=
  roles.map (fun x => if x.id = r.id then r else x)

/-- The response of a guard that does not call `next()`. -/
def guardResponse (status : Nat) (error : String) : RoleResponse :=
  { status := status, error := some error, message := none }

/-- The assignment of the fields of the body to the row (`role.update`). -/
def Role.applyUpdate (r : Role) (body : RoleUpdate) : Role :=
  { r with
    displayName := body.displayName.getD r.displayName
    description := body.description.getD r.description
    permissions := body.permissions.getD r.permissions
    priority := body.priority.getD r.priority }

/-- The route `PUT /api/roles/:id`: `requireRole('admin')`, then the handler;
`valid` says whether the validators found no error in the body. -/
def putRole (user : Option User) (valid : Bool) (roles : List Role) (id : Nat)
    (body : RoleUpdate) : RoleResponse × List Role :=
  match requireRole ["admin"] user with
  | Guard.respond status error => (guardResponse status error, roles)
  | Guard.next =>
    if !valid then ({ status := 400, error := none, message := none }, roles)
    else
      match findByPk roles id with
      | none => (guardResponse 404 "Role not found", roles)
      | some role =>
        if role.isSystem then (guardResponse 400 "Cannot modify system roles", roles)
        else
          ({ status := 200, error := none, message := some "Role updated successfully" },
            saveRole roles (role.applyUpdate body))

/-- The route `DELETE /api/roles/:id`; `userCount` is the number of users
with the role. -/
def deleteRole (user : Option User) (userCount : Nat) (roles : List Role) (id : Nat) :
    RoleResponse × List Role :=
  match requireRole ["admin"] user with
  | Guard.respond status error => (guardResponse status error, roles)
  | Guard.next =>
    match findByPk roles id with
    | none => (guardResponse 404 "Role not found", roles)
    | some role =>
      if role.isSystem then (guardResponse 400 "Cannot delete system roles", roles)
      else if 0 < userCount then
        (guardResponse 400
          ("Cannot delete role with " ++ toString userCount ++ " assigned users"), roles)
      else
        ({ status := 200, error := none, message := some "Role deleted successfully" },
          roles.filter (fun x => decide (x.id ≠ role.id)))

/-- The route `POST /api/roles/:id/permissions`; `permission` is the field of
the body as the sanitizer leaves it (the handler does not look at the outcome
of the validation). -/
def postPermission (user : Option User) (roles : List Role) (id : Nat) (permission : String) :
    RoleResponse × List Role :=
  match requireRole ["admin"] user with
  | Guard.respond status error => (guardResponse status error, roles)
  | Guard.next =>
    match findByPk roles id with
    | none => (guardResponse 404 "Role not found", roles)
    | some role =>
      ({ status := 200, error := none, message := some "Permission added successfully" },
        saveRole roles (role.addPermission permission))

/-- The route `DELETE /api/roles/:id/permissions/:permission`. -/
def deletePermission (user : Option User) (roles : List Role) (id : Nat)
    (permission : String) : RoleResponse × List Role :=
  match requireRole ["admin"] user with
  | Guard.respond status error => (guardResponse status error, roles)
  | Guard.next =>
    match findByPk roles id with
    | none => (guardResponse 404 "Role not found", roles)
    | some role =>
      ({ status := 200, error := none, message := some "Permission removed successfully" },
        saveRole roles (role.removePermission permission))

/-! ## Reference definitions and concrete users -/

/-- The string `sub` occurs in the string `s`. -/
def Contains (s sub : String) : Prop :=
  ∃ pre post : List Char, s.toList = pre ++ sub.toList ++ post

/-- A user with the given id and role, active, without refresh token. -/
def userOf (id : Int) (email : String) (role : Option Role) : User :=
  { id := JsVal.num id, email := email, password := "secret", isActive := true, role := role,
    refreshToken := none }

/-- The default role with the given id, if there is one. -/
def defaultRole (id : Nat) : Option Role := findByPk defaultRoles id

/-- An administrator. -/
def adminUser : User := userOf 1 "admin@example.com" (defaultRole 1)

/-- A user with the default role `project_manager`. -/
def managerUser : User := userOf 2 "pm@example.com" (defaultRole 2)

/-- A user with the default role `client`. -/
def clientUser : User := userOf 5 "client@example.com" (defaultRole 5)

/-- A stand-in for the methods of the `User` model and the token generators:
the password check compares with the stored field. -/
def plainEnv : LoginEnv :=
  { validatePassword := fun u pw => decide (u.password = pw)
    generateToken := fun _ => "token"
    generateRefreshToken := fun _ => "refresh"
    updateLoginInfo := fun u => u }

/-- A users table with the administrator and the project manager. -/
def twoUsers : AuthState := { users := [adminUser, managerUser], auditLog := [] }

/-- A project that the user 9 owns, with the users 2 and 5 as team members
and the user 5 as its client. -/
def sampleAccess : ProjectAccess :=
  { ownerId := JsVal.num 9, teamMembers := [JsVal.num 2, JsVal.num 5],
    clientUserId := JsVal.num 5 }


/-! ## Facts about the rounding -/

theorem ilog2Loop_spec : ∀ (fuel n : Nat), n ≤ fuel → 1 ≤ n →
    2 ^ ilog2Loop fuel n ≤ n ∧ n < 2 ^ (ilog2Loop fuel n + 1)
  | 0, n, h, h1 => by omega
  | fuel + 1, n, h, h1 => by
    unfold ilog2Loop
    split
    · have ih := ilog2Loop_spec fuel (n / 2) (by omega) (by omega)
      rw [pow_succ, pow_succ]
      rw [pow_succ] at ih
      omega
    · simp; omega

theorem ilog2_spec (n : Nat) (h : 1 ≤ n) : 2 ^ ilog2 n ≤ n ∧ n < 2 ^ (ilog2 n + 1) :=
  ilog2Loop_spec n n le_rfl h

theorem two_zpow_pos (e : ℤ) : (0 : ℚ) < (2 : ℚ) ^ e := zpow_pos (by norm_num) e

theorem binade_aux (q N D A B : ℚ) (e0 : ℤ) (hq : q * D = N) (hD : 0 < D) (hB : 0 < B)
    (he : (2 : ℚ) ^ e0 = A / B) (ha1 : A ≤ N) (ha2 : N < A * 2) (hb1 : B ≤ D)
    (hb2 : D < B * 2) :
    (2 : ℚ) ^ (if q < (2 : ℚ) ^ e0 then e0 - 1 else e0) ≤ q ∧
      q < (2 : ℚ) ^ ((if q < (2 : ℚ) ^ e0 then e0 - 1 else e0) + 1) := by
  have h2 : (2 : ℚ) ≠ 0 := by norm_num
  split
  · rename_i hlt
    refine ⟨?_, by simpa using hlt⟩
    rw [zpow_sub_one₀ h2, he, div_mul_eq_mul_div, div_le_iff₀ hB]
    nlinarith
  · rename_i hge
    refine ⟨not_lt.mp hge, ?_⟩
    rw [zpow_add_one₀ h2, he, div_mul_eq_mul_div, lt_div_iff₀ hB]
    nlinarith

theorem binade_spec {q : ℚ} (hq : 0 < q) :
    (2 : ℚ) ^ binade q ≤ q ∧ q < (2 : ℚ) ^ (binade q + 1) := by
  have hnum : 0 < q.num := Rat.num_pos.mpr hq
  have hden : 0 < q.den := q.den_pos
  obtain ⟨ha1, ha2⟩ := ilog2_spec q.num.natAbs (by omega)
  obtain ⟨hb1, hb2⟩ := ilog2_spec q.den (by omega)
  have hn : ((q.num.natAbs : ℕ) : ℚ) = (q.num : ℚ) := by
    rw [Nat.cast_natAbs, abs_of_pos hnum]
  have hdpos : (0 : ℚ) < (q.den : ℚ) := by exact_mod_cast hden
  have hqe : q * (q.den : ℚ) = ((q.num.natAbs : ℕ) : ℚ) := by
    rw [hn]; exact Rat.mul_den_eq_num q
  have ha1' : (2 : ℚ) ^ (ilog2 q.num.natAbs) ≤ (q.num.natAbs : ℚ) := by exact_mod_cast ha1
  have ha2' : (q.num.natAbs : ℚ) < (2 : ℚ) ^ (ilog2 q.num.natAbs) * 2 := by
    rw [← pow_succ]; exact_mod_cast ha2
  have hb1' : (2 : ℚ) ^ (ilog2 q.den) ≤ (q.den : ℚ) := by exact_mod_cast hb1
  have hb2' : (q.den : ℚ) < (2 : ℚ) ^ (ilog2 q.den) * 2 := by
    rw [← pow_succ]; exact_mod_cast hb2
  have e1 : (2 : ℚ) ^ ((ilog2 q.num.natAbs : ℤ) - (ilog2 q.den : ℤ))
      = (2 : ℚ) ^ (ilog2 q.num.natAbs) / (2 : ℚ) ^ (ilog2 q.den) := by
    rw [zpow_sub₀ (by norm_num), zpow_natCast, zpow_natCast]
  exact binade_aux q _ _ _ _ _ hqe hdpos (by positivity) e1 ha1' ha2' hb1' hb2'

theorem binade_unique {q : ℚ} {e : ℤ} (h1 : (2 : ℚ) ^ e ≤ q) (h2 : q < (2 : ℚ) ^ (e + 1)) :
    binade q = e := by
  have hq : 0 < q := lt_of_lt_of_le (two_zpow_pos e) h1
  obtain ⟨s1, s2⟩ := binade_spec hq
  have a1 : e < binade q + 1 :=
    (zpow_lt_zpow_iff_right₀ (by norm_num : (1 : ℚ) < 2)).mp (lt_of_le_of_lt h1 s2)
  have a2 : binade q < e + 1 :=
    (zpow_lt_zpow_iff_right₀ (by norm_num : (1 : ℚ) < 2)).mp (lt_of_le_of_lt s1 h2)
  omega

theorem binade_mono {x y : ℚ} (hx : 0 < x) (hxy : x ≤ y) : binade x ≤ binade y := by
  obtain ⟨s1, _⟩ := binade_spec hx
  obtain ⟨_, t2⟩ := binade_spec (lt_of_lt_of_le hx hxy)
  have : binade x < binade y + 1 :=
    (zpow_lt_zpow_iff_right₀ (by norm_num : (1 : ℚ) < 2)).mp
      (lt_of_le_of_lt (le_trans s1 hxy) t2)
  omega

theorem roundHalfEven_intCast (z : ℤ) : roundHalfEven (z : ℚ) = z := by
  unfold roundHalfEven
  simp

theorem floor_le_roundHalfEven (q : ℚ) : ⌊q⌋ ≤ roundHalfEven q := by
  unfold roundHalfEven
  simp only
  split_ifs <;> omega

theorem roundHalfEven_le_floor_succ (q : ℚ) : roundHalfEven q ≤ ⌊q⌋ + 1 := by
  unfold roundHalfEven
  simp only
  split_ifs <;> omega

theorem roundHalfEven_mono {a b : ℚ} (h : a ≤ b) : roundHalfEven a ≤ roundHalfEven b := by
  have hf : ⌊a⌋ ≤ ⌊b⌋ := Int.floor_mono h
  rcases hf.lt_or_eq with hlt | heq
  · calc roundHalfEven a ≤ ⌊a⌋ + 1 := roundHalfEven_le_floor_succ a
      _ ≤ ⌊b⌋ := by omega
      _ ≤ roundHalfEven b := floor_le_roundHalfEven b
  · unfold roundHalfEven
    simp only
    rw [heq]
    split_ifs <;> first | omega | (exfalso; linarith)

theorem le_roundHalfEven {z : ℤ} {q : ℚ} (h : (z : ℚ) ≤ q) : z ≤ roundHalfEven q := by
  have := roundHalfEven_mono h
  rwa [roundHalfEven_intCast] at this

theorem roundHalfEven_le {z : ℤ} {q : ℚ} (h : q ≤ (z : ℚ)) : roundHalfEven q ≤ z := by
  have := roundHalfEven_mono h
  rwa [roundHalfEven_intCast] at this

theorem ulp_mul_52 (e : ℤ) : (2 : ℚ) ^ (52 : ℕ) * (2 : ℚ) ^ (e - 52) = (2 : ℚ) ^ e := by
  rw [← zpow_natCast, ← zpow_add₀ (by norm_num)]
  congr 1
  push_cast
  ring

theorem ulp_mul_53 (e : ℤ) : (2 : ℚ) ^ (53 : ℕ) * (2 : ℚ) ^ (e - 52) = (2 : ℚ) ^ (e + 1) := by
  rw [← zpow_natCast, ← zpow_add₀ (by norm_num)]
  congr 1
  push_cast
  ring

/-- The significand that `flPos` computes lies between `2 ^ 52` and `2 ^ 53`. -/
theorem significand_bounds {q : ℚ} (hq : 0 < q) :
    (2 : ℤ) ^ (52 : ℕ) ≤ roundHalfEven (q / (2 : ℚ) ^ (binade q - 52)) ∧
      roundHalfEven (q / (2 : ℚ) ^ (binade q - 52)) ≤ (2 : ℤ) ^ (53 : ℕ) := by
  obtain ⟨s1, s2⟩ := binade_spec hq
  have hu := two_zpow_pos (binade q - 52)
  constructor
  · apply le_roundHalfEven
    rw [le_div_iff₀ hu]
    have h52 := ulp_mul_52 (binade q)
    push_cast
    norm_num at h52
    linarith
  · apply roundHalfEven_le
    rw [div_le_iff₀ hu]
    have h53 := ulp_mul_53 (binade q)
    push_cast
    norm_num at h53
    linarith

theorem flPos_bounds {q : ℚ} (hq : 0 < q) :
    (2 : ℚ) ^ binade q ≤ flPos q ∧ flPos q ≤ (2 : ℚ) ^ (binade q + 1) := by
  obtain ⟨m1, m2⟩ := significand_bounds hq
  have hu := two_zpow_pos (binade q - 52)
  have m1' : ((2 : ℚ) ^ (52 : ℕ)) ≤ (roundHalfEven (q / (2 : ℚ) ^ (binade q - 52)) : ℚ) := by
    exact_mod_cast m1
  have m2' : (roundHalfEven (q / (2 : ℚ) ^ (binade q - 52)) : ℚ) ≤ ((2 : ℚ) ^ (53 : ℕ)) := by
    exact_mod_cast m2
  unfold flPos
  simp only
  constructor
  · rw [← ulp_mul_52]
    exact mul_le_mul_of_nonneg_right m1' hu.le
  · rw [← ulp_mul_53]
    exact mul_le_mul_of_nonneg_right m2' hu.le

theorem flPos_pos {q : ℚ} (hq : 0 < q) : 0 < flPos q :=
  lt_of_lt_of_le (two_zpow_pos _) (flPos_bounds hq).1

theorem flPos_mono {x y : ℚ} (hx : 0 < x) (hxy : x ≤ y) : flPos x ≤ flPos y := by
  have hy : 0 < y := lt_of_lt_of_le hx hxy
  rcases (binade_mono hx hxy).lt_or_eq with hlt | heq
  · calc flPos x ≤ (2 : ℚ) ^ (binade x + 1) := (flPos_bounds hx).2
      _ ≤ (2 : ℚ) ^ binade y := zpow_le_zpow_right₀ (by norm_num) (by omega)
      _ ≤ flPos y := (flPos_bounds hy).1
  · unfold flPos
    simp only
    rw [heq]
    have hu := two_zpow_pos (binade y - 52)
    apply mul_le_mul_of_nonneg_right _ hu.le
    have : x / (2 : ℚ) ^ (binade y - 52) ≤ y / (2 : ℚ) ^ (binade y - 52) :=
      div_le_div_of_nonneg_right hxy hu.le
    exact_mod_cast roundHalfEven_mono this

theorem fl_zero : fl 0 = 0 := by simp [fl]

theorem fl_of_pos {q : ℚ} (hq : 0 < q) : fl q = flPos q := by
  simp [fl, hq.ne', not_lt.mpr hq.le]

theorem fl_nonneg {q : ℚ} (hq : 0 ≤ q) : 0 ≤ fl q := by
  rcases hq.lt_or_eq with h | h
  · rw [fl_of_pos h]; exact (flPos_pos h).le
  · rw [← h, fl_zero]

theorem fl_mono {x y : ℚ} (hx : 0 ≤ x) (hxy : x ≤ y) : fl x ≤ fl y := by
  rcases hx.lt_or_eq with h | h
  · rw [fl_of_pos h, fl_of_pos (lt_of_lt_of_le h hxy)]
    exact flPos_mono h hxy
  · rw [← h, fl_zero]
    exact fl_nonneg (le_trans hx hxy)

/-- A rational with a significand of 53 bits is a double. -/
theorem flPos_mul_zpow (m : ℤ) (e : ℤ) (h1 : (2 : ℤ) ^ (52 : ℕ) ≤ m)
    (h2 : m < (2 : ℤ) ^ (53 : ℕ)) : flPos ((m : ℚ) * (2 : ℚ) ^ e) = (m : ℚ) * (2 : ℚ) ^ e := by
  have hu := two_zpow_pos e
  have h1' : ((2 : ℚ) ^ (52 : ℕ)) ≤ (m : ℚ) := by exact_mod_cast h1
  have h2' : (m : ℚ) < ((2 : ℚ) ^ (53 : ℕ)) := by exact_mod_cast h2
  have hb : binade ((m : ℚ) * (2 : ℚ) ^ e) = e + 52 := by
    apply binade_unique
    · rw [← ulp_mul_52 (e + 52)]
      simp only [add_sub_cancel_right]
      exact mul_le_mul_of_nonneg_right h1' hu.le
    · rw [← ulp_mul_53 (e + 52)]
      simp only [add_sub_cancel_right]
      exact mul_lt_mul_of_pos_right h2' hu
  unfold flPos
  simp only
  rw [hb]
  simp only [add_sub_cancel_right]
  rw [mul_div_assoc, div_self hu.ne', mul_one, roundHalfEven_intCast]

theorem flPos_flPos {q : ℚ} (hq : 0 < q) : flPos (flPos q) = flPos q := by
  obtain ⟨m1, m2⟩ := significand_bounds hq
  rcases m2.lt_or_eq with hlt | heq
  · exact flPos_mul_zpow _ _ m1 hlt
  · have : flPos q = (((2 : ℤ) ^ (52 : ℕ) : ℤ) : ℚ) * (2 : ℚ) ^ (binade q - 52 + 1) := by
      unfold flPos
      simp only
      rw [heq, zpow_add_one₀ (by norm_num)]
      push_cast
      ring
    rw [this]
    exact flPos_mul_zpow _ _ le_rfl (by norm_num)

theorem fl_fl {q : ℚ} (hq : 0 ≤ q) : fl (fl q) = fl q := by
  rcases hq.lt_or_eq with h | h
  · rw [fl_of_pos h, fl_of_pos (flPos_pos h), flPos_flPos h]
  · rw [← h, fl_zero, fl_zero]

theorem fl_one : fl 1 = 1 := by decide!

theorem fl_hundred : fl 100 = 100 := by decide!

/-- Every natural number up to `2 ^ 53` is a double. -/
theorem fl_natCast (n : ℕ) (h : n ≤ 2 ^ 53) : fl (n : ℚ) = n := by
  rcases Nat.eq_zero_or_pos n with h0 | hpos
  · subst h0; simp [fl_zero]
  have hq : (0 : ℚ) < (n : ℚ) := by exact_mod_cast hpos
  rw [fl_of_pos hq]
  rcases h.lt_or_eq with hlt | heq
  · obtain ⟨a1, a2⟩ := ilog2_spec n hpos
    have ha : ilog2 n ≤ 52 := by
      by_contra hc
      have : 2 ^ 53 ≤ 2 ^ ilog2 n := Nat.pow_le_pow_right (by norm_num) (by omega)
      omega
    obtain ⟨j, hj⟩ : ∃ j, ilog2 n + j = 52 := ⟨52 - ilog2 n, by omega⟩
    have e1 : (n : ℚ) = (((n * 2 ^ j : ℕ) : ℤ) : ℚ) * (2 : ℚ) ^ (-(j : ℤ)) := by
      push_cast
      rw [zpow_neg, zpow_natCast, mul_assoc, mul_inv_cancel₀ (by positivity), mul_one]
    have b1 : 2 ^ 52 ≤ n * 2 ^ j := by
      calc 2 ^ 52 = 2 ^ ilog2 n * 2 ^ j := by rw [← pow_add, hj]
        _ ≤ n * 2 ^ j := Nat.mul_le_mul_right _ a1
    have b2 : n * 2 ^ j < 2 ^ 53 := by
      calc n * 2 ^ j < 2 ^ (ilog2 n + 1) * 2 ^ j :=
            Nat.mul_lt_mul_of_pos_right a2 (by positivity)
        _ = 2 ^ 53 := by rw [← pow_add]; congr 1; omega
    rw [e1]
    exact flPos_mul_zpow _ _ (by exact_mod_cast b1) (by exact_mod_cast b2)
  · subst heq
    have e1 : (((2 ^ 53 : ℕ) : ℕ) : ℚ) = (((2 : ℤ) ^ (52 : ℕ) : ℤ) : ℚ) * (2 : ℚ) ^ (1 : ℤ) := by
      norm_num
    rw [e1]
    exact flPos_mul_zpow _ _ le_rfl (by norm_num)

/-! ## `calculateProgress` -/

theorem mathRound_bounds {x : ℚ} (h0 : 0 ≤ x) (h1 : x ≤ 100) :
    0 ≤ mathRound x ∧ mathRound x ≤ 100 := by
  unfold mathRound
  constructor
  · exact Int.floor_nonneg.mpr (by linarith)
  · have : ⌊x + 1 / 2⌋ < 101 := Int.floor_lt.mpr (by push_cast; linarith)
    omega

theorem subtaskProgress_bounds (c n : ℕ) (hc : c ≤ n) (hn : 0 < n) :
    0 ≤ fl ((c : ℚ) / (n : ℚ)) ∧ fl ((c : ℚ) / (n : ℚ)) ≤ 1 := by
  have hn' : (0 : ℚ) < (n : ℚ) := by exact_mod_cast hn
  have hc' : (c : ℚ) ≤ (n : ℚ) := by exact_mod_cast hc
  have h0 : (0 : ℚ) ≤ (c : ℚ) / (n : ℚ) := by positivity
  have h1 : (c : ℚ) / (n : ℚ) ≤ 1 := (div_le_one hn').mpr hc'
  exact ⟨fl_nonneg h0, by simpa [fl_one] using fl_mono h0 h1⟩

theorem progressStep_ok (tasks : List Task) (acc : ℚ × ℚ) (task : Task)
    (h : WeightsOk acc) :
    WeightsOk (progressStep tasks acc task) ∧ 1 ≤ (progressStep tasks acc task).1 := by
  obtain ⟨h0, h1, h2⟩ := h
  have ht0 : 0 ≤ acc.1 := le_trans h0 h1
  have hone : (1 : ℚ) ≤ fl (acc.1 + 1) := by
    simpa [fl_one] using fl_mono (by norm_num : (0 : ℚ) ≤ 1) (by linarith : (1 : ℚ) ≤ acc.1 + 1)
  have hidem : fl (fl (acc.1 + 1)) = fl (acc.1 + 1) := fl_fl (by linarith)
  unfold progressStep
  simp only
  split
  · refine ⟨⟨?_, ?_, hidem⟩, hone⟩
    · split_ifs
      · exact fl_nonneg (by linarith)
      · exact fl_nonneg (by linarith)
      · exact h0
    · split_ifs
      · exact fl_mono (by linarith) (by linarith)
      · exact fl_mono (by linarith) (by linarith)
      · calc acc.2 ≤ acc.1 := h1
          _ = fl acc.1 := h2.symm
          _ ≤ fl (acc.1 + 1) := fl_mono ht0 (by linarith)
  · rename_i hlen
    have hb := subtaskProgress_bounds
      ((List.filter (fun st => decide (st.status = JsVal.str "completed"))
        (List.filter (fun st => decide (st.parentId = task.id)) tasks)).length)
      ((List.filter (fun st => decide (st.parentId = task.id)) tasks).length)
      (List.length_filter_le _ _) (Nat.pos_of_ne_zero hlen)
    refine ⟨⟨?_, ?_, hidem⟩, hone⟩
    · exact fl_nonneg (by linarith [hb.1])
    · exact fl_mono (by linarith [hb.1]) (by linarith [hb.2])

theorem foldl_progressStep_ok (tasks : List Task) :
    ∀ (l : List Task) (acc : ℚ × ℚ), WeightsOk acc →
      WeightsOk (l.foldl (progressStep tasks) acc) ∧
        (l ≠ [] → 1 ≤ (l.foldl (progressStep tasks) acc).1)
  | [], acc, h => ⟨h, fun hne => absurd rfl hne⟩
  | t :: l, acc, h => by
    obtain ⟨s1, s2⟩ := progressStep_ok tasks acc t h
    obtain ⟨r1, r2⟩ := foldl_progressStep_ok tasks l (progressStep tasks acc t) s1
    refine ⟨r1, fun _ => ?_⟩
    rcases l with _ | ⟨u, l⟩
    · exact s2
    · exact r2 (by simp)

theorem weightsOk_zero : WeightsOk (0, 0) := ⟨le_rfl, le_rfl, fl_zero⟩

theorem progressWeights_ok (tasks : List Task) :
    WeightsOk (progressWeights tasks) ∧
      (tasks.filter (fun task => !task.isSub) ≠ [] → 1 ≤ (progressWeights tasks).1) :=
  foldl_progressStep_ok tasks _ _ weightsOk_zero

theorem calculateProgress_of_main (tasks : List Task)
    (h : tasks.filter (fun task => !task.isSub) ≠ []) :
    calculateProgress tasks
      = some (mathRound (fl (fl ((progressWeights tasks).2 / (progressWeights tasks).1) * 100))) := by
  have hw := (progressWeights_ok tasks).2 h
  have hne : tasks ≠ [] := by
    rintro rfl
    exact h rfl
  have hd : (progressWeights tasks).1 ≠ 0 := by linarith
  unfold calculateProgress
  simp [List.length_eq_zero, hne, h, jsDiv, hd]

theorem calculateProgress_of_no_main (tasks : List Task)
    (h : tasks.filter (fun task => !task.isSub) = []) :
    calculateProgress tasks = some 0 := by
  unfold calculateProgress
  simp only [List.length_eq_zero, h]
  split <;> simp

/-- C2. For every task list, `calculateProgress` returns an integer between 0
and 100: the divisor `totalWeight` is at least 1 whenever the division is
reached, and a list made only of subtasks (no top-level task) gives 0. -/
theorem calculateProgress_range (tasks : List Task) :
    (∃ p : Int, calculateProgress tasks = some p ∧ 0 ≤ p ∧ p ≤ 100) ∧
      (tasks.filter (fun task => !task.isSub) = [] ∨ 1 ≤ (progressWeights tasks).1) ∧
      calculateProgress (tasks.filter (fun task => task.isSub)) = some 0 := by
  refine ⟨?_, ?_, ?_⟩
  · by_cases h : tasks.filter (fun task => !task.isSub) = []
    · exact ⟨0, calculateProgress_of_no_main tasks h, le_rfl, by norm_num⟩
    · obtain ⟨⟨w0, w1, _⟩, w3⟩ := progressWeights_ok tasks
      have hpos : (0 : ℚ) < (progressWeights tasks).1 := by linarith [w3 h]
      have q0 : 0 ≤ (progressWeights tasks).2 / (progressWeights tasks).1 := by positivity
      have q1 : (progressWeights tasks).2 / (progressWeights tasks).1 ≤ 1 :=
        (div_le_one hpos).mpr w1
      have r0 := fl_nonneg q0
      have r1 : fl ((progressWeights tasks).2 / (progressWeights tasks).1) ≤ 1 := by
        simpa [fl_one] using fl_mono q0 q1
      have s0 : 0 ≤ fl (fl ((progressWeights tasks).2 / (progressWeights tasks).1) * 100) :=
        fl_nonneg (by linarith)
      have s1 : fl (fl ((progressWeights tasks).2 / (progressWeights tasks).1) * 100) ≤ 100 := by
        simpa [fl_hundred] using fl_mono (by linarith :
          0 ≤ fl ((progressWeights tasks).2 / (progressWeights tasks).1) * 100)
          (by linarith :
            fl ((progressWeights tasks).2 / (progressWeights tasks).1) * 100 ≤ 100)
      obtain ⟨b0, b1⟩ := mathRound_bounds s0 s1
      exact ⟨_, calculateProgress_of_main tasks h, b0, b1⟩
  · by_cases h : tasks.filter (fun task => !task.isSub) = []
    · exact Or.inl h
    · exact Or.inr ((progressWeights_ok tasks).2 h)
  · apply calculateProgress_of_no_main
    simp [List.filter_filter]

theorem doubleFraction_nonneg (tasks : List Task) (task : Task) :
    0 ≤ doubleFraction tasks task := by
  unfold doubleFraction
  split_ifs
  · exact fl_nonneg (by positivity)
  · norm_num
  · norm_num
  · exact le_rfl

theorem progressStep_eq (tasks : List Task) (k : ℕ) (s : ℚ) (task : Task)
    (hk : k + 1 ≤ 2 ^ 53) (hs : fl s = s) :
    progressStep tasks ((k : ℚ), s) task
      = (((k + 1 : ℕ) : ℚ), fl (s + doubleFraction tasks task)) := by
  have h1 : fl ((k : ℚ) + 1) = ((k + 1 : ℕ) : ℚ) := by
    have := fl_natCast (k + 1) hk
    push_cast at this ⊢
    exact this
  unfold progressStep doubleFraction directSubtasks completedCount
  simp only [h1]
  by_cases hlen : (List.filter (fun st => decide (st.parentId = task.id)) tasks).length = 0
  · have hlen' : ¬ 1 ≤ (List.filter (fun st => decide (st.parentId = task.id)) tasks).length := by
      omega
    rw [if_pos hlen, if_neg hlen']
    split_ifs
    · rfl
    · rfl
    · rw [add_zero, hs]
  · have hlen' : 1 ≤ (List.filter (fun st => decide (st.parentId = task.id)) tasks).length := by
      omega
    rw [if_neg hlen, if_pos hlen', List.countP_eq_length_filter]

theorem foldl_progressStep_eq (tasks : List Task) :
    ∀ (l : List Task) (k : ℕ) (s : ℚ), k + l.length ≤ 2 ^ 53 → 0 ≤ s → fl s = s →
      l.foldl (progressStep tasks) ((k : ℚ), s)
        = (((k + l.length : ℕ) : ℚ),
            (l.map (doubleFraction tasks)).foldl (fun s x => fl (s + x)) s)
  | [], k, s, _, _, _ => by simp
  | t :: l, k, s, hk, hs0, hs => by
    have hk1 : k + 1 ≤ 2 ^ 53 := by
      simp only [List.length_cons] at hk
      omega
    have hsum : 0 ≤ s + doubleFraction tasks t := by
      linarith [doubleFraction_nonneg tasks t]
    rw [List.foldl_cons, progressStep_eq tasks k s t hk1 hs,
      foldl_progressStep_eq tasks l (k + 1) _ (by simp only [List.length_cons] at hk; omega)
        (fl_nonneg hsum) (fl_fl hsum)]
    simp only [List.length_cons, List.map_cons, List.foldl_cons]
    congr 2
    omega

theorem progressWeights_eq (tasks : List Task) (h : (topLevelTasks tasks).length ≤ 2 ^ 53) :
    progressWeights tasks
      = (((topLevelTasks tasks).length : ℚ),
          doubleSum ((topLevelTasks tasks).map (doubleFraction tasks))) := by
  have := foldl_progressStep_eq tasks (topLevelTasks tasks) 0 0 (by simpa using h) le_rfl fl_zero
  unfold progressWeights doubleSum
  simpa [topLevelTasks] using this


/-! ## The distance between the double rollup and the exact rollup -/

theorem abs_roundHalfEven_sub_le (q : ℚ) : |(roundHalfEven q : ℚ) - q| ≤ 1 / 2 := by
  have h1 : (⌊q⌋ : ℚ) ≤ q := Int.floor_le q
  have h2 : q < (⌊q⌋ : ℚ) + 1 := Int.lt_floor_add_one q
  unfold roundHalfEven
  simp only
  rw [abs_le]
  split_ifs <;> push_cast <;> constructor <;> linarith

/-- The relative error of one rounding is at most `2 ^ (-53)`. -/
theorem abs_fl_sub_le {x : ℚ} (hx : 0 ≤ x) : |fl x - x| ≤ x / 2 ^ 53 := by
  rcases hx.lt_or_eq with h | h
  · rw [fl_of_pos h]
    obtain ⟨s1, _⟩ := binade_spec h
    have hu := two_zpow_pos (binade x - 52)
    have hr := abs_roundHalfEven_sub_le (x / (2 : ℚ) ^ (binade x - 52))
    have e1 : flPos x - x
        = ((roundHalfEven (x / (2 : ℚ) ^ (binade x - 52)) : ℚ)
            - x / (2 : ℚ) ^ (binade x - 52)) * (2 : ℚ) ^ (binade x - 52) := by
      unfold flPos
      simp only
      field_simp
    have e2 : (2 : ℚ) ^ (binade x - 52) = (2 : ℚ) ^ binade x / 2 ^ 52 := by
      rw [zpow_sub₀ (by norm_num)]
      norm_num
    rw [e1, abs_mul, abs_of_pos hu]
    calc |(roundHalfEven (x / (2 : ℚ) ^ (binade x - 52)) : ℚ)
            - x / (2 : ℚ) ^ (binade x - 52)| * (2 : ℚ) ^ (binade x - 52)
        ≤ 1 / 2 * (2 : ℚ) ^ (binade x - 52) := mul_le_mul_of_nonneg_right hr hu.le
      _ = (2 : ℚ) ^ binade x / 2 ^ 53 := by rw [e2]; ring
      _ ≤ x / 2 ^ 53 := div_le_div_of_nonneg_right s1 (by positivity)
  · rw [← h, fl_zero]
    simp

theorem completedCount_le (ts : List Task) : completedCount ts ≤ ts.length :=
  List.countP_le_length _

theorem exactFraction_bounds (tasks : List Task) (task : Task) :
    0 ≤ exactFraction tasks task ∧ exactFraction tasks task ≤ 1 := by
  unfold exactFraction
  split_ifs with h
  · have hn : (0 : ℚ) < ((directSubtasks tasks task).length : ℚ) := by exact_mod_cast h
    have hc : (completedCount (directSubtasks tasks task) : ℚ)
        ≤ ((directSubtasks tasks task).length : ℚ) := by
      exact_mod_cast completedCount_le _
    exact ⟨by positivity, (div_le_one hn).mpr hc⟩
  · norm_num
  · norm_num
  · norm_num

theorem doubleFraction_le_one (tasks : List Task) (task : Task) :
    doubleFraction tasks task ≤ 1 := by
  unfold doubleFraction
  split_ifs with h
  · exact (subtaskProgress_bounds _ _ (completedCount_le _) h).2
  · norm_num
  · norm_num
  · norm_num

theorem abs_doubleFraction_sub_le (tasks : List Task) (task : Task) :
    |doubleFraction tasks task - exactFraction tasks task| ≤ 1 / 2 ^ 53 := by
  have hb := exactFraction_bounds tasks task
  unfold doubleFraction exactFraction at *
  split_ifs at hb ⊢ with h
  · calc |fl ((completedCount (directSubtasks tasks task) : ℚ)
            / ((directSubtasks tasks task).length : ℚ))
          - (completedCount (directSubtasks tasks task) : ℚ)
            / ((directSubtasks tasks task).length : ℚ)|
        ≤ ((completedCount (directSubtasks tasks task) : ℚ)
            / ((directSubtasks tasks task).length : ℚ)) / 2 ^ 53 := abs_fl_sub_le hb.1
      _ ≤ 1 / 2 ^ 53 := div_le_div_of_nonneg_right hb.2 (by positivity)
  · simp
  · simp
  · simp

/-- The error of the rounded sum after `k` additions is at most
`k * (k + 3) / 2 ^ 54`. -/
theorem foldl_error (tasks : List Task) :
    ∀ (l : List Task) (k : ℕ) (s a : ℚ), k + l.length ≤ 2 ^ 53 → 0 ≤ s → s ≤ (k : ℚ) →
      |s - a| ≤ (k : ℚ) * ((k : ℚ) + 3) / 2 ^ 54 →
      0 ≤ (l.map (doubleFraction tasks)).foldl (fun s x => fl (s + x)) s ∧
        (l.map (doubleFraction tasks)).foldl (fun s x => fl (s + x)) s
          ≤ ((k + l.length : ℕ) : ℚ) ∧
        |(l.map (doubleFraction tasks)).foldl (fun s x => fl (s + x)) s
            - (a + (l.map (exactFraction tasks)).sum)|
          ≤ ((k + l.length : ℕ) : ℚ) * (((k + l.length : ℕ) : ℚ) + 3) / 2 ^ 54
  | [], k, s, a, _, h0, h1, h2 => by
    simpa using ⟨h0, h1, h2⟩
  | t :: l, k, s, a, hk, h0, h1, h2 => by
    simp only [List.length_cons] at hk
    have hf0 := doubleFraction_nonneg tasks t
    have hf1 := doubleFraction_le_one tasks t
    have hfe := abs_doubleFraction_sub_le tasks t
    have hy0 : 0 ≤ s + doubleFraction tasks t := by linarith
    have hy1 : s + doubleFraction tasks t ≤ ((k + 1 : ℕ) : ℚ) := by
      push_cast
      linarith
    have hfl := abs_fl_sub_le hy0
    have hs1 : fl (s + doubleFraction tasks t) ≤ ((k + 1 : ℕ) : ℚ) := by
      have := fl_mono hy0 hy1
      rwa [fl_natCast (k + 1) (by omega)] at this
    have herr : |fl (s + doubleFraction tasks t) - (a + exactFraction tasks t)|
        ≤ ((k + 1 : ℕ) : ℚ) * (((k + 1 : ℕ) : ℚ) + 3) / 2 ^ 54 := by
      have hk0 : (0 : ℚ) ≤ (k : ℚ) := Nat.cast_nonneg k
      have hfl' : |fl (s + doubleFraction tasks t) - (s + doubleFraction tasks t)|
          ≤ ((k : ℚ) + 1) / 2 ^ 53 := by
        refine le_trans hfl (div_le_div_of_nonneg_right ?_ (by positivity))
        push_cast at hy1
        exact hy1
      rw [abs_le] at hfl' h2 hfe ⊢
      push_cast
      constructor <;> nlinarith [hfl'.1, hfl'.2, h2.1, h2.2, hfe.1, hfe.2]
    obtain ⟨r0, r1, r2⟩ := foldl_error tasks l (k + 1) (fl (s + doubleFraction tasks t))
      (a + exactFraction tasks t) (by omega) (fl_nonneg hy0) hs1 herr
    have hlen : k + 1 + l.length = k + (l.length + 1) := by omega
    simp only [List.map_cons, List.foldl_cons, List.sum_cons, List.length_cons]
    rw [hlen, add_assoc] at r2
    rw [hlen] at r1
    exact ⟨r0, r1, r2⟩

theorem abs_roundHalfUp_sub_le (x : ℚ) : |(roundHalfUp x : ℚ) - x| ≤ 1 / 2 := by
  have h1 : (⌊x + 1 / 2⌋ : ℚ) ≤ x + 1 / 2 := Int.floor_le _
  have h2 : x + 1 / 2 < (⌊x + 1 / 2⌋ : ℚ) + 1 := Int.lt_floor_add_one _
  unfold roundHalfUp
  rw [abs_le]
  constructor <;> linarith

/-- For fewer than `2 ^ 32` top-level tasks, the value that the double rollup
rounds to an integer is within `2 ^ (-15)` of the exact `100 * S / N`. -/
theorem double_value_near_exact (tasks : List Task)
    (h1 : 1 ≤ (topLevelTasks tasks).length) (h2 : (topLevelTasks tasks).length < 2 ^ 32) :
    |fl (fl (doubleSum ((topLevelTasks tasks).map (doubleFraction tasks))
          / ((topLevelTasks tasks).length : ℚ)) * 100)
        - 100 * ((topLevelTasks tasks).map (exactFraction tasks)).sum
          / ((topLevelTasks tasks).length : ℚ)| ≤ 1 / 2 ^ 15 := by
  obtain ⟨s0, s1, s2⟩ := foldl_error tasks (topLevelTasks tasks) 0 0 0
    (by simp only [Nat.zero_add]; omega) le_rfl (by simp) (by simp)
  simp only [Nat.zero_add, zero_add] at s1 s2
  have hN : (0 : ℚ) < ((topLevelTasks tasks).length : ℚ) := by exact_mod_cast h1
  have hN32 : ((topLevelTasks tasks).length : ℚ) ≤ 2 ^ 32 := by exact_mod_cast h2.le
  generalize hNd : ((topLevelTasks tasks).length : ℚ) = N at *
  generalize hSd : ((topLevelTasks tasks).map (exactFraction tasks)).sum = S at *
  have hSt : doubleSum ((topLevelTasks tasks).map (doubleFraction tasks))
      = ((topLevelTasks tasks).map (doubleFraction tasks)).foldl (fun s x => fl (s + x)) 0 := rfl
  rw [hSt]
  generalize hTd : ((topLevelTasks tasks).map (doubleFraction tasks)).foldl
    (fun s x => fl (s + x)) 0 = T at *
  -- the quotient
  have hq0 : 0 ≤ T / N := by positivity
  have hq1 : T / N ≤ 1 := (div_le_one hN).mpr s1
  have hqe : |T / N - S / N| ≤ (N + 3) / 2 ^ 54 := by
    rw [← sub_div, abs_div, abs_of_pos hN, div_le_iff₀ hN]
    calc |T - S| ≤ N * (N + 3) / 2 ^ 54 := s2
      _ = (N + 3) / 2 ^ 54 * N := by ring
  have hf1 : |fl (T / N) - T / N| ≤ 1 / 2 ^ 53 :=
    le_trans (abs_fl_sub_le hq0) (div_le_div_of_nonneg_right hq1 (by positivity))
  have hfq0 : 0 ≤ fl (T / N) := fl_nonneg hq0
  have hfq1 : fl (T / N) ≤ 1 := by simpa [fl_one] using fl_mono hq0 hq1
  -- the product
  have hr0 : 0 ≤ fl (T / N) * 100 := by linarith
  have hf2 : |fl (fl (T / N) * 100) - fl (T / N) * 100| ≤ 100 / 2 ^ 53 :=
    le_trans (abs_fl_sub_le hr0)
      (div_le_div_of_nonneg_right (by linarith) (by positivity))
  have hx : 100 * S / N = 100 * (S / N) := by ring
  rw [hx]
  rw [abs_le] at hqe hf1 hf2 ⊢
  have hb : (100 * N + 700) / 2 ^ 54 ≤ (1 : ℚ) / 2 ^ 15 := by
    rw [div_le_div_iff₀ (by positivity) (by positivity)]
    norm_num
    linarith
  constructor
  · linarith [hqe.1, hf1.1, hf2.1, hb]
  · linarith [hqe.2, hf1.2, hf2.2, hb]

/-! ## The rollup -/

/-- C1 (amended). On the empty list `calculateProgress` returns 0. On a list
with `N ≥ 1` top-level tasks (`N < 2 ^ 32`, as in every JavaScript array) it
returns the rollup evaluated in double precision arithmetic: `(S / N) * 100`
with `S` summed from left to right, every operation rounded to the nearest
double, then rounded to the nearest integer, halves up. That integer is within
`1/2 + 2 ^ (-15)` of the exact `100 * S / N`, and differs by at most 1 from the
exact value rounded halves up. -/
theorem calculateProgress_eq_rollupDouble (tasks : List Task)
    (h1 : 1 ≤ (topLevelTasks tasks).length) (h2 : (topLevelTasks tasks).length < 2 ^ 32) :
    calculateProgress [] = some 0 ∧
      calculateProgress tasks = some (rollupDouble tasks) ∧
      |(rollupDouble tasks : ℚ)
          - 100 * ((topLevelTasks tasks).map (exactFraction tasks)).sum
            / ((topLevelTasks tasks).length : ℚ)| ≤ 1 / 2 + 1 / 2 ^ 15 ∧
      |rollupDouble tasks - rollupExact tasks| ≤ 1 := by
  have hne : tasks.filter (fun task => !task.isSub) ≠ [] := by
    intro h
    have : (topLevelTasks tasks).length = 0 := by simp [topLevelTasks, h]
    omega
  have hnear := double_value_near_exact tasks h1 h2
  have hd := abs_roundHalfUp_sub_le
    (fl (fl (doubleSum ((topLevelTasks tasks).map (doubleFraction tasks))
      / ((topLevelTasks tasks).length : ℚ)) * 100))
  have he := abs_roundHalfUp_sub_le
    (100 * ((topLevelTasks tasks).map (exactFraction tasks)).sum
      / ((topLevelTasks tasks).length : ℚ))
  have hD : (rollupDouble tasks : ℚ)
      = (roundHalfUp (fl (fl (doubleSum ((topLevelTasks tasks).map (doubleFraction tasks))
          / ((topLevelTasks tasks).length : ℚ)) * 100)) : ℚ) := rfl
  have hE : (rollupExact tasks : ℚ)
      = (roundHalfUp (100 * ((topLevelTasks tasks).map (exactFraction tasks)).sum
          / ((topLevelTasks tasks).length : ℚ)) : ℚ) := rfl
  refine ⟨by decide, ?_, ?_, ?_⟩
  · rw [calculateProgress_of_main tasks hne,
      progressWeights_eq tasks (le_trans h2.le (by norm_num))]
    rfl
  · rw [hD]
    rw [abs_le] at hnear hd ⊢
    constructor <;> linarith [hnear.1, hnear.2, hd.1, hd.2]
  · have hq : |((rollupDouble tasks - rollupExact tasks : ℤ) : ℚ)| < 2 := by
      push_cast
      rw [hD, hE]
      rw [abs_le] at hnear hd he
      rw [abs_lt]
      have h15 : (1 : ℚ) / 2 ^ 15 < 1 := by norm_num
      constructor <;> linarith [hnear.1, hnear.2, hd.1, hd.2, he.1, he.2]
    have hz : |rollupDouble tasks - rollupExact tasks| < 2 := by exact_mod_cast hq
    omega

/-- The two-leaf witness of C1: one completed and one in-progress top-level
task give 75. -/
theorem calculateProgress_eq_rollupDouble_witness :
    1 ≤ (topLevelTasks twoLeaves).length ∧ (topLevelTasks twoLeaves).length < 2 ^ 32 ∧
      (calculateProgress [] = some 0 ∧
        calculateProgress twoLeaves = some (rollupDouble twoLeaves) ∧
        |(rollupDouble twoLeaves : ℚ)
            - 100 * ((topLevelTasks twoLeaves).map (exactFraction twoLeaves)).sum
              / ((topLevelTasks twoLeaves).length : ℚ)| ≤ 1 / 2 + 1 / 2 ^ 15 ∧
        |rollupDouble twoLeaves - rollupExact twoLeaves| ≤ 1) ∧
      rollupDouble twoLeaves = 75 ∧ rollupExact twoLeaves = 75 :=
  ⟨by decide, by decide,
    calculateProgress_eq_rollupDouble twoLeaves (by decide) (by decide),
    by decide!, by decide!⟩

/-- C1 as stated fails: on `halfwayCase` (four top-level tasks) the exact
rollup is `100 * 2.3 / 4 = 57.5`, which rounds halves up to 58, while
`calculateProgress` returns 57, because `(2.3 / 4) * 100` is
`57.49999999999999` in double precision arithmetic. -/
theorem calculateProgress_ne_rollupExact :
    (topLevelTasks halfwayCase).length = 4 ∧
      100 * ((topLevelTasks halfwayCase).map (exactFraction halfwayCase)).sum
        / ((topLevelTasks halfwayCase).length : ℚ) = 115 / 2 ∧
      rollupExact halfwayCase = 58 ∧
      calculateProgress halfwayCase = some 57 := by
  decide!

/-! ## Lists with one element rewritten in place -/

theorem modifyFirst_of_none (p : Task → Bool) (f : Task → Task) :
    ∀ l : List Task, l.find? p = none → modifyFirst p f l = l
  | [], _ => rfl
  | t :: l, h => by
    by_cases hp : p t = true
    · simp [List.find?, hp] at h
    · simp only [List.find?, Bool.not_eq_true] at h hp
      simp only [hp] at h
      simp [modifyFirst, hp, modifyFirst_of_none p f l h]

theorem modifyFirst_split (p : Task → Bool) (f : Task → Task) :
    ∀ (l : List Task) (a : Task), l.find? p = some a →
      ∃ pre post, l = pre ++ a :: post ∧ (∀ t ∈ pre, p t = false) ∧ p a = true ∧
        modifyFirst p f l = pre ++ f a :: post
  | [], a, h => by simp at h
  | t :: l, a, h => by
    by_cases hp : p t = true
    · have : t = a := by simpa [List.find?, hp] using h
      subst this
      exact ⟨[], l, rfl, by simp, hp, by simp [modifyFirst, hp]⟩
    · have hp' : p t = false := by simpa using hp
      have h' : l.find? p = some a := by simpa [List.find?, hp'] using h
      obtain ⟨pre, post, e1, e2, e3, e4⟩ := modifyFirst_split p f l a h'
      refine ⟨t :: pre, post, by simp [e1], ?_, e3, by simp [modifyFirst, hp', e4]⟩
      intro x hx
      rcases List.mem_cons.mp hx with rfl | hx
      · exact hp'
      · exact e2 x hx

theorem map_modifyFirst {β : Type} (g : Task → β) (p : Task → Bool) (f : Task → Task)
    (hg : ∀ t, g (f t) = g t) : ∀ l : List Task, (modifyFirst p f l).map g = l.map g
  | [] => rfl
  | t :: l => by
    by_cases hp : p t = true
    · simp [modifyFirst, hp, hg]
    · simp [modifyFirst, hp, map_modifyFirst g p f hg l]

theorem find?_modifyFirst (p : Task → Bool) (f : Task → Task) (hf : ∀ t, p (f t) = p t) :
    ∀ l : List Task, (modifyFirst p f l).find? p = (l.find? p).map f
  | [] => rfl
  | t :: l => by
    by_cases hp : p t = true
    · simp [modifyFirst, hp, List.find?, hf]
    · have hp' : p t = false := by simpa using hp
      simp [modifyFirst, hp', List.find?, find?_modifyFirst p f hf l]

theorem find?_isSome_iff (p : Task → Bool) (l : List Task) :
    (l.find? p).isSome = true ↔ ∃ t ∈ l, p t = true := by
  simp [List.find?_isSome]

/-! ## `updateParentTaskStatus` -/

/-- The status that the code derives is the propagation rule applied to the
statuses of the subtasks. -/
theorem newStatus_eq_propagationRule (subtasks : List Task) :
    (if subtasks.all (fun st => decide (st.status = JsVal.str "completed")) = true then
        JsVal.str "completed"
      else if (subtasks.any (fun st => decide (st.status = JsVal.str "in-progress"))
          || subtasks.any (fun st => decide (st.status ≠ JsVal.str "not-started"))) = true then
        JsVal.str "in-progress"
      else JsVal.str "not-started")
      = propagationRule (subtasks.map (fun st => st.status)) := by
  unfold propagationRule
  have h1 : (subtasks.all (fun st => decide (st.status = JsVal.str "completed")) = true)
      ↔ ∀ s ∈ subtasks.map (fun st => st.status), s = JsVal.str "completed" := by
    simp [List.all_eq_true]
  have h2 : ((subtasks.any (fun st => decide (st.status = JsVal.str "in-progress"))
          || subtasks.any (fun st => decide (st.status ≠ JsVal.str "not-started"))) = true)
      ↔ ((∃ s ∈ subtasks.map (fun st => st.status), s = JsVal.str "in-progress")
          ∨ (∃ s ∈ subtasks.map (fun st => st.status), s ≠ JsVal.str "not-started")) := by
    simp [List.any_eq_true]
  simp only [h1, h2]

/-- The function `updateParentTaskStatus` in closed form: when the id is truthy, a task has
it and a task names it as parent, the first task with that id gets the status
of the propagation rule; otherwise the list is returned as it is. -/
theorem updateParentTaskStatus_eq (pid : JsVal) (now : String) (tasks : List Task) :
    updateParentTaskStatus pid now tasks =
      if pid.truthy = true ∧ (tasks.find? (fun t => decide (t.id = pid))).isSome = true
          ∧ subtasksOf tasks pid ≠ [] then
        modifyFirst (fun t => decide (t.id = pid))
          (assignStatus (propagationRule ((subtasksOf tasks pid).map (fun st => st.status))) now)
          tasks
      else tasks := by
  unfold updateParentTaskStatus subtasksOf
  by_cases hp : pid.truthy = true
  · by_cases hf : (tasks.find? (fun t => decide (t.id = pid))).isSome = true
    · by_cases hs : tasks.filter (fun t => decide (t.parentId = pid)) = []
      · simp [hp, hf, hs]
      · have hlen : (tasks.filter (fun t => decide (t.parentId = pid))).length > 0 :=
          List.length_pos.mpr hs
        simp only [hp, hf, hs, hlen, Bool.not_true, Bool.false_eq_true, if_false, Bool.and_self,
          decide_True, if_true, ne_eq, not_false_eq_true, and_self]
        rw [← newStatus_eq_propagationRule]
    · simp [hp, hf]
  · simp [hp]

theorem updateParentTaskStatus_cases (pid : JsVal) (now : String) (tasks : List Task) :
    updateParentTaskStatus pid now tasks = tasks ∨
      ∃ s, updateParentTaskStatus pid now tasks
        = modifyFirst (fun t => decide (t.id = pid)) (assignStatus s now) tasks := by
  rw [updateParentTaskStatus_eq]
  split
  · exact Or.inr ⟨_, rfl⟩
  · exact Or.inl rfl

theorem map_updateParentTaskStatus {β : Type} (g : Task → β)
    (hg : ∀ s now t, g (assignStatus s now t) = g t) (pid : JsVal) (now : String)
    (tasks : List Task) : (updateParentTaskStatus pid now tasks).map g = tasks.map g := by
  rcases updateParentTaskStatus_cases pid now tasks with h | ⟨s, h⟩
  · rw [h]
  · rw [h, map_modifyFirst g _ _ (hg s now)]

theorem filter_eq_of_map_eq {β : Type} (g : Task → β) (q : β → Bool) :
    ∀ (l l' : List Task), l.map g = l'.map g →
      (l.filter (fun t => q (g t))).map g = (l'.filter (fun t => q (g t))).map g
  | [], [], _ => rfl
  | [], _ :: _, h => by simp at h
  | _ :: _, [], h => by simp at h
  | a :: l, b :: l', h => by
    simp only [List.map_cons, List.cons.injEq] at h
    have ih := filter_eq_of_map_eq g q l l' h.2
    simp only [List.filter_cons, h.1]
    split <;> simp [ih, h.1]

/-- Replacing one status of a list by the outcome of the propagation rule on
that list does not change the outcome. -/
theorem propagationRule_replace (X Y : List JsVal) (s : JsVal) :
    propagationRule (X ++ propagationRule (X ++ s :: Y) :: Y)
      = propagationRule (X ++ s :: Y) := by
  by_cases h1 : ∀ x ∈ X ++ s :: Y, x = JsVal.str "completed"
  · have hr : propagationRule (X ++ s :: Y) = JsVal.str "completed" := by
      unfold propagationRule
      rw [if_pos h1]
    rw [hr]
    have h1' : ∀ x ∈ X ++ JsVal.str "completed" :: Y, x = JsVal.str "completed" := by
      intro x hx
      simp only [List.mem_append, List.mem_cons] at hx h1
      rcases hx with hx | rfl | hx
      · exact h1 x (Or.inl hx)
      · rfl
      · exact h1 x (Or.inr (Or.inr hx))
    unfold propagationRule
    rw [if_pos h1']
  · by_cases h2 : (∃ x ∈ X ++ s :: Y, x = JsVal.str "in-progress")
        ∨ (∃ x ∈ X ++ s :: Y, x ≠ JsVal.str "not-started")
    · have hr : propagationRule (X ++ s :: Y) = JsVal.str "in-progress" := by
        unfold propagationRule
        rw [if_neg h1, if_pos h2]
      rw [hr]
      have n1 : ¬ ∀ x ∈ X ++ JsVal.str "in-progress" :: Y, x = JsVal.str "completed" := by
        intro h
        have := h (JsVal.str "in-progress") (by simp)
        exact absurd this (by decide)
      have n2 : (∃ x ∈ X ++ JsVal.str "in-progress" :: Y, x = JsVal.str "in-progress")
          ∨ (∃ x ∈ X ++ JsVal.str "in-progress" :: Y, x ≠ JsVal.str "not-started") :=
        Or.inl ⟨_, by simp, rfl⟩
      unfold propagationRule
      rw [if_neg n1, if_pos n2]
    · have hr : propagationRule (X ++ s :: Y) = JsVal.str "not-started" := by
        unfold propagationRule
        rw [if_neg h1, if_neg h2]
      have hs : s = JsVal.str "not-started" := by
        by_contra hne
        exact h2 (Or.inr ⟨s, by simp, hne⟩)
      subst hs
      rw [hr]
      exact hr

/-- Propagation reaches a fixed point: when the call is over, the first task
with id `pid`, if there is one and if some task names `pid` as its parent, has
the status that the propagation rule derives from the tasks that name `pid` as
their parent in the list as the call leaves it. -/
theorem updateParentTaskStatus_fixed (pid : JsVal) (now : String) (tasks : List Task)
    (hp : pid.truthy = true) (P : Task)
    (hP : (updateParentTaskStatus pid now tasks).find? (fun t => decide (t.id = pid)) = some P)
    (hsub : subtasksOf (updateParentTaskStatus pid now tasks) pid ≠ []) :
    P.status = propagationRule
      ((subtasksOf (updateParentTaskStatus pid now tasks) pid).map (fun st => st.status)) := by
  have hids : (updateParentTaskStatus pid now tasks).map (fun t => t.id)
      = tasks.map (fun t => t.id) :=
    map_updateParentTaskStatus (fun t => t.id) (fun _ _ _ => rfl) pid now tasks
  have hpar : (updateParentTaskStatus pid now tasks).map (fun t => t.parentId)
      = tasks.map (fun t => t.parentId) :=
    map_updateParentTaskStatus (fun t => t.parentId) (fun _ _ _ => rfl) pid now tasks
  -- the parent and a subtask are there before the call as well
  have hsub0 : subtasksOf tasks pid ≠ [] := by
    intro h0
    apply hsub
    have := filter_eq_of_map_eq (fun t => t.parentId) (fun v => decide (v = pid)) _ _ hpar
    unfold subtasksOf at h0 ⊢
    rw [h0] at this
    simpa using this
  have hfind0 : (tasks.find? (fun t => decide (t.id = pid))).isSome = true := by
    rw [find?_isSome_iff]
    have h1 : ((updateParentTaskStatus pid now tasks).find? (fun t => decide (t.id = pid))).isSome
        = true := by rw [hP]; rfl
    rw [find?_isSome_iff] at h1
    obtain ⟨t, ht, hid⟩ := h1
    have hmem : t.id ∈ (updateParentTaskStatus pid now tasks).map (fun t => t.id) :=
      List.mem_map.mpr ⟨t, ht, rfl⟩
    rw [hids] at hmem
    obtain ⟨u, hu, hue⟩ := List.mem_map.mp hmem
    exact ⟨u, hu, by simpa [hue] using hid⟩
  have heq := updateParentTaskStatus_eq pid now tasks
  rw [if_pos ⟨hp, hfind0, hsub0⟩] at heq
  obtain ⟨r, hr⟩ : ∃ r, r = propagationRule ((subtasksOf tasks pid).map (fun st => st.status)) :=
    ⟨_, rfl⟩
  rw [← hr] at heq
  obtain ⟨a, ha⟩ := Option.isSome_iff_exists.mp hfind0
  obtain ⟨pre, post, e1, e2, e3, e4⟩ :=
    modifyFirst_split (fun t => decide (t.id = pid)) (assignStatus r now) tasks a ha
  rw [heq, e4] at hP ⊢
  -- the task found is the rewritten one
  have hPa : P = assignStatus r now a := by
    have hpre : pre.find? (fun t => decide (t.id = pid)) = none := by
      rw [List.find?_eq_none]
      intro x hx
      simpa using e2 x hx
    have ha' : decide ((assignStatus r now a).id = pid) = true := by
      simpa [assignStatus] using e3
    rw [List.find?_append, hpre, List.find?_cons, ha'] at hP
    simpa using hP.symm
  have hst : P.status = r := by rw [hPa]; rfl
  rw [hst]
  by_cases hc : a.parentId = pid
  · have h1 : (subtasksOf (pre ++ assignStatus r now a :: post) pid).map (fun st => st.status)
        = (subtasksOf pre pid).map (fun st => st.status)
          ++ r :: (subtasksOf post pid).map (fun st => st.status) := by
      simp [subtasksOf, List.filter_append, List.filter_cons, assignStatus, hc]
    have h0 : (subtasksOf tasks pid).map (fun st => st.status)
        = (subtasksOf pre pid).map (fun st => st.status)
          ++ a.status :: (subtasksOf post pid).map (fun st => st.status) := by
      rw [e1]
      simp [subtasksOf, List.filter_append, List.filter_cons, hc]
    rw [h1, hr, h0, propagationRule_replace]
  · have h1 : subtasksOf (pre ++ assignStatus r now a :: post) pid = subtasksOf tasks pid := by
      rw [e1]
      simp [subtasksOf, List.filter_append, List.filter_cons, assignStatus, hc]
    rw [h1, hr]

/-! ## `addTask`, `updateTask`, `deleteTask` -/

theorem find?_eq_none_of_forall_ne (tasks : List Task) (taskId : JsVal)
    (h : ∀ t ∈ tasks, t.id ≠ taskId) : tasks.find? (fun t => decide (t.id = taskId)) = none := by
  rw [List.find?_eq_none]
  intro t ht
  simpa using h t ht

theorem find?_isSome_of_exists (tasks : List Task) (taskId : JsVal)
    (h : ∃ t ∈ tasks, t.id = taskId) :
    ∃ task, tasks.find? (fun t => decide (t.id = taskId)) = some task := by
  apply Option.isSome_iff_exists.mp
  rw [find?_isSome_iff]
  obtain ⟨t, ht, hid⟩ := h
  exact ⟨t, ht, by simpa using hid⟩

/-- C3. `addTask` throws exactly when the input's `parentId` is set (truthy:
present and not `null`, `false`, `0` or `""`) and is the id of no task of the
project; the error is `Parent task not found`, and the task list and the
stored progress are then as they were. For every other input it returns a
task. -/
theorem addTask_fails_iff (p : Project) (newId now : String) (task : TaskInput) :
    ((∃ e, (addTask p newId now task).1 = Except.error e) ↔
        ((rd task.parentId).truthy = true ∧ ∀ t ∈ p.tasks, t.id ≠ rd task.parentId)) ∧
      (addTask p newId now task = (Except.error "Parent task not found", p) ↔
        ((rd task.parentId).truthy = true ∧ ∀ t ∈ p.tasks, t.id ≠ rd task.parentId)) ∧
      ((∃ t, (addTask p newId now task).1 = Except.ok t) ↔
        ¬ ((rd task.parentId).truthy = true ∧ ∀ t ∈ p.tasks, t.id ≠ rd task.parentId)) := by
  have hpid : (newTaskOf p.tasks newId now task).parentId = rd task.parentId := rfl
  by_cases hc : (rd task.parentId).truthy = true ∧ ∀ t ∈ p.tasks, t.id ≠ rd task.parentId
  · have hany : (p.tasks.any (fun t => decide (t.id = rd task.parentId))) = false := by
      rw [List.any_eq_false]
      intro t ht
      simpa using hc.2 t ht
    have hres : addTask p newId now task = (Except.error "Parent task not found", p) := by
      unfold addTask
      simp [hpid, hc.1, hany]
    refine ⟨⟨fun _ => hc, fun _ => ⟨_, by rw [hres]⟩⟩, ⟨fun _ => hc, fun _ => hres⟩,
      ⟨fun ⟨t, ht⟩ => ?_, fun hn => absurd hc hn⟩⟩
    rw [hres] at ht
    exact absurd ht (by simp)
  · have hres : (addTask p newId now task).1 = Except.ok (newTaskOf p.tasks newId now task) := by
      unfold addTask
      simp only [hpid]
      by_cases ht : (rd task.parentId).truthy = true
      · have hany : (p.tasks.any (fun t => decide (t.id = rd task.parentId))) = true := by
          rw [List.any_eq_true]
          by_contra hno
          apply hc
          refine ⟨ht, fun t htm heq => hno ⟨t, htm, by simpa using heq⟩⟩
        simp [ht, hany]
      · simp [ht]
    have hne : addTask p newId now task ≠ (Except.error "Parent task not found", p) := by
      intro h
      rw [h] at hres
      exact absurd hres (by simp)
    refine ⟨⟨fun ⟨e, he⟩ => ?_, fun h => absurd h hc⟩, ⟨fun h => absurd h hne, fun h => absurd h hc⟩,
      ⟨fun _ => hc, fun _ => ⟨_, hres⟩⟩⟩
    rw [hres] at he
    exact absurd he (by simp)

/-- C8. When `taskId` is the id of a task of the project, the progress that
`updateTask` stores, and the progress that `deleteTask` stores, is
`calculateProgress` of the task list that the call leaves behind. -/
theorem progress_recomputed (p : Project) (taskId : JsVal) (updates : TaskInput)
    (now : String) (h : ∃ t ∈ p.tasks, t.id = taskId) :
    (updateTask p taskId updates now).progress
        = calculateProgress (updateTask p taskId updates now).tasks ∧
      (deleteTask p taskId now).progress = calculateProgress (deleteTask p taskId now).tasks := by
  obtain ⟨task, hfind⟩ := find?_isSome_of_exists p.tasks taskId h
  constructor
  · unfold updateTask
    rw [hfind]
  · unfold deleteTask
    rw [hfind]

/-- A witness of C8: completing the subtask `b` of `familyProject`, and
deleting it. -/
theorem progress_recomputed_witness :
    (∃ t ∈ familyProject.tasks, t.id = JsVal.str "b") ∧
      ((updateTask familyProject (JsVal.str "b") (statusPatch (JsVal.str "completed"))
            "now").progress
          = calculateProgress (updateTask familyProject (JsVal.str "b")
              (statusPatch (JsVal.str "completed")) "now").tasks ∧
        (deleteTask familyProject (JsVal.str "b") "now").progress
          = calculateProgress (deleteTask familyProject (JsVal.str "b") "now").tasks) :=
  ⟨by decide, progress_recomputed familyProject (JsVal.str "b")
    (statusPatch (JsVal.str "completed")) "now" (by decide)⟩

/-- C9, at the failing input. After `addTask` of a top-level task `g` and of a
subtask `p` of `g`, adding a completed subtask of `p` is accepted and stores
progress 0: the value is computed before propagation marks `p` completed,
while `calculateProgress` of the list that the call leaves is 100. -/
theorem addTask_progress_stale :
    nestedProject.tasks.map (fun t => (t.id, t.parentId, t.status))
        = [(JsVal.str "g", JsVal.undefined, JsVal.str "not-started"),
            (JsVal.str "p", JsVal.str "g", JsVal.str "not-started")] ∧
      (addTask nestedProject "t" "now" (subtaskInput "p" "completed")).1
        = Except.ok (newTaskOf nestedProject.tasks "t" "now" (subtaskInput "p" "completed")) ∧
      (addTask nestedProject "t" "now" (subtaskInput "p" "completed")).2.tasks.map
          (fun t => (t.id, t.parentId, t.status))
        = [(JsVal.str "g", JsVal.undefined, JsVal.str "not-started"),
            (JsVal.str "p", JsVal.str "g", JsVal.str "completed"),
            (JsVal.str "t", JsVal.str "p", JsVal.str "completed")] ∧
      (addTask nestedProject "t" "now" (subtaskInput "p" "completed")).2.progress = some 0 ∧
      calculateProgress
        (addTask nestedProject "t" "now" (subtaskInput "p" "completed")).2.tasks = some 100 := by
  decide!

/-- C10. When no task of the project has the id, `updateTask` and `deleteTask`
return the project as it was: same task list, same stored progress. -/
theorem unknown_id_noop (p : Project) (taskId : JsVal) (updates : TaskInput) (now : String)
    (h : ∀ t ∈ p.tasks, t.id ≠ taskId) :
    updateTask p taskId updates now = p ∧ deleteTask p taskId now = p := by
  have hfind := find?_eq_none_of_forall_ne p.tasks taskId h
  constructor
  · unfold updateTask
    rw [hfind]
  · unfold deleteTask
    rw [hfind]

/-- A witness of C10: no task of `familyProject` has the id `zz`. -/
theorem unknown_id_noop_witness :
    (∀ t ∈ familyProject.tasks, t.id ≠ JsVal.str "zz") ∧
      updateTask familyProject (JsVal.str "zz") (statusPatch (JsVal.str "completed")) "now"
        = familyProject ∧
      deleteTask familyProject (JsVal.str "zz") "now" = familyProject :=
  ⟨by decide, unknown_id_noop familyProject (JsVal.str "zz")
    (statusPatch (JsVal.str "completed")) "now" (by decide)⟩

theorem modifyFirst_modifyFirst (p : Task → Bool) (f g : Task → Task)
    (hg : ∀ t, p (g t) = p t) :
    ∀ l : List Task, modifyFirst p f (modifyFirst p g l) = modifyFirst p (fun t => f (g t)) l
  | [] => rfl
  | t :: l => by
    by_cases hp : p t = true
    · simp [modifyFirst, hp, hg]
    · have hp' : p t = false := by simpa using hp
      simp [modifyFirst, hp', modifyFirst_modifyFirst p f g hg l]

theorem mem_modifyFirst_of_not (p : Task → Bool) (f : Task → Task) (x : Task)
    (hx : p x = false) : ∀ l : List Task, x ∈ l → x ∈ modifyFirst p f l
  | [], h => h
  | t :: l, h => by
    by_cases hp : p t = true
    · rcases List.mem_cons.mp h with rfl | h'
      · rw [hx] at hp
        exact absurd hp (by simp)
      · simp [modifyFirst, hp, h']
    · have hp' : p t = false := by simpa using hp
      rcases List.mem_cons.mp h with rfl | h'
      · simp [modifyFirst, hp']
      · simp [modifyFirst, hp', mem_modifyFirst_of_not p f x hx l h']

theorem subtasksOf_ne_nil_iff (tasks : List Task) (pid : JsVal) :
    subtasksOf tasks pid ≠ [] ↔ ∃ t ∈ tasks, t.parentId = pid := by
  unfold subtasksOf
  rw [ne_eq, List.filter_eq_nil_iff]
  simp

theorem subtasksOf_modifyFirst (pid : JsVal) (g : Task → Task)
    (hg : ∀ t, (g t).parentId = t.parentId) (tasks : List Task)
    (hself : ∀ P, tasks.find? (fun t => decide (t.id = pid)) = some P → P.parentId ≠ pid) :
    subtasksOf (modifyFirst (fun t => decide (t.id = pid)) g tasks) pid
      = subtasksOf tasks pid := by
  rcases hfind : tasks.find? (fun t => decide (t.id = pid)) with _ | a
  · rw [modifyFirst_of_none _ _ _ hfind]
  · obtain ⟨pre, post, e1, _, _, e4⟩ :=
      modifyFirst_split (fun t => decide (t.id = pid)) g tasks a hfind
    have ha := hself a hfind
    rw [e4, e1]
    simp [subtasksOf, List.filter_append, List.filter_cons, hg, ha]

theorem eq_of_nodup_id (l : List Task) (hd : (l.map (fun t => t.id)).Nodup) (x y : Task)
    (hx : x ∈ l) (hy : y ∈ l) (h : x.id = y.id) : x = y :=
  List.inj_on_of_nodup_map hd hx hy h

theorem find?_of_nodup (l : List Task) (hd : (l.map (fun t => t.id)).Nodup) (T : Task)
    (hT : T ∈ l) : l.find? (fun t => decide (t.id = T.id)) = some T := by
  obtain ⟨a, ha⟩ := find?_isSome_of_exists l T.id ⟨T, hT, rfl⟩
  have hmem : a ∈ l := List.mem_of_find?_eq_some ha
  have hid : a.id = T.id := by simpa using List.find?_some ha
  rw [ha, eq_of_nodup_id l hd a T hmem hT hid]

theorem exists_of_map_eq {β : Type} (g : Task → β) (l l' : List Task)
    (h : l.map g = l'.map g) (b : β) (hb : ∃ t ∈ l, g t = b) : ∃ t ∈ l', g t = b := by
  obtain ⟨t, ht, hgt⟩ := hb
  have hmem : b ∈ l.map g := List.mem_map.mpr ⟨t, ht, hgt⟩
  rw [h] at hmem
  exact List.mem_map.mp hmem

theorem mem_updateParentTaskStatus_of_ne (pid : JsVal) (now : String) (tasks : List Task)
    (x : Task) (hx : x ∈ tasks) (hne : x.id ≠ pid) :
    x ∈ updateParentTaskStatus pid now tasks := by
  rcases updateParentTaskStatus_cases pid now tasks with h | ⟨s, h⟩
  · rw [h]; exact hx
  · rw [h]
    exact mem_modifyFirst_of_not _ _ x (by simpa using hne) tasks hx

/-! ## Deletion -/

theorem withoutStatus_assignStatus (s : JsVal) (now : String) (t : Task) :
    (assignStatus s now t).withoutStatus = t.withoutStatus := rfl

theorem tasks_after_deleteTask (p : Project) (taskId : JsVal) (now : String) (task : Task)
    (h : p.tasks.find? (fun t => decide (t.id = taskId)) = some task) :
    (deleteTask p taskId now).tasks =
      if task.parentId.truthy = true then
        updateParentTaskStatus task.parentId now
          (p.tasks.filter (fun t => t.id ≠ taskId && t.parentId ≠ taskId))
      else p.tasks.filter (fun t => t.id ≠ taskId && t.parentId ≠ taskId) := by
  unfold deleteTask
  rw [h]

/-- C4 (amended). When `taskId` is the id of a task of the project, the list
that `deleteTask` leaves consists of the old tasks whose `id` and `parentId`
both differ from `taskId`, in their old order, each one as it was apart from
`status` and `updatedAt`; the list is exactly that filtered list unless the
deleted task had a `parentId`, in which case the first task with that id may
have had `status` and `updatedAt` rewritten by propagation; no remaining task
has id or `parentId` equal to `taskId`. -/
theorem deleteTask_tasks (p : Project) (taskId : JsVal) (now : String) (task : Task)
    (h : p.tasks.find? (fun t => decide (t.id = taskId)) = some task) :
    (deleteTask p taskId now).tasks.map Task.withoutStatus
        = (p.tasks.filter (fun t => t.id ≠ taskId && t.parentId ≠ taskId)).map
            Task.withoutStatus ∧
      ((deleteTask p taskId now).tasks
          = p.tasks.filter (fun t => t.id ≠ taskId && t.parentId ≠ taskId) ∨
        (task.parentId.truthy = true ∧ ∃ s, (deleteTask p taskId now).tasks
          = modifyFirst (fun t => decide (t.id = task.parentId)) (assignStatus s now)
              (p.tasks.filter (fun t => t.id ≠ taskId && t.parentId ≠ taskId)))) ∧
      (∀ t ∈ (deleteTask p taskId now).tasks, t.id ≠ taskId ∧ t.parentId ≠ taskId) := by
  have hmap : (deleteTask p taskId now).tasks.map Task.withoutStatus
      = (p.tasks.filter (fun t => t.id ≠ taskId && t.parentId ≠ taskId)).map
          Task.withoutStatus := by
    rw [tasks_after_deleteTask p taskId now task h]
    split
    · exact map_updateParentTaskStatus Task.withoutStatus withoutStatus_assignStatus _ _ _
    · rfl
  refine ⟨hmap, ?_, ?_⟩
  · rw [tasks_after_deleteTask p taskId now task h]
    split
    · rename_i ht
      rcases updateParentTaskStatus_cases task.parentId now
        (p.tasks.filter (fun t => t.id ≠ taskId && t.parentId ≠ taskId)) with hc | ⟨s, hc⟩
      · exact Or.inl hc
      · exact Or.inr ⟨ht, s, hc⟩
    · exact Or.inl rfl
  · intro t ht
    have hmem : t.withoutStatus ∈ (deleteTask p taskId now).tasks.map Task.withoutStatus :=
      List.mem_map.mpr ⟨t, ht, rfl⟩
    rw [hmap] at hmem
    obtain ⟨u, hu, hue⟩ := List.mem_map.mp hmem
    have hu2 := (List.mem_filter.mp hu).2
    have hid : u.id = t.id := by
      have h1 : u.withoutStatus.id = t.withoutStatus.id := by rw [hue]
      exact h1
    have hpid : u.parentId = t.parentId := by
      have h1 : u.withoutStatus.parentId = t.withoutStatus.parentId := by rw [hue]
      exact h1
    simp only [ne_eq, Bool.and_eq_true, decide_eq_true_eq, decide_not, Bool.not_eq_true',
      decide_eq_false_iff_not] at hu2
    rw [hid, hpid] at hu2
    exact hu2

/-- A witness of C4 (amended): deleting the subtask `b` of `familyProject`
leaves `p` and `a`, with `p` marked completed by propagation. -/
theorem deleteTask_tasks_witness :
    familyProject.tasks.find? (fun t => decide (t.id = JsVal.str "b"))
        = some (subTask "b" "p" "not-started") ∧
      ((deleteTask familyProject (JsVal.str "b") "now").tasks.map Task.withoutStatus
          = (familyProject.tasks.filter
              (fun t => t.id ≠ JsVal.str "b" && t.parentId ≠ JsVal.str "b")).map
              Task.withoutStatus ∧
        ((deleteTask familyProject (JsVal.str "b") "now").tasks
            = familyProject.tasks.filter
                (fun t => t.id ≠ JsVal.str "b" && t.parentId ≠ JsVal.str "b") ∨
          ((subTask "b" "p" "not-started").parentId.truthy = true ∧
            ∃ s, (deleteTask familyProject (JsVal.str "b") "now").tasks
              = modifyFirst (fun t => decide (t.id = (subTask "b" "p" "not-started").parentId))
                  (assignStatus s "now")
                  (familyProject.tasks.filter
                    (fun t => t.id ≠ JsVal.str "b" && t.parentId ≠ JsVal.str "b")))) ∧
        (∀ t ∈ (deleteTask familyProject (JsVal.str "b") "now").tasks,
          t.id ≠ JsVal.str "b" ∧ t.parentId ≠ JsVal.str "b")) :=
  ⟨by decide, deleteTask_tasks familyProject (JsVal.str "b") "now"
    (subTask "b" "p" "not-started") (by decide)⟩

/-- C4 as stated fails: deleting the subtask `b` of `familyProject` does not
leave the old list with `b` removed, because propagation rewrites the status
and `updatedAt` of the surviving parent `p`. -/
theorem deleteTask_not_filter :
    (∃ t ∈ familyProject.tasks, t.id = JsVal.str "b") ∧
      (deleteTask familyProject (JsVal.str "b") "now").tasks
        ≠ familyProject.tasks.filter
            (fun t => t.id ≠ JsVal.str "b" && t.parentId ≠ JsVal.str "b") ∧
      familyProject.tasks.filter
            (fun t => t.id ≠ JsVal.str "b" && t.parentId ≠ JsVal.str "b")
        = [leafTask "p" "in-progress", subTask "a" "p" "completed"] ∧
      (deleteTask familyProject (JsVal.str "b") "now").tasks
        = [assignStatus (JsVal.str "completed") "now" (leafTask "p" "in-progress"),
            subTask "a" "p" "completed"] := by
  decide

/-! ## Propagation -/

/-- C5 (amended). `updateParentTaskStatus(parentId)`: when `parentId` is
truthy, a task has that id and some task names it as parent, the first task
with that id gets the status that the propagation rule derives from the
statuses of the tasks naming it as parent (and its `updatedAt` is refreshed),
and nothing else changes; in every other case, a falsy `parentId` included, the
list is left as it is. When the call takes effect and the parent is not its own
subtask, the outcome does not depend on the parent's previous status. -/
theorem updateParentTaskStatus_rule (parentId : JsVal) (now : String) (tasks : List Task) :
    (updateParentTaskStatus parentId now tasks =
        if parentId.truthy = true ∧ (∃ t ∈ tasks, t.id = parentId)
            ∧ (∃ t ∈ tasks, t.parentId = parentId) then
          modifyFirst (fun t => decide (t.id = parentId))
            (assignStatus
              (propagationRule ((subtasksOf tasks parentId).map (fun st => st.status))) now)
            tasks
        else tasks) ∧
      ((updateParentTaskStatus parentId now tasks).find? (fun t => decide (t.id = parentId)) =
        if parentId.truthy = true ∧ (∃ t ∈ tasks, t.parentId = parentId) then
          (tasks.find? (fun t => decide (t.id = parentId))).map
            (assignStatus
              (propagationRule ((subtasksOf tasks parentId).map (fun st => st.status))) now)
        else tasks.find? (fun t => decide (t.id = parentId))) ∧
      (∀ s' : JsVal, parentId.truthy = true → (∃ t ∈ tasks, t.parentId = parentId) →
        (∀ P, tasks.find? (fun t => decide (t.id = parentId)) = some P →
          P.parentId ≠ parentId) →
        updateParentTaskStatus parentId now
            (modifyFirst (fun t => decide (t.id = parentId)) (Task.withStatus s') tasks)
          = updateParentTaskStatus parentId now tasks) := by
  have hsome : (tasks.find? (fun t => decide (t.id = parentId))).isSome = true
      ↔ ∃ t ∈ tasks, t.id = parentId := by
    rw [find?_isSome_iff]
    simp
  have hclosed : updateParentTaskStatus parentId now tasks =
      if parentId.truthy = true ∧ (∃ t ∈ tasks, t.id = parentId)
          ∧ (∃ t ∈ tasks, t.parentId = parentId) then
        modifyFirst (fun t => decide (t.id = parentId))
          (assignStatus
            (propagationRule ((subtasksOf tasks parentId).map (fun st => st.status))) now)
          tasks
      else tasks := by
    rw [updateParentTaskStatus_eq]
    simp only [hsome, subtasksOf_ne_nil_iff]
  refine ⟨hclosed, ?_, ?_⟩
  · rw [hclosed]
    by_cases hp : parentId.truthy = true
    · by_cases hs : ∃ t ∈ tasks, t.parentId = parentId
      · by_cases hi : ∃ t ∈ tasks, t.id = parentId
        · rw [if_pos ⟨hp, hi, hs⟩, if_pos ⟨hp, hs⟩]
          exact find?_modifyFirst (fun t => decide (t.id = parentId)) (assignStatus _ now)
            (fun _ => rfl) tasks
        · have hnone : tasks.find? (fun t => decide (t.id = parentId)) = none := by
            rw [← Option.not_isSome_iff_eq_none, hsome]
            exact hi
          rw [if_neg (fun h => hi h.2.1), if_pos ⟨hp, hs⟩, hnone]
          rfl
      · rw [if_neg (fun h => hs h.2.2), if_neg (fun h => hs h.2)]
    · rw [if_neg (fun h => hp h.1), if_neg (fun h => hp h.1)]
  · intro s' hp hs hself
    have hsub : subtasksOf (modifyFirst (fun t => decide (t.id = parentId))
        (Task.withStatus s') tasks) parentId = subtasksOf tasks parentId :=
      subtasksOf_modifyFirst parentId (Task.withStatus s') (fun _ => rfl) tasks hself
    have hfind : (modifyFirst (fun t => decide (t.id = parentId))
        (Task.withStatus s') tasks).find? (fun t => decide (t.id = parentId))
        = (tasks.find? (fun t => decide (t.id = parentId))).map (Task.withStatus s') :=
      find?_modifyFirst (fun t => decide (t.id = parentId)) (Task.withStatus s')
        (fun _ => rfl) tasks
    rcases hfind0 : tasks.find? (fun t => decide (t.id = parentId)) with _ | a
    · rw [modifyFirst_of_none _ _ _ hfind0]
    · have hact : parentId.truthy = true
          ∧ (tasks.find? (fun t => decide (t.id = parentId))).isSome = true
          ∧ subtasksOf tasks parentId ≠ [] :=
        ⟨hp, by rw [hfind0]; rfl, (subtasksOf_ne_nil_iff tasks parentId).mpr hs⟩
      have hact' : parentId.truthy = true
          ∧ ((modifyFirst (fun t => decide (t.id = parentId)) (Task.withStatus s') tasks).find?
              (fun t => decide (t.id = parentId))).isSome = true
          ∧ subtasksOf (modifyFirst (fun t => decide (t.id = parentId))
              (Task.withStatus s') tasks) parentId ≠ [] :=
        ⟨hp, by rw [hfind, hfind0]; rfl, by rw [hsub]; exact hact.2.2⟩
      rw [updateParentTaskStatus_eq, updateParentTaskStatus_eq, if_pos hact, if_pos hact', hsub]
      exact modifyFirst_modifyFirst (fun t => decide (t.id = parentId)) (assignStatus _ now)
        (Task.withStatus s') (fun _ => rfl) tasks

/-- A witness of C5 (amended): on `staleParentProject` the call marks the
parent `p` completed, whatever status `p` had before. -/
theorem updateParentTaskStatus_rule_witness :
    updateParentTaskStatus (JsVal.str "p") "now" staleParentProject.tasks
        = [assignStatus (JsVal.str "completed") "now" (leafTask "p" "not-started"),
            subTask "t" "p" "completed"] ∧
      updateParentTaskStatus (JsVal.str "p") "now"
          (modifyFirst (fun t => decide (t.id = JsVal.str "p"))
            (Task.withStatus (JsVal.str "on-hold")) staleParentProject.tasks)
        = updateParentTaskStatus (JsVal.str "p") "now" staleParentProject.tasks :=
  ⟨by decide,
    (updateParentTaskStatus_rule (JsVal.str "p") "now" staleParentProject.tasks).2.2
      (JsVal.str "on-hold") (by decide) (by decide) (fun P h => by
        rw [show staleParentProject.tasks.find? (fun t => decide (t.id = JsVal.str "p"))
          = some (leafTask "p" "not-started") from by decide] at h
        cases h
        decide)⟩

/-- C5 as stated fails for a falsy `parentId`: in `zeroIdTasks` a task has the
id `0` and its one direct subtask is completed, yet
`updateParentTaskStatus(0)` returns at its first line and the parent stays
not-started. The outcome can also depend on the parent's previous status: a
task `s` that names itself as parent is its own subtask, and the call leaves
it completed when it was completed and not-started when it was not-started. -/
theorem updateParentTaskStatus_falsy_id :
    ((∃ t ∈ zeroIdTasks, t.id = JsVal.num 0) ∧
      subtasksOf zeroIdTasks (JsVal.num 0) ≠ [] ∧
      (∀ s ∈ subtasksOf zeroIdTasks (JsVal.num 0), s.status = JsVal.str "completed") ∧
      updateParentTaskStatus (JsVal.num 0) "now" zeroIdTasks = zeroIdTasks ∧
      (zeroIdTasks.find? (fun t => decide (t.id = JsVal.num 0))).map (fun t => t.status)
        = some (JsVal.str "not-started")) ∧
      ((updateParentTaskStatus (JsVal.str "s") "now" [subTask "s" "s" "completed"]).map
          (fun t => t.status) = [JsVal.str "completed"] ∧
        (updateParentTaskStatus (JsVal.str "s") "now" [subTask "s" "s" "not-started"]).map
          (fun t => t.status) = [JsVal.str "not-started"]) := by
  decide

/-- C6 (amended). In a project with pairwise distinct ids, let `T` be a
subtask whose parent `P` exists. If the patch sets `status` to a truthy value
different from `T`'s status and leaves `T`'s `id` and `parentId` as they are,
then after `updateTask(T.id, patch)` there is exactly one task with `P`'s id,
and its status is the value that the propagation rule derives from the
statuses of its direct subtasks in the list as the call leaves it; `T`, with
the status of the patch, is one of them (when `T` is not `P` itself). -/
theorem updateTask_propagates (p : Project) (T P : Task) (patch : TaskInput) (now : String)
    (hd : (p.tasks.map (fun t => t.id)).Nodup) (hT : T ∈ p.tasks)
    (hTsub : T.parentId.truthy = true) (hP : P ∈ p.tasks) (hPid : P.id = T.parentId)
    (hs : (rd patch.status).truthy = true) (hne : rd patch.status ≠ T.status)
    (hid : spread T.id patch.id = T.id)
    (hpar : spread T.parentId patch.parentId = T.parentId) :
    ∃ P', (updateTask p T.id patch now).tasks.find? (fun t => decide (t.id = P.id)) = some P' ∧
      (∀ t ∈ (updateTask p T.id patch now).tasks, t.id = P.id → t = P') ∧
      P'.status = propagationRule
        ((directSubtasks (updateTask p T.id patch now).tasks P').map (fun st => st.status)) ∧
      (mergeTask T patch now).status = rd patch.status ∧
      (T.id ≠ P.id →
        mergeTask T patch now ∈ directSubtasks (updateTask p T.id patch now).tasks P') := by
  have hfind : p.tasks.find? (fun t => decide (t.id = T.id)) = some T :=
    find?_of_nodup p.tasks hd T hT
  have htasks : (updateTask p T.id patch now).tasks
      = updateParentTaskStatus T.parentId now
          (p.tasks.map (fun task => if task.id = T.id then mergeTask task patch now else task)) := by
    unfold updateTask
    rw [hfind]
    simp [hTsub, hs, hne]
  have hidmap : (p.tasks.map
      (fun task => if task.id = T.id then mergeTask task patch now else task)).map
        (fun t => t.id) = p.tasks.map (fun t => t.id) := by
    rw [List.map_map]
    apply List.map_congr_left
    intro t _
    by_cases h : t.id = T.id
    · simp only [Function.comp, h, if_true, mergeTask]
      exact hid
    · simp [Function.comp, h]
  have hids : (updateTask p T.id patch now).tasks.map (fun t => t.id)
      = p.tasks.map (fun t => t.id) := by
    rw [htasks, map_updateParentTaskStatus (fun t => t.id) (fun _ _ _ => rfl), hidmap]
  have hpars : (updateTask p T.id patch now).tasks.map (fun t => t.parentId)
      = (p.tasks.map
          (fun task => if task.id = T.id then mergeTask task patch now else task)).map
          (fun t => t.parentId) := by
    rw [htasks, map_updateParentTaskStatus (fun t => t.parentId) (fun _ _ _ => rfl)]
  have hTm : mergeTask T patch now ∈ p.tasks.map
      (fun task => if task.id = T.id then mergeTask task patch now else task) :=
    List.mem_map.mpr ⟨T, hT, by simp⟩
  have hTpar : (mergeTask T patch now).parentId = T.parentId := hpar
  have hTid : (mergeTask T patch now).id = T.id := hid
  obtain ⟨P', hP'⟩ := find?_isSome_of_exists (updateTask p T.id patch now).tasks P.id
    (exists_of_map_eq (fun t => t.id) p.tasks _ hids.symm P.id ⟨P, hP, rfl⟩)
  have hP'id : P'.id = P.id := by simpa using List.find?_some hP'
  have hP'mem : P' ∈ (updateTask p T.id patch now).tasks := List.mem_of_find?_eq_some hP'
  have hsub : subtasksOf (updateTask p T.id patch now).tasks T.parentId ≠ [] := by
    rw [subtasksOf_ne_nil_iff]
    exact exists_of_map_eq (fun t => t.parentId) _ _ hpars.symm T.parentId
      ⟨mergeTask T patch now, hTm, hTpar⟩
  have hds : directSubtasks (updateTask p T.id patch now).tasks P'
      = subtasksOf (updateTask p T.id patch now).tasks T.parentId := by
    unfold directSubtasks subtasksOf
    rw [hP'id, hPid]
  refine ⟨P', hP', ?_, ?_, ?_, ?_⟩
  · intro t ht htid
    exact eq_of_nodup_id _ (by rw [hids]; exact hd) t P' ht hP'mem (by rw [htid, hP'id])
  · rw [hds]
    rw [hPid] at hP'
    rw [htasks] at hP' hsub ⊢
    exact updateParentTaskStatus_fixed T.parentId now _ hTsub P' hP' hsub
  · rcases hst : patch.status with _ | s
    · rw [hst] at hs
      exact absurd hs (by simp [rd, JsVal.truthy])
    · simp [mergeTask, spread, rd, hst]
  · intro hTP
    rw [hds]
    unfold subtasksOf
    rw [List.mem_filter]
    refine ⟨?_, by simpa using hTpar⟩
    rw [htasks]
    exact mem_updateParentTaskStatus_of_ne _ _ _ _ hTm (by rw [hTid, ← hPid]; exact hTP)

/-- A witness of C6 (amended): completing the subtask `b` of `familyProject`
leaves its parent `p` with the status of the propagation rule. -/
theorem updateTask_propagates_witness :
    (familyProject.tasks.map (fun t => t.id)).Nodup ∧
      subTask "b" "p" "not-started" ∈ familyProject.tasks ∧
      leafTask "p" "in-progress" ∈ familyProject.tasks ∧
      ∃ P', (updateTask familyProject (subTask "b" "p" "not-started").id
              (statusPatch (JsVal.str "completed")) "now").tasks.find?
            (fun t => decide (t.id = (leafTask "p" "in-progress").id)) = some P' ∧
        (∀ t ∈ (updateTask familyProject (subTask "b" "p" "not-started").id
              (statusPatch (JsVal.str "completed")) "now").tasks,
          t.id = (leafTask "p" "in-progress").id → t = P') ∧
        P'.status = propagationRule
          ((directSubtasks (updateTask familyProject (subTask "b" "p" "not-started").id
              (statusPatch (JsVal.str "completed")) "now").tasks P').map (fun st => st.status)) ∧
        (mergeTask (subTask "b" "p" "not-started") (statusPatch (JsVal.str "completed"))
            "now").status = rd (statusPatch (JsVal.str "completed")).status ∧
        ((subTask "b" "p" "not-started").id ≠ (leafTask "p" "in-progress").id →
          mergeTask (subTask "b" "p" "not-started") (statusPatch (JsVal.str "completed")) "now"
            ∈ directSubtasks (updateTask familyProject (subTask "b" "p" "not-started").id
              (statusPatch (JsVal.str "completed")) "now").tasks P') :=
  ⟨by decide, by decide, by decide,
    updateTask_propagates familyProject (subTask "b" "p" "not-started")
      (leafTask "p" "in-progress") (statusPatch (JsVal.str "completed")) "now"
      (by decide) (by decide) (by decide) (by decide) (by decide) (by decide) (by decide)
      (by decide) (by decide)⟩

/-- C6 as stated fails, in three ways. (1) A patch that sets `status` to a
falsy value (`null`), different from the subtask's status, runs no
propagation: the parent `p` of `completedProject` stays completed while the
rule gives in-progress. (2) A patch that also renames the subtask to its
parent's id makes propagation write to the renamed subtask, which comes first:
the parent of `subtaskFirstProject` stays not-started while the rule gives
completed. (3) A patch that also moves the subtask to another parent leaves
the old parent `p` of `twoParentsProject` without subtasks and as it was. -/
theorem updateTask_no_propagation :
    ((updateTask completedProject (JsVal.str "t") (statusPatch JsVal.null) "now").tasks
        = [leafTask "p" "completed",
            { subTask "t" "p" "completed" with
                status := JsVal.null, updatedAt := JsVal.str "now" }] ∧
      propagationRule
          ((directSubtasks
            (updateTask completedProject (JsVal.str "t") (statusPatch JsVal.null) "now").tasks
            (leafTask "p" "completed")).map (fun st => st.status))
        = JsVal.str "in-progress") ∧
      ((updateTask subtaskFirstProject (JsVal.str "t")
            (statusIdPatch (JsVal.str "completed") (JsVal.str "p")) "now").tasks
        = [{ subTask "p" "p" "completed" with updatedAt := JsVal.str "now" },
            leafTask "p" "not-started"] ∧
      propagationRule
          ((directSubtasks
            (updateTask subtaskFirstProject (JsVal.str "t")
              (statusIdPatch (JsVal.str "completed") (JsVal.str "p")) "now").tasks
            (leafTask "p" "not-started")).map (fun st => st.status))
        = JsVal.str "completed") ∧
      ((updateTask twoParentsProject (JsVal.str "t")
            (statusParentPatch (JsVal.str "completed") (JsVal.str "q")) "now").tasks
        = [leafTask "p" "not-started",
            { subTask "t" "q" "completed" with updatedAt := JsVal.str "now" },
            leafTask "q" "not-started"] ∧
      directSubtasks
          (updateTask twoParentsProject (JsVal.str "t")
            (statusParentPatch (JsVal.str "completed") (JsVal.str "q")) "now").tasks
          (leafTask "p" "not-started") = []) := by
  decide

/-! ## Completion of a parent -/

theorem propagationRule_of_all_completed (statuses : List JsVal)
    (h : ∀ s ∈ statuses, s = JsVal.str "completed") :
    propagationRule statuses = JsVal.str "completed" := by
  unfold propagationRule
  rw [if_pos h]

theorem touchesSubtask_tasks (p p' : Project) (pid : JsVal) (h : TouchesSubtask p pid p') :
    pid.truthy = true ∧ ∃ now tasks, p'.tasks = updateParentTaskStatus pid now tasks := by
  cases h with
  | add newId now input t hpid htr hok =>
    refine ⟨htr, now, p.tasks ++ [newTaskOf p.tasks newId now input], ?_⟩
    have hnp : (newTaskOf p.tasks newId now input).parentId = pid := hpid
    unfold addTask at hok ⊢
    simp only [hnp, htr] at hok ⊢
    split at hok
    · exact absurd hok (by simp)
    · rename_i hc
      simp [hc]
  | update taskId patch now old hfind hpid htr hs hne =>
    refine ⟨htr, now,
      p.tasks.map (fun task => if task.id = taskId then mergeTask task patch now else task), ?_⟩
    unfold updateTask
    rw [hfind]
    simp only [hpid, htr, hs, hne, Bool.and_self, ne_eq, not_false_eq_true, decide_True, if_true]
  | delete taskId now old hfind hpid htr =>
    refine ⟨htr, now, p.tasks.filter (fun t => t.id ≠ taskId && t.parentId ≠ taskId), ?_⟩
    rw [tasks_after_deleteTask p taskId now old hfind, hpid, if_pos htr]

/-- C7 (amended). Whenever a mutating call runs propagation for the parent id
`pid` (`addTask` accepting a subtask of `pid`, `deleteTask` on a subtask of
`pid`, or `updateTask` on a subtask of `pid` with a patch whose status is
truthy and differs from the subtask's status) and, once the call returns, some
task names `pid` as parent and every such task is completed, then the first
task whose id is `pid` is completed once the call returns. An `updateTask` on
an existing task that has no truthy `parentId`, or whose patch does not name a
truthy status different from the task's status, runs no propagation: the list
after the call is the old list with the patch merged into the task with the id
`taskId`, and, place by place, every task with another id is as it was (the
parent too, unless it has the id `taskId` itself). -/
theorem parent_completed_after_touch (p p' : Project) (pid : JsVal)
    (h : TouchesSubtask p pid p') (P : Task)
    (hP : p'.tasks.find? (fun t => decide (t.id = pid)) = some P)
    (hsub : subtasksOf p'.tasks pid ≠ [])
    (hall : ∀ s ∈ subtasksOf p'.tasks pid, s.status = JsVal.str "completed") :
    P.status = JsVal.str "completed" ∧
      ∀ (q : Project) (taskId : JsVal) (patch : TaskInput) (now : String) (old : Task),
        q.tasks.find? (fun t => decide (t.id = taskId)) = some old →
        (old.parentId.truthy && (rd patch.status).truthy
          && decide (rd patch.status ≠ old.status)) = false →
        (updateTask q taskId patch now).tasks
            = q.tasks.map (fun t => if t.id = taskId then mergeTask t patch now else t) ∧
          List.Forall₂ (fun t t' => t.id ≠ taskId → t' = t) q.tasks
            (updateTask q taskId patch now).tasks := by
  constructor
  · obtain ⟨htr, now, tasks, htasks⟩ := touchesSubtask_tasks p p' pid h
    rw [htasks] at hP hsub hall
    rw [updateParentTaskStatus_fixed pid now tasks htr P hP hsub]
    apply propagationRule_of_all_completed
    intro s hs
    obtain ⟨t, ht, rfl⟩ := List.mem_map.mp hs
    exact hall t ht
  · intro q taskId patch now old hfind hc
    have htasks : (updateTask q taskId patch now).tasks
        = q.tasks.map (fun t => if t.id = taskId then mergeTask t patch now else t) := by
      unfold updateTask
      rw [hfind]
      simp only [hc, Bool.false_eq_true, if_false]
    refine ⟨htasks, ?_⟩
    rw [htasks, List.forall₂_map_right_iff, List.forall₂_same]
    intro x _ hne
    simp only [hne, if_false]

/-- A witness of C7 (amended): completing the last open subtask `b` of
`familyProject` runs propagation for `p`, and `p` is completed afterwards;
a patch of `b` that repeats its status not-started runs no propagation and
leaves the list as the merge gives it. -/
theorem parent_completed_after_touch_witness :
    TouchesSubtask familyProject (JsVal.str "p")
        (updateTask familyProject (JsVal.str "b") (statusPatch (JsVal.str "completed")) "now") ∧
      (updateTask familyProject (JsVal.str "b") (statusPatch (JsVal.str "completed"))
          "now").tasks.find? (fun t => decide (t.id = JsVal.str "p"))
        = some (assignStatus (JsVal.str "completed") "now" (leafTask "p" "in-progress")) ∧
      (assignStatus (JsVal.str "completed") "now" (leafTask "p" "in-progress")).status
        = JsVal.str "completed" ∧
      (updateTask familyProject (JsVal.str "b") (statusPatch (JsVal.str "not-started"))
          "later").tasks
        = familyProject.tasks.map (fun t =>
            if t.id = JsVal.str "b" then
              mergeTask t (statusPatch (JsVal.str "not-started")) "later"
            else t) :=
  ⟨TouchesSubtask.update (JsVal.str "b") (statusPatch (JsVal.str "completed")) "now"
      (subTask "b" "p" "not-started") (by decide) (by decide) (by decide) (by decide)
      (by decide),
    by decide,
    (parent_completed_after_touch familyProject _ (JsVal.str "p")
      (TouchesSubtask.update (JsVal.str "b") (statusPatch (JsVal.str "completed")) "now"
        (subTask "b" "p" "not-started") (by decide) (by decide) (by decide) (by decide)
        (by decide))
      (assignStatus (JsVal.str "completed") "now" (leafTask "p" "in-progress"))
      (by decide) (by decide) (by decide)).1,
    ((parent_completed_after_touch familyProject _ (JsVal.str "p")
      (TouchesSubtask.update (JsVal.str "b") (statusPatch (JsVal.str "completed")) "now"
        (subTask "b" "p" "not-started") (by decide) (by decide) (by decide) (by decide)
        (by decide))
      (assignStatus (JsVal.str "completed") "now" (leafTask "p" "in-progress"))
      (by decide) (by decide) (by decide)).2 familyProject (JsVal.str "b")
      (statusPatch (JsVal.str "not-started")) "later" (subTask "b" "p" "not-started")
      (by decide) (by decide)).1⟩

/-- C7 as stated fails. In `reopenedProject`, built by two calls of `addTask`
and one of `updateTask`, the parent `p` is not-started and its only subtask
`t` is completed; `updateTask` on `t` with a patch that repeats the status
`completed` touches `t` and runs no propagation, so that afterwards `p` has a
subtask, every subtask of `p` is completed, and `p` is still not-started. -/
theorem parent_not_completed :
    reopenedProject.tasks.map (fun t => (t.id, t.parentId, t.status))
        = [(JsVal.str "p", JsVal.undefined, JsVal.str "not-started"),
            (JsVal.str "t", JsVal.str "p", JsVal.str "completed")] ∧
      (updateTask reopenedProject (JsVal.str "t") (statusPatch (JsVal.str "completed"))
          "later").tasks.map (fun t => (t.id, t.parentId, t.status))
        = [(JsVal.str "p", JsVal.undefined, JsVal.str "not-started"),
            (JsVal.str "t", JsVal.str "p", JsVal.str "completed")] ∧
      subtasksOf (updateTask reopenedProject (JsVal.str "t")
          (statusPatch (JsVal.str "completed")) "later").tasks (JsVal.str "p") ≠ [] ∧
      (∀ s ∈ subtasksOf (updateTask reopenedProject (JsVal.str "t")
          (statusPatch (JsVal.str "completed")) "later").tasks (JsVal.str "p"),
        s.status = JsVal.str "completed") ∧
      ((updateTask reopenedProject (JsVal.str "t") (statusPatch (JsVal.str "completed"))
          "later").tasks.find? (fun t => decide (t.id = JsVal.str "p"))).map (fun t => t.status)
        = some (JsVal.str "not-started") := by
  decide

/-! ## Ids -/

theorem addTask_ok_eq (p : Project) (newId now : String) (task : TaskInput) (created : Task)
    (hok : (addTask p newId now task).1 = Except.ok created) :
    created = newTaskOf p.tasks newId now task ∧
      (addTask p newId now task).2.tasks
        = if (newTaskOf p.tasks newId now task).parentId.truthy = true then
            updateParentTaskStatus (newTaskOf p.tasks newId now task).parentId now
              (p.tasks ++ [newTaskOf p.tasks newId now task])
          else p.tasks ++ [newTaskOf p.tasks newId now task] := by
  unfold addTask at hok ⊢
  simp only at hok ⊢
  split at hok
  · exact absurd hok (by simp)
  · rename_i hc
    simp only [hc]
    refine ⟨?_, rfl⟩
    simpa using hok.symm

theorem ids_after_addTask (p : Project) (newId now : String) (task : TaskInput) (created : Task)
    (hok : (addTask p newId now task).1 = Except.ok created) :
    (addTask p newId now task).2.tasks.map (fun t => t.id)
      = p.tasks.map (fun t => t.id) ++ [spread (JsVal.str newId) task.id] := by
  rw [(addTask_ok_eq p newId now task created hok).2]
  split
  · rw [map_updateParentTaskStatus (fun t => t.id) (fun _ _ _ => rfl)]
    simp [newTaskOf]
  · simp [newTaskOf]

/-- C12 (amended). The task that `addTask` creates has the input's own id when
the input carries an `id` field, and the generated id otherwise. In a project
with pairwise distinct ids, when that id differs from the id of every task
already there, the ids are pairwise distinct after the call as well. -/
theorem addTask_id (p : Project) (newId now : String) (task : TaskInput) (created : Task)
    (hd : (p.tasks.map (fun t => t.id)).Nodup)
    (hok : (addTask p newId now task).1 = Except.ok created)
    (hfresh : ∀ t ∈ p.tasks, t.id ≠ spread (JsVal.str newId) task.id) :
    created.id = spread (JsVal.str newId) task.id ∧
      (task.id = none → created.id = JsVal.str newId) ∧
      (∀ t ∈ p.tasks, t.id ≠ created.id) ∧
      ((addTask p newId now task).2.tasks.map (fun t => t.id)).Nodup := by
  have hc : created.id = spread (JsVal.str newId) task.id := by
    rw [(addTask_ok_eq p newId now task created hok).1]
    rfl
  refine ⟨hc, ?_, ?_, ?_⟩
  · intro hn
    rw [hc, hn]
    rfl
  · intro t ht
    rw [hc]
    exact hfresh t ht
  · rw [ids_after_addTask p newId now task created hok]
    rw [List.nodup_append]
    refine ⟨hd, by simp, ?_⟩
    intro a ha hb
    obtain ⟨t, ht, rfl⟩ := List.mem_map.mp ha
    rw [List.mem_singleton] at hb
    exact hfresh t ht hb

/-- A witness of C12 (amended): a second task without an `id` field, added to
`oneTaskProject` with the generated id `b`. -/
theorem addTask_id_witness :
    (oneTaskProject.tasks.map (fun t => t.id)).Nodup ∧
      (addTask oneTaskProject "b" "now" plainInput).1
        = Except.ok (newTaskOf oneTaskProject.tasks "b" "now" plainInput) ∧
      ((newTaskOf oneTaskProject.tasks "b" "now" plainInput).id
          = spread (JsVal.str "b") plainInput.id ∧
        (plainInput.id = none →
          (newTaskOf oneTaskProject.tasks "b" "now" plainInput).id = JsVal.str "b") ∧
        (∀ t ∈ oneTaskProject.tasks,
          t.id ≠ (newTaskOf oneTaskProject.tasks "b" "now" plainInput).id) ∧
        ((addTask oneTaskProject "b" "now" plainInput).2.tasks.map (fun t => t.id)).Nodup) :=
  ⟨by decide, by decide,
    addTask_id oneTaskProject "b" "now" plainInput _ (by decide) (by decide) (by decide)⟩

/-- C12 as stated fails: `oneTaskProject` has one task, with id `a`; an input
that carries `id: "a"` is accepted although the generated id `b` is fresh, the
created task has the id `a`, and the ids are no longer pairwise distinct. -/
theorem addTask_duplicate_id :
    oneTaskProject.tasks.map (fun t => t.id) = [JsVal.str "a"] ∧
      (addTask oneTaskProject "b" "now" (idInput (JsVal.str "a"))).1
        = Except.ok (newTaskOf oneTaskProject.tasks "b" "now" (idInput (JsVal.str "a"))) ∧
      (newTaskOf oneTaskProject.tasks "b" "now" (idInput (JsVal.str "a"))).id = JsVal.str "a" ∧
      (addTask oneTaskProject "b" "now" (idInput (JsVal.str "a"))).2.tasks.map (fun t => t.id)
        = [JsVal.str "a", JsVal.str "a"] ∧
      ¬ ((addTask oneTaskProject "b" "now" (idInput (JsVal.str "a"))).2.tasks.map
          (fun t => t.id)).Nodup := by
  decide

theorem tasks_after_updateTask (p : Project) (taskId : JsVal) (updates : TaskInput)
    (now : String) (task : Task)
    (h : p.tasks.find? (fun t => decide (t.id = taskId)) = some task) :
    (updateTask p taskId updates now).tasks =
      if (task.parentId.truthy && (rd updates.status).truthy
          && decide (rd updates.status ≠ task.status)) = true then
        updateParentTaskStatus task.parentId now
          (p.tasks.map (fun t => if t.id = taskId then mergeTask t updates now else t))
      else p.tasks.map (fun t => if t.id = taskId then mergeTask t updates now else t) := by
  unfold updateTask
  rw [h]

theorem ids_after_updateTask (p : Project) (taskId : JsVal) (updates : TaskInput)
    (now : String) (task : Task)
    (h : p.tasks.find? (fun t => decide (t.id = taskId)) = some task) :
    (updateTask p taskId updates now).tasks.map (fun t => t.id)
      = p.tasks.map (fun t => if t.id = taskId then spread taskId updates.id else t.id) := by
  rw [tasks_after_updateTask p taskId updates now task h]
  have hm : (p.tasks.map (fun t => if t.id = taskId then mergeTask t updates now else t)).map
      (fun t => t.id)
      = p.tasks.map (fun t => if t.id = taskId then spread taskId updates.id else t.id) := by
    rw [List.map_map]
    apply List.map_congr_left
    intro t _
    by_cases ht : t.id = taskId
    · simp [Function.comp, ht, mergeTask]
    · simp [Function.comp, ht]
  split
  · rw [map_updateParentTaskStatus (fun t => t.id) (fun _ _ _ => rfl), hm]
  · exact hm

/-- C13 (amended). After `updateTask(taskId, patch)` on an existing `taskId`
the ids of the task list are, position by position, the old ones, except that
every task that had the id `taskId` has the id that the patch names, if it
names one. Hence when the patch does not name `id`, or names `taskId` itself,
every task keeps its id and the collection of ids is the same as before. -/
theorem updateTask_ids (p : Project) (taskId : JsVal) (updates : TaskInput) (now : String)
    (task : Task) (h : p.tasks.find? (fun t => decide (t.id = taskId)) = some task)
    (hkeep : spread taskId updates.id = taskId) :
    (updateTask p taskId updates now).tasks.map (fun t => t.id)
        = p.tasks.map (fun t => t.id) ∧
      ∀ patch : TaskInput, (updateTask p taskId patch now).tasks.map (fun t => t.id)
        = p.tasks.map (fun t => if t.id = taskId then spread taskId patch.id else t.id) := by
  refine ⟨?_, fun patch => ids_after_updateTask p taskId patch now task h⟩
  rw [ids_after_updateTask p taskId updates now task h]
  apply List.map_congr_left
  intro t _
  by_cases ht : t.id = taskId
  · simp [ht, hkeep]
  · simp [ht]

/-- A witness of C13 (amended): a patch of the subtask `b` of `familyProject`
that names only `status`. -/
theorem updateTask_ids_witness :
    familyProject.tasks.find? (fun t => decide (t.id = JsVal.str "b"))
        = some (subTask "b" "p" "not-started") ∧
      ((updateTask familyProject (JsVal.str "b") (statusPatch (JsVal.str "completed"))
            "now").tasks.map (fun t => t.id)
          = familyProject.tasks.map (fun t => t.id) ∧
        ∀ patch : TaskInput,
          (updateTask familyProject (JsVal.str "b") patch "now").tasks.map (fun t => t.id)
            = familyProject.tasks.map
                (fun t => if t.id = JsVal.str "b" then spread (JsVal.str "b") patch.id
                  else t.id)) :=
  ⟨by decide, updateTask_ids familyProject (JsVal.str "b")
    (statusPatch (JsVal.str "completed")) "now" (subTask "b" "p" "not-started") (by decide)
    (by decide)⟩

/-- C13 as stated fails: a patch that names `id` gives the task a new id; the
task of `familyProject` that had the id `b` has the id `z` after the call, and
no task has the id `b` any more. -/
theorem updateTask_changes_id :
    familyProject.tasks.map (fun t => t.id)
        = [JsVal.str "p", JsVal.str "a", JsVal.str "b"] ∧
      (updateTask familyProject (JsVal.str "b") (idInput (JsVal.str "z")) "now").tasks.map
          (fun t => t.id)
        = [JsVal.str "p", JsVal.str "a", JsVal.str "z"] := by
  decide

/-! ## The frame of `updateTask` -/

theorem getExtra_setExtra (k : String) (v : JsVal) (k' : String) :
    ∀ o : List (String × JsVal),
      getExtra (setExtra o k v) k' = if k = k' then some v else getExtra o k'
  | [] => by
    by_cases h : k = k' <;> simp [setExtra, getExtra, List.find?, h]
  | (k0, v0) :: rest => by
    have ih := getExtra_setExtra k v k' rest
    unfold getExtra at ih ⊢
    by_cases h0 : k0 = k
    · subst h0
      by_cases h : k0 = k' <;> simp [setExtra, List.find?, h]
    · by_cases h : k = k'
      · subst h
        simp only [setExtra, h0, if_false, List.find?, decide_False, if_true]
        simpa using ih
      · by_cases h1 : k0 = k'
        · subst h1
          simp [setExtra, h0, List.find?, h]
        · simp only [setExtra, h0, if_false, List.find?, h1, decide_False, h]
          simpa [h] using ih

theorem getExtra_spreadExtra (k : String) :
    ∀ (upd base : List (String × JsVal)),
      getExtra (spreadExtra base upd) k
        = match namedExtra upd k with
          | some v => some v
          | none => getExtra base k
  | [], base => by simp [spreadExtra, namedExtra]
  | (k0, v0) :: rest, base => by
    have ih := getExtra_spreadExtra k rest (setExtra base k0 v0)
    have e : spreadExtra base ((k0, v0) :: rest) = spreadExtra (setExtra base k0 v0) rest := by
      simp [spreadExtra]
    rw [e, ih, getExtra_setExtra]
    cases hn : namedExtra rest k with
    | some w => simp [namedExtra, hn]
    | none =>
      by_cases h : k0 = k <;> simp [namedExtra, hn, h]

theorem forall₂_map_modifyFirst (g : Task → Task) (q : Task → Bool) (f : Task → Task) :
    ∀ l : List Task,
      List.Forall₂ (fun a b => b = g a ∨ (q (g a) = true ∧ b = f (g a))) l
        (modifyFirst q f (l.map g))
  | [] => by simp [modifyFirst]
  | a :: l => by
    by_cases h : q (g a) = true
    · simp only [List.map_cons, modifyFirst, h, if_true]
      refine List.Forall₂.cons (Or.inr ⟨h, rfl⟩) ?_
      rw [List.forall₂_map_right_iff, List.forall₂_same]
      intro x _
      exact Or.inl rfl
    · simp only [List.map_cons, modifyFirst, h]
      exact List.Forall₂.cons (Or.inl rfl) (forall₂_map_modifyFirst g q f l)

theorem forall₂_map_self (g : Task → Task) (l : List Task) :
    List.Forall₂ (fun a b => b = g a) l (l.map g) := by
  rw [List.forall₂_map_right_iff, List.forall₂_same]
  intro x _
  rfl

/-- C11 (amended). For a project with pairwise distinct ids, an existing
`taskId` with task `T` and a patch, provided the id that the target carries
after the merge (the patch's `id` if it names one, else `taskId`) differs from
the `parentId` that `T` had before the call: after `updateTask(taskId, patch)`
the task list has the same length and order; position by position, the task
that had the id `taskId` (there is only `T`) is the merge of `T` and the patch,
and every other task is as before, except that a task whose id is the old
`parentId` of `T` may differ in `status` and `updatedAt`. The merge carries
the patch's value for every property named in the patch, `now` as `updatedAt`,
and the old value of `T` for every other property. -/
theorem updateTask_frame (p : Project) (taskId : JsVal) (patch : TaskInput) (now : String)
    (T : Task) (hd : (p.tasks.map (fun t => t.id)).Nodup)
    (h : p.tasks.find? (fun t => decide (t.id = taskId)) = some T)
    (hne : spread taskId patch.id ≠ T.parentId) :
    (updateTask p taskId patch now).tasks.length = p.tasks.length ∧
      List.Forall₂
        (fun t t' =>
          if t.id = taskId then t' = mergeTask T patch now
          else t' = t ∨ (t.id = T.parentId ∧ ∃ s, t' = assignStatus s now t))
        p.tasks (updateTask p taskId patch now).tasks ∧
      (∀ t ∈ p.tasks, t.id = taskId → t = T) ∧
      ((mergeTask T patch now).id = patch.id.getD T.id ∧
        (mergeTask T patch now).parentId = patch.parentId.getD T.parentId ∧
        (mergeTask T patch now).position = patch.position.getD T.position ∧
        (mergeTask T patch now).status = patch.status.getD T.status ∧
        (mergeTask T patch now).priority = patch.priority.getD T.priority ∧
        (mergeTask T patch now).createdAt = patch.createdAt.getD T.createdAt ∧
        (mergeTask T patch now).updatedAt = JsVal.str now ∧
        ∀ k, getExtra (mergeTask T patch now).extra k
          = match namedExtra patch.extra k with
            | some v => some v
            | none => getExtra T.extra k) := by
  have hTmem : T ∈ p.tasks := List.mem_of_find?_eq_some h
  have hTid : T.id = taskId := by simpa using List.find?_some h
  have huniq : ∀ t ∈ p.tasks, t.id = taskId → t = T := fun t ht hid =>
    eq_of_nodup_id p.tasks hd t T ht hTmem (hid.trans hTid.symm)
  have hrel : List.Forall₂
      (fun t t' =>
        if t.id = taskId then t' = mergeTask T patch now
        else t' = t ∨ (t.id = T.parentId ∧ ∃ s, t' = assignStatus s now t))
      p.tasks (updateTask p taskId patch now).tasks := by
    rw [tasks_after_updateTask p taskId patch now T h]
    have hgen : ∀ (l' : List Task),
        List.Forall₂ (fun a b =>
          b = (fun t => if t.id = taskId then mergeTask t patch now else t) a ∨
            ((fun t => decide (t.id = T.parentId))
                ((fun t => if t.id = taskId then mergeTask t patch now else t) a) = true ∧
              ∃ s, b = assignStatus s now
                ((fun t => if t.id = taskId then mergeTask t patch now else t) a)))
          p.tasks l' →
        List.Forall₂
          (fun t t' =>
            if t.id = taskId then t' = mergeTask T patch now
            else t' = t ∨ (t.id = T.parentId ∧ ∃ s, t' = assignStatus s now t))
          p.tasks l' := by
      intro l' hl'
      rw [List.forall₂_iff_get] at hl' ⊢
      refine ⟨hl'.1, fun i h1 h2 => ?_⟩
      have hi := hl'.2 i h1 h2
      have hmem : p.tasks.get ⟨i, h1⟩ ∈ p.tasks := List.get_mem _ _ _
      by_cases hid : (p.tasks.get ⟨i, h1⟩).id = taskId
      · have hT := huniq _ hmem hid
        simp only [hid, if_true] at hi ⊢
        rcases hi with hi | ⟨hq, _⟩
        · rw [hi, hT]
        · have hm : (mergeTask (p.tasks.get ⟨i, h1⟩) patch now).id = T.parentId :=
            of_decide_eq_true hq
          have hs : spread (p.tasks.get ⟨i, h1⟩).id patch.id = T.parentId := hm
          rw [hid] at hs
          exact absurd hs hne
      · simp only [hid, if_false] at hi ⊢
        rcases hi with hi | ⟨hq, s, hs⟩
        · exact Or.inl hi
        · exact Or.inr ⟨by simpa using hq, s, hs⟩
    apply hgen
    split
    · rcases updateParentTaskStatus_cases T.parentId now
          (p.tasks.map (fun t => if t.id = taskId then mergeTask t patch now else t))
        with hc | ⟨s, hc⟩
      · rw [hc]
        exact (forall₂_map_self _ p.tasks).imp (fun _ _ hab => Or.inl hab)
      · rw [hc]
        exact (forall₂_map_modifyFirst _ _ (assignStatus s now) p.tasks).imp
          (fun _ _ hab => hab.imp id (fun hq => ⟨hq.1, s, hq.2⟩))
    · exact (forall₂_map_self _ p.tasks).imp (fun _ _ hab => Or.inl hab)
  refine ⟨hrel.length_eq.symm, hrel, huniq, rfl, rfl, rfl, rfl, rfl, rfl, rfl, ?_⟩
  intro k
  exact getExtra_spreadExtra k patch.extra T.extra

/-- A witness of C11 (amended): the subtask `b` of `familyProject` is patched
to completed. -/
theorem updateTask_frame_witness :
    (familyProject.tasks.map (fun t => t.id)).Nodup ∧
      familyProject.tasks.find? (fun t => decide (t.id = JsVal.str "b"))
        = some (subTask "b" "p" "not-started") ∧
      spread (JsVal.str "b") (statusPatch (JsVal.str "completed")).id
        ≠ (subTask "b" "p" "not-started").parentId ∧
      (updateTask familyProject (JsVal.str "b") (statusPatch (JsVal.str "completed"))
        "now").tasks.length = familyProject.tasks.length :=
  ⟨by decide, by decide, by decide,
    (updateTask_frame familyProject (JsVal.str "b") (statusPatch (JsVal.str "completed"))
      "now" (subTask "b" "p" "not-started") (by decide) (by decide) (by decide)).1⟩

/-- C11 as stated fails: the only task of `selfParentProject` names itself as
its parent. A patch that names the status on-hold leaves it in-progress: the
propagation to the parent overwrites the status that the merge wrote. -/
theorem updateTask_target_overwritten :
    (selfParentProject.tasks.map (fun t => t.id)).Nodup ∧
      selfParentProject.tasks.find? (fun t => decide (t.id = JsVal.str "s"))
        = some (subTask "s" "s" "not-started") ∧
      (statusPatch (JsVal.str "on-hold")).status = some (JsVal.str "on-hold") ∧
      (updateTask selfParentProject (JsVal.str "s") (statusPatch (JsVal.str "on-hold"))
          "now").tasks.map (fun t => t.status)
        = [JsVal.str "in-progress"] := by
  decide

/-! ## Deleting a subtask -/

theorem nodup_ids_filter (l : List Task) (q : Task → Bool)
    (hd : (l.map (fun t => t.id)).Nodup) : ((l.filter q).map (fun t => t.id)).Nodup :=
  hd.sublist ((List.filter_sublist l).map _)

theorem nodup_ids_updateParentTaskStatus (pid : JsVal) (now : String) (l : List Task)
    (hd : (l.map (fun t => t.id)).Nodup) :
    ((updateParentTaskStatus pid now l).map (fun t => t.id)).Nodup := by
  rw [map_updateParentTaskStatus (fun t => t.id) (fun _ _ _ => rfl)]
  exact hd

theorem subtasksOf_updateParentTaskStatus_eq_nil (pid pid' : JsVal) (now : String)
    (l : List Task) :
    subtasksOf (updateParentTaskStatus pid now l) pid' = [] ↔ subtasksOf l pid' = [] := by
  have hpar : (updateParentTaskStatus pid now l).map (fun t => t.parentId)
      = l.map (fun t => t.parentId) :=
    map_updateParentTaskStatus (fun t => t.parentId) (fun _ _ _ => rfl) pid now l
  constructor
  · intro h
    by_contra hne
    rw [← ne_eq, subtasksOf_ne_nil_iff] at hne
    have := exists_of_map_eq (fun t => t.parentId) _ _ hpar.symm pid' hne
    rw [← subtasksOf_ne_nil_iff] at this
    exact this h
  · intro h
    by_contra hne
    rw [← ne_eq, subtasksOf_ne_nil_iff] at hne
    have := exists_of_map_eq (fun t => t.parentId) _ _ hpar pid' hne
    rw [← subtasksOf_ne_nil_iff] at this
    exact this h

/-- C17. In a project with pairwise distinct ids let `T` be a subtask whose
parent `P` is in the task list. After `deleteTask(T.id)`, the task with the id
of `P` (there is one unless the call removed `P` itself, which takes `P` to be
`T` or a subtask of `T`) has, if a task with its id as `parentId` is left, the
status that the propagation rule derives from the statuses of those tasks,
and, if none is left, the status that `P` had before the call. -/
theorem deleteTask_parent_status (p : Project) (now : String) (T P : Task)
    (hd : (p.tasks.map (fun t => t.id)).Nodup) (hT : T ∈ p.tasks) (hsub : T.isSub = true)
    (hP : P ∈ p.tasks) (hPid : P.id = T.parentId) :
    (∀ P' ∈ (deleteTask p T.id now).tasks, P'.id = P.id →
        (subtasksOf (deleteTask p T.id now).tasks P.id ≠ [] →
          P'.status = propagationRule
            ((subtasksOf (deleteTask p T.id now).tasks P.id).map (fun st => st.status))) ∧
        (subtasksOf (deleteTask p T.id now).tasks P.id = [] → P'.status = P.status)) ∧
      (P.id ≠ T.id → P.parentId ≠ T.id →
        ∃ P' ∈ (deleteTask p T.id now).tasks, P'.id = P.id) := by
  have hfind := find?_of_nodup p.tasks hd T hT
  have htr : T.parentId.truthy = true := hsub
  have htasks := tasks_after_deleteTask p T.id now T hfind
  rw [if_pos htr] at htasks
  rw [htasks, hPid]
  have hdf := nodup_ids_filter p.tasks (fun t => t.id ≠ T.id && t.parentId ≠ T.id) hd
  have hdu := nodup_ids_updateParentTaskStatus T.parentId now _ hdf
  refine ⟨fun P' hP' hid => ⟨fun hne => ?_, fun hnil => ?_⟩, fun h1 h2 => ?_⟩
  · have hf := find?_of_nodup _ hdu P' hP'
    rw [hid] at hf
    exact updateParentTaskStatus_fixed T.parentId now _ htr P' hf hne
  · have hnil' := (subtasksOf_updateParentTaskStatus_eq_nil T.parentId T.parentId now _).mp hnil
    have hsame : updateParentTaskStatus T.parentId now
        (p.tasks.filter (fun t => t.id ≠ T.id && t.parentId ≠ T.id))
        = p.tasks.filter (fun t => t.id ≠ T.id && t.parentId ≠ T.id) := by
      rw [updateParentTaskStatus_eq, if_neg]
      intro hc
      exact hc.2.2 hnil'
    rw [hsame] at hP'
    have hmem : P' ∈ p.tasks := List.mem_of_mem_filter hP'
    rw [eq_of_nodup_id p.tasks hd P' P hmem hP (hid.trans hPid.symm)]
  · have hmem : P ∈ p.tasks.filter (fun t => t.id ≠ T.id && t.parentId ≠ T.id) := by
      rw [List.mem_filter]
      have h1' : P.id ≠ T.id := hPid ▸ h1
      exact ⟨hP, by simp [h1', h2]⟩
    have := exists_of_map_eq (fun t => t.id) _ _
      (map_updateParentTaskStatus (fun t => t.id) (fun _ _ _ => rfl) T.parentId now
        (p.tasks.filter (fun t => t.id ≠ T.id && t.parentId ≠ T.id))).symm
      P.id ⟨P, hmem, rfl⟩
    rw [hPid] at this
    exact this

/-- A witness of C17: the completed subtask `a` of `familyProject` is deleted;
the parent `p` keeps the subtask `b`. -/
theorem deleteTask_parent_status_witness :
    (familyProject.tasks.map (fun t => t.id)).Nodup ∧
      subTask "a" "p" "completed" ∈ familyProject.tasks ∧
      (subTask "a" "p" "completed").isSub = true ∧
      leafTask "p" "in-progress" ∈ familyProject.tasks ∧
      (∀ P' ∈ (deleteTask familyProject (subTask "a" "p" "completed").id "now").tasks,
        P'.id = (leafTask "p" "in-progress").id →
        (subtasksOf (deleteTask familyProject (subTask "a" "p" "completed").id "now").tasks
            (leafTask "p" "in-progress").id ≠ [] →
          P'.status = propagationRule
            ((subtasksOf
              (deleteTask familyProject (subTask "a" "p" "completed").id "now").tasks
              (leafTask "p" "in-progress").id).map (fun st => st.status))) ∧
        (subtasksOf (deleteTask familyProject (subTask "a" "p" "completed").id "now").tasks
            (leafTask "p" "in-progress").id = [] →
          P'.status = (leafTask "p" "in-progress").status)) :=
  ⟨by decide, by decide, by decide, by decide,
    (deleteTask_parent_status familyProject "now" (subTask "a" "p" "completed")
      (leafTask "p" "in-progress") (by decide) (by decide) (by decide) (by decide)
      (by decide)).1⟩

/-! ## The sort -/

theorem insertSorted_perm (cmp : Task → Task → Option Int) (a : Task) :
    ∀ l : List Task, (insertSorted cmp a l).Perm (a :: l)
  | [] => List.Perm.refl _
  | b :: l => by
    unfold insertSorted
    split
    · exact ((insertSorted_perm cmp a l).cons b).trans (List.Perm.swap a b l)
    · exact List.Perm.refl _

theorem arraySort_perm (cmp : Task → Task → Option Int) :
    ∀ l : List Task, (arraySort cmp l).Perm l
  | [] => List.Perm.refl _
  | a :: l => by
    unfold arraySort
    exact (insertSorted_perm cmp a _).trans ((arraySort_perm cmp l).cons a)

theorem insertSorted_congr (cmp cmp' : Task → Task → Option Int) (a : Task) :
    ∀ l : List Task, (∀ b ∈ l, cmp b a = cmp' b a) →
      insertSorted cmp a l = insertSorted cmp' a l
  | [], _ => rfl
  | b :: l, h => by
    have hb : cmp b a = cmp' b a := h b (List.mem_cons_self _ _)
    have ih := insertSorted_congr cmp cmp' a l (fun c hc => h c (List.mem_cons_of_mem _ hc))
    simp only [insertSorted, sortsBefore, hb, ih]

theorem arraySort_congr (cmp cmp' : Task → Task → Option Int) :
    ∀ l : List Task, (∀ a ∈ l, ∀ b ∈ l, cmp a b = cmp' a b) →
      arraySort cmp l = arraySort cmp' l
  | [], _ => rfl
  | a :: l, h => by
    have ih := arraySort_congr cmp cmp' l
      (fun x hx y hy => h x (List.mem_cons_of_mem _ hx) y (List.mem_cons_of_mem _ hy))
    unfold arraySort
    rw [ih]
    apply insertSorted_congr
    intro b hb
    have hb' : b ∈ l := (arraySort_perm cmp' l).subset hb
    exact h b (List.mem_cons_of_mem _ hb') a (List.mem_cons_self _ _)

theorem sortsBefore_byPosition (a b : Task) :
    sortsBefore byPosition a b = decide (positionOf a < positionOf b) := by
  simp [sortsBefore, byPosition]

theorem insertSorted_sorted (a : Task) :
    ∀ l : List Task, l.Pairwise (fun x y => positionOf x ≤ positionOf y) →
      (insertSorted byPosition a l).Pairwise (fun x y => positionOf x ≤ positionOf y)
  | [], _ => by simp [insertSorted]
  | b :: l, h => by
    rw [List.pairwise_cons] at h
    unfold insertSorted
    rw [sortsBefore_byPosition]
    by_cases hlt : positionOf b < positionOf a
    · simp only [hlt, decide_True, if_true]
      rw [List.pairwise_cons]
      refine ⟨?_, insertSorted_sorted a l h.2⟩
      intro y hy
      have hy' := (insertSorted_perm byPosition a l).subset hy
      rcases List.mem_cons.mp hy' with rfl | hy'
      · exact le_of_lt hlt
      · exact h.1 y hy'
    · simp only [hlt, decide_False, Bool.false_eq_true, if_false]
      have hle : positionOf a ≤ positionOf b := not_lt.mp hlt
      rw [List.pairwise_cons]
      refine ⟨?_, List.pairwise_cons.mpr h⟩
      intro y hy
      rcases List.mem_cons.mp hy with rfl | hy
      · exact hle
      · exact le_trans hle (h.1 y hy)

theorem arraySort_sorted :
    ∀ l : List Task,
      (arraySort byPosition l).Pairwise (fun x y => positionOf x ≤ positionOf y)
  | [] => List.Pairwise.nil
  | a :: l => by
    unfold arraySort
    exact insertSorted_sorted a _ (arraySort_sorted l)

theorem filter_insertSorted_of_not (q : Task → Bool) (cmp : Task → Task → Option Int)
    (a : Task) (ha : q a = false) :
    ∀ l : List Task, (insertSorted cmp a l).filter q = l.filter q
  | [] => by simp [insertSorted, ha]
  | b :: l => by
    unfold insertSorted
    split
    · simp only [List.filter_cons, filter_insertSorted_of_not q cmp a ha l]
    · simp [List.filter_cons, ha]

theorem filter_insertSorted_of_pos (q : Task → Bool) (a : Task) (ha : q a = true) :
    ∀ l : List Task, l.Pairwise (fun x y => positionOf x ≤ positionOf y) →
      (insertSorted byPosition a l).filter q = insertSorted byPosition a (l.filter q)
  | [], _ => by simp [insertSorted, ha]
  | b :: l, h => by
    rw [List.pairwise_cons] at h
    have ih := filter_insertSorted_of_pos q a ha l h.2
    by_cases hlt : positionOf b < positionOf a
    · by_cases hb : q b = true
      · simp [insertSorted, sortsBefore_byPosition, hlt, List.filter_cons, hb, ih]
      · simp [insertSorted, sortsBefore_byPosition, hlt, List.filter_cons, hb, ih]
    · have hle : positionOf a ≤ positionOf b := not_lt.mp hlt
      have hhead : ∀ l' : List Task, (∀ y ∈ l', positionOf a ≤ positionOf y) →
          insertSorted byPosition a l' = a :: l' := by
        intro l' hl'
        cases l' with
        | nil => rfl
        | cons c r =>
          have hc : ¬ positionOf c < positionOf a :=
            not_lt.mpr (hl' c (List.mem_cons_self _ _))
          simp [insertSorted, sortsBefore_byPosition, hc]
      rw [hhead (b :: l), hhead ((b :: l).filter q)]
      · simp [List.filter_cons, ha]
      · intro y hy
        have hy' := List.mem_of_mem_filter hy
        rcases List.mem_cons.mp hy' with rfl | hy'
        · exact hle
        · exact le_trans hle (h.1 y hy')
      · intro y hy
        rcases List.mem_cons.mp hy with rfl | hy
        · exact hle
        · exact le_trans hle (h.1 y hy)

/-- Sorting commutes with taking the tasks that satisfy a condition. -/
theorem filter_arraySort (q : Task → Bool) :
    ∀ l : List Task, (arraySort byPosition l).filter q = arraySort byPosition (l.filter q)
  | [] => rfl
  | a :: l => by
    have ih := filter_arraySort q l
    by_cases ha : q a = true
    · rw [List.filter_cons_of_pos ha]
      unfold arraySort
      rw [filter_insertSorted_of_pos q a ha _ (arraySort_sorted l), ih]
    · have ha' : q a = false := by simpa using ha
      rw [List.filter_cons_of_neg ha]
      conv_lhs => unfold arraySort
      rw [filter_insertSorted_of_not q byPosition a ha', ih]

/-- The sort is stable: the tasks of one position keep their order. -/
theorem arraySort_stable (v : Int) :
    ∀ l : List Task,
      (arraySort byPosition l).filter (fun t => decide (positionOf t = v))
        = l.filter (fun t => decide (positionOf t = v))
  | [] => rfl
  | a :: l => by
    have ih := arraySort_stable v l
    have hins : ∀ s : List Task,
        (insertSorted byPosition a s).filter (fun t => decide (positionOf t = v))
          = (a :: s).filter (fun t => decide (positionOf t = v)) := by
      intro s
      induction s with
      | nil => rfl
      | cons b s ihs =>
        by_cases hlt : positionOf b < positionOf a
        · simp only [insertSorted, sortsBefore_byPosition, hlt, decide_True, if_true,
            List.filter_cons, ihs]
          by_cases hb : positionOf b = v
          · have hav : positionOf a ≠ v := fun hav => by omega
            simp [hb, hav]
          · simp [hb]
        · simp [insertSorted, sortsBefore_byPosition, hlt]
    unfold arraySort
    rw [hins, List.filter_cons, List.filter_cons, ih]

theorem arraySort_eq_self_iff (l : List Task) :
    arraySort byPosition l = l ↔ l.Pairwise (fun x y => positionOf x ≤ positionOf y) := by
  constructor
  · intro h
    rw [← h]
    exact arraySort_sorted l
  · intro h
    induction l with
    | nil => rfl
    | cons a l ih =>
      rw [List.pairwise_cons] at h
      unfold arraySort
      rw [ih h.2]
      cases l with
      | nil => rfl
      | cons b r =>
        have hb : ¬ positionOf b < positionOf a :=
          not_lt.mpr (h.1 b (List.mem_cons_self _ _))
        simp [insertSorted, sortsBefore_byPosition, hb]

theorem comparePositions_eq (strToNumber : String → Option Int) (a b : Task)
    (ha : a.position.isNum = true) (hb : b.position.isNum = true) :
    comparePositions strToNumber a b = byPosition a b := by
  unfold comparePositions byPosition positionOf
  cases hpa : a.position <;> simp [hpa, JsVal.isNum] at ha
  cases hpb : b.position <;> simp [hpb, JsVal.isNum] at hb
  rename_i n m
  by_cases hn : n = 0 <;> by_cases hm : m = 0 <;>
    simp [jsOr, JsVal.truthy, toNumber, hn, hm]

theorem arraySort_comparePositions (strToNumber : String → Option Int) (l : List Task)
    (h : IntegerPositions l) :
    arraySort (comparePositions strToNumber) l = arraySort byPosition l :=
  arraySort_congr _ _ l (fun a ha b hb => comparePositions_eq strToNumber a b (h a ha) (h b hb))

/-! ## The reorder operation -/

theorem applyOrders_cons (o : TaskOrder) (os : List TaskOrder) (now : String)
    (l : List Task) :
    applyOrders (o :: os) now l
      = applyOrders os now
          (modifyFirst (fun task => decide (task.id = o.id)) (assignPosition o.position now) l) := by
  simp [applyOrders]

theorem map_applyOrders {β : Type} (g : Task → β)
    (hg : ∀ pos now t, g (assignPosition pos now t) = g t) (now : String) :
    ∀ (os : List TaskOrder) (l : List Task), (applyOrders os now l).map g = l.map g
  | [], _ => rfl
  | o :: os, l => by
    rw [applyOrders_cons, map_applyOrders g hg now os, map_modifyFirst g _ _ (hg o.position now)]

theorem mem_modifyFirst (q : Task → Bool) (f : Task → Task) (x : Task) :
    ∀ l : List Task, x ∈ modifyFirst q f l → x ∈ l ∨ ∃ t ∈ l, q t = true ∧ x = f t
  | [], h => Or.inl h
  | t :: l, h => by
    by_cases hq : q t = true
    · simp only [modifyFirst, hq, if_true] at h
      rcases List.mem_cons.mp h with rfl | h'
      · exact Or.inr ⟨t, List.mem_cons_self _ _, hq, rfl⟩
      · exact Or.inl (List.mem_cons_of_mem _ h')
    · simp only [modifyFirst, hq] at h
      rcases List.mem_cons.mp h with rfl | h'
      · exact Or.inl (List.mem_cons_self _ _)
      · rcases mem_modifyFirst q f x l h' with h1 | ⟨u, hu, hqu, hxu⟩
        · exact Or.inl (List.mem_cons_of_mem _ h1)
        · exact Or.inr ⟨u, List.mem_cons_of_mem _ hu, hqu, hxu⟩

theorem integerPositions_applyOrders (now : String) :
    ∀ (os : List TaskOrder) (l : List Task), IntegerOrders os → IntegerPositions l →
      IntegerPositions (applyOrders os now l)
  | [], _, _, hl => hl
  | o :: os, l, ho, hl => by
    rw [applyOrders_cons]
    apply integerPositions_applyOrders now os _
      (fun o' ho' => ho o' (List.mem_cons_of_mem _ ho'))
    intro x hx
    rcases mem_modifyFirst _ _ x l hx with h1 | ⟨t, _, _, rfl⟩
    · exact hl x h1
    · exact ho o (List.mem_cons_self _ _)

theorem tasks_after_reorderTasks (strToNumber : String → Option Int) (p : Project)
    (taskOrders : List TaskOrder) (now : String) (hp : IntegerPositions p.tasks)
    (ho : IntegerOrders taskOrders) :
    (reorderTasks strToNumber p taskOrders now).tasks
      = arraySort byPosition (applyOrders taskOrders now p.tasks) :=
  arraySort_comparePositions strToNumber _ (integerPositions_applyOrders now taskOrders _ ho hp)

theorem find?_modifyFirst_of_disjoint (q r : Task → Bool) (f : Task → Task)
    (h : ∀ t, q t = true → r t = false ∧ r (f t) = false) :
    ∀ l : List Task, (modifyFirst q f l).find? r = l.find? r
  | [] => rfl
  | t :: l => by
    by_cases hq : q t = true
    · simp [modifyFirst, hq, List.find?, (h t hq).1, (h t hq).2]
    · simp [modifyFirst, hq, List.find?, find?_modifyFirst_of_disjoint q r f h l]

theorem before_of_sorted (l : List Task) (x y : Task)
    (hs : l.Pairwise (fun a b => positionOf a ≤ positionOf b)) (hx : x ∈ l) (hy : y ∈ l)
    (hlt : positionOf x < positionOf y) : ∃ l1 l2 l3, l = l1 ++ x :: (l2 ++ y :: l3) := by
  obtain ⟨l1, r, rfl⟩ := List.append_of_mem hx
  rw [List.pairwise_append] at hs
  rcases List.mem_append.mp hy with h1 | h2
  · have := hs.2.2 y h1 x (List.mem_cons_self _ _)
    omega
  · rcases List.mem_cons.mp h2 with rfl | h3
    · omega
    · obtain ⟨l2, l3, rfl⟩ := List.append_of_mem h3
      exact ⟨l1, l2, l3, rfl⟩

/-- C18. For a project whose positions are integers and an orders sequence
whose positions are integers, the list that the reorder operation leaves has
its top-level tasks in non-decreasing order of position, and the top-level
tasks of one position in the order in which the list before the call has
them (the position updates keep the place of every task and change nothing
but `position` and `updatedAt`). In particular, for top-level tasks with the
different ids `A` and `B`, the orders `[{id: A, position: 2}, {id: B,
position: 1}]` leave the task `B` before the task `A`. -/
theorem reorderTasks_topLevel_sorted (strToNumber : String → Option Int) (p : Project)
    (taskOrders : List TaskOrder) (now : String) (hp : IntegerPositions p.tasks)
    (ho : IntegerOrders taskOrders) :
    (topLevelTasks (reorderTasks strToNumber p taskOrders now).tasks).Pairwise
        (fun x y => positionOf x ≤ positionOf y) ∧
      (∀ v : Int,
        (topLevelTasks (reorderTasks strToNumber p taskOrders now).tasks).filter
            (fun t => decide (positionOf t = v))
          = (topLevelTasks (applyOrders taskOrders now p.tasks)).filter
              (fun t => decide (positionOf t = v))) ∧
      (applyOrders taskOrders now p.tasks).map Task.withoutPosition
        = p.tasks.map Task.withoutPosition ∧
      (∀ (A B : JsVal) (a b : Task), A ≠ B →
        p.tasks.find? (fun t => decide (t.id = A)) = some a →
        p.tasks.find? (fun t => decide (t.id = B)) = some b →
        a.isSub = false → b.isSub = false →
        ∃ l1 l2 l3,
          topLevelTasks (reorderTasks strToNumber p
              [⟨A, JsVal.num 2⟩, ⟨B, JsVal.num 1⟩] now).tasks
            = l1 ++ assignPosition (JsVal.num 1) now b
                :: (l2 ++ assignPosition (JsVal.num 2) now a :: l3)) := by
  refine ⟨?_, ?_, ?_, ?_⟩
  · rw [tasks_after_reorderTasks strToNumber p taskOrders now hp ho]
    exact (arraySort_sorted _).sublist (List.filter_sublist _)
  · intro v
    rw [tasks_after_reorderTasks strToNumber p taskOrders now hp ho]
    unfold topLevelTasks
    rw [filter_arraySort, arraySort_stable]
  · exact map_applyOrders Task.withoutPosition (fun _ _ _ => rfl) now taskOrders p.tasks
  · intro A B a b hAB ha hb hat hbt
    have ho2 : IntegerOrders [⟨A, JsVal.num 2⟩, ⟨B, JsVal.num 1⟩] := by
      intro o hmem
      simp only [List.mem_cons, List.mem_singleton, List.not_mem_nil, or_false] at hmem
      rcases hmem with rfl | rfl <;> rfl
    rw [tasks_after_reorderTasks strToNumber p _ now hp ho2]
    unfold topLevelTasks
    rw [filter_arraySort]
    -- the list after the two position updates
    obtain ⟨pre, post, _, _, _, e1⟩ :=
      modifyFirst_split (fun t => decide (t.id = A)) (assignPosition (JsVal.num 2) now)
        p.tasks a ha
    have haid : a.id = A := by simpa using List.find?_some ha
    have hbid : b.id = B := by simpa using List.find?_some hb
    have hb1 : (modifyFirst (fun t => decide (t.id = A)) (assignPosition (JsVal.num 2) now)
        p.tasks).find? (fun t => decide (t.id = B)) = some b := by
      rw [find?_modifyFirst_of_disjoint _ _ _ _ p.tasks, hb]
      intro t ht
      have htA : t.id = A := of_decide_eq_true ht
      have hne : t.id ≠ B := fun h => hAB (htA.symm.trans h)
      exact ⟨decide_eq_false hne, decide_eq_false hne⟩
    obtain ⟨pre2, post2, _, _, _, e2⟩ :=
      modifyFirst_split (fun t => decide (t.id = B)) (assignPosition (JsVal.num 1) now) _ b hb1
    have hupd : applyOrders [⟨A, JsVal.num 2⟩, ⟨B, JsVal.num 1⟩] now p.tasks
        = pre2 ++ assignPosition (JsVal.num 1) now b :: post2 := by
      rw [applyOrders_cons, applyOrders_cons]
      exact e2
    have hb' : assignPosition (JsVal.num 1) now b
        ∈ applyOrders [⟨A, JsVal.num 2⟩, ⟨B, JsVal.num 1⟩] now p.tasks := by
      rw [hupd]
      simp
    have ha' : assignPosition (JsVal.num 2) now a
        ∈ applyOrders [⟨A, JsVal.num 2⟩, ⟨B, JsVal.num 1⟩] now p.tasks := by
      rw [applyOrders_cons, applyOrders_cons]
      apply mem_modifyFirst_of_not
      · have hne : (assignPosition (JsVal.num 2) now a).id ≠ B := fun h =>
          hAB (haid.symm.trans h)
        exact decide_eq_false hne
      · rw [e1]
        simp
    apply before_of_sorted _ _ _ (arraySort_sorted _)
    · apply (arraySort_perm _ _).symm.subset
      rw [List.mem_filter]
      refine ⟨hb', ?_⟩
      have : (assignPosition (JsVal.num 1) now b).isSub = false := hbt
      simp [this]
    · apply (arraySort_perm _ _).symm.subset
      rw [List.mem_filter]
      refine ⟨ha', ?_⟩
      have : (assignPosition (JsVal.num 2) now a).isSub = false := hat
      simp [this]
    · show (1 : Int) < 2
      decide

/-- A witness of C18: the orders that put `a` at 2 and `b` at 1 in
`twoPlacedProject` leave `b` before `a`. -/
theorem reorderTasks_topLevel_sorted_witness :
    IntegerPositions twoPlacedProject.tasks ∧
      IntegerOrders [⟨JsVal.str "a", JsVal.num 2⟩, ⟨JsVal.str "b", JsVal.num 1⟩] ∧
      (topLevelTasks (reorderTasks noStrings twoPlacedProject
          [⟨JsVal.str "a", JsVal.num 2⟩, ⟨JsVal.str "b", JsVal.num 1⟩] "now").tasks).Pairwise
        (fun x y => positionOf x ≤ positionOf y) ∧
      (reorderTasks noStrings twoPlacedProject
          [⟨JsVal.str "a", JsVal.num 2⟩, ⟨JsVal.str "b", JsVal.num 1⟩] "now").tasks.map
          (fun t => t.id)
        = [JsVal.str "b", JsVal.str "a"] :=
  ⟨by decide, by decide,
    (reorderTasks_topLevel_sorted noStrings twoPlacedProject
      [⟨JsVal.str "a", JsVal.num 2⟩, ⟨JsVal.str "b", JsVal.num 1⟩] "now" (by decide)
      (by decide)).1,
    by decide⟩

theorem modifyFirst_eq_map (i : JsVal) (f : Task → Task) :
    ∀ l : List Task, (l.map (fun t => t.id)).Nodup →
      modifyFirst (fun t => decide (t.id = i)) f l
        = l.map (fun t => if t.id = i then f t else t)
  | [], _ => rfl
  | t :: l, hd => by
    rw [List.map_cons, List.nodup_cons] at hd
    by_cases ht : t.id = i
    · have hrest : l.map (fun u => if u.id = i then f u else u) = l := by
        conv_rhs => rw [← List.map_id l]
        apply List.map_congr_left
        intro u hu
        have hne : u.id ≠ i := by
          intro hui
          apply hd.1
          rw [ht, ← hui]
          exact List.mem_map.mpr ⟨u, hu, rfl⟩
        simp [hne]
      simp [modifyFirst, ht, hrest]
    · simp [modifyFirst, ht, modifyFirst_eq_map i f l hd.2]

/-- One task under the position updates of an orders sequence. -/
theorem foldl_orders_eq (now : String) :
    ∀ (os : List TaskOrder) (t : Task),
      os.foldl (fun u o => if u.id = o.id then assignPosition o.position now u else u) t
        = match lastPosition os t.id with
          | some pos => assignPosition pos now t
          | none => t
  | [], _ => rfl
  | o :: os, t => by
    rw [List.foldl_cons, foldl_orders_eq now os]
    by_cases h : t.id = o.id
    · simp only [h, if_true]
      rw [show (assignPosition o.position now t).id = o.id from h]
      cases hl : lastPosition os o.id with
      | some v => simp [lastPosition, hl, assignPosition]
      | none => simp [lastPosition, hl]
    · have h' : ¬ o.id = t.id := fun e => h e.symm
      simp only [h, if_false]
      cases hl : lastPosition os t.id with
      | some v => simp [lastPosition, hl]
      | none => simp [lastPosition, hl, h']

theorem applyOrders_eq_map (now : String) :
    ∀ (os : List TaskOrder) (l : List Task), (l.map (fun t => t.id)).Nodup →
      applyOrders os now l
        = l.map (fun t =>
            os.foldl (fun u o => if u.id = o.id then assignPosition o.position now u else u) t)
  | [], l, _ => by simp [applyOrders]
  | o :: os, l, hd => by
    have hd1 : ((modifyFirst (fun task => decide (task.id = o.id))
        (assignPosition o.position now) l).map (fun t => t.id)).Nodup := by
      rw [map_modifyFirst (fun t => t.id) (fun task => decide (task.id = o.id))
        (assignPosition o.position now) (fun _ => rfl)]
      exact hd
    rw [applyOrders_cons, applyOrders_eq_map now os _ hd1, modifyFirst_eq_map o.id _ l hd,
      List.map_map]
    apply List.map_congr_left
    intro t _
    simp [Function.comp, List.foldl_cons]

theorem applyOrders_filter_known (now : String) :
    ∀ (os : List TaskOrder) (l : List Task),
      applyOrders os now l
        = applyOrders (os.filter (fun o => l.any (fun t => decide (t.id = o.id)))) now l
  | [], _ => rfl
  | o :: os, l => by
    have hany : ∀ (l' : List Task), l'.map (fun t => t.id) = l.map (fun t => t.id) →
        (fun o' : TaskOrder => l'.any (fun t => decide (t.id = o'.id)))
          = (fun o' : TaskOrder => l.any (fun t => decide (t.id = o'.id))) := by
      intro l' hl'
      funext o'
      rw [Bool.eq_iff_iff]
      simp only [List.any_eq_true, decide_eq_true_eq]
      constructor
      · intro hx
        exact exists_of_map_eq (fun t => t.id) l' l hl' o'.id hx
      · intro hx
        exact exists_of_map_eq (fun t => t.id) l l' hl'.symm o'.id hx
    by_cases hk : l.any (fun t => decide (t.id = o.id)) = true
    · simp only [List.filter_cons, hk, if_true]
      rw [applyOrders_cons, applyOrders_cons, applyOrders_filter_known now os,
        hany _ (map_modifyFirst (fun t => t.id) (fun task => decide (task.id = o.id))
          (assignPosition o.position now) (fun _ => rfl) l)]
    · have hk' : l.any (fun t => decide (t.id = o.id)) = false := by simpa using hk
      simp only [List.filter_cons, hk', Bool.false_eq_true, if_false]
      rw [applyOrders_cons]
      have hnone : l.find? (fun task => decide (task.id = o.id)) = none := by
        rw [List.find?_eq_none]
        intro x hx hxo
        apply hk
        rw [List.any_eq_true]
        exact ⟨x, hx, hxo⟩
      rw [modifyFirst_of_none _ _ l hnone]
      exact applyOrders_filter_known now os l

/-- C19. For a project with pairwise distinct ids and an orders sequence, the
list that the reorder operation leaves consists, up to its order, of the old
tasks, each task whose id occurs in the orders with the position of the last
entry with that id (and `now` as `updatedAt`), every other task as it was.
The outcome is a value, not an error, and the entries whose id matches no
task have no effect: the orders without those entries give the same project. -/
theorem reorderTasks_positions (strToNumber : String → Option Int) (p : Project)
    (taskOrders : List TaskOrder) (now : String)
    (hd : (p.tasks.map (fun t => t.id)).Nodup) :
    (reorderTasks strToNumber p taskOrders now).tasks.Perm
        (p.tasks.map (fun t =>
          match lastPosition taskOrders t.id with
          | some pos => assignPosition pos now t
          | none => t)) ∧
      reorderTasks strToNumber p taskOrders now
        = reorderTasks strToNumber p
            (taskOrders.filter (fun o => p.tasks.any (fun t => decide (t.id = o.id)))) now := by
  constructor
  · unfold reorderTasks
    refine (arraySort_perm _ _).trans ?_
    rw [applyOrders_eq_map now taskOrders p.tasks hd]
    apply List.Perm.of_eq
    apply List.map_congr_left
    intro t _
    exact foldl_orders_eq now taskOrders t
  · unfold reorderTasks
    rw [← applyOrders_filter_known now taskOrders p.tasks]

/-- A witness of C19: orders for `twoPlacedProject` that name `a` twice and an
id that no task has. -/
theorem reorderTasks_positions_witness :
    (twoPlacedProject.tasks.map (fun t => t.id)).Nodup ∧
      (reorderTasks noStrings twoPlacedProject
          [⟨JsVal.str "a", JsVal.num 7⟩, ⟨JsVal.str "z", JsVal.num 0⟩,
            ⟨JsVal.str "a", JsVal.num 5⟩] "now").tasks.Perm
        (twoPlacedProject.tasks.map (fun t =>
          match lastPosition
              [⟨JsVal.str "a", JsVal.num 7⟩, ⟨JsVal.str "z", JsVal.num 0⟩,
                ⟨JsVal.str "a", JsVal.num 5⟩] t.id with
          | some pos => assignPosition pos "now" t
          | none => t)) ∧
      (reorderTasks noStrings twoPlacedProject
          [⟨JsVal.str "a", JsVal.num 7⟩, ⟨JsVal.str "z", JsVal.num 0⟩,
            ⟨JsVal.str "a", JsVal.num 5⟩] "now").tasks.map (fun t => (t.id, t.position))
        = [(JsVal.str "b", JsVal.num 1), (JsVal.str "a", JsVal.num 5)] :=
  ⟨by decide,
    (reorderTasks_positions noStrings twoPlacedProject
      [⟨JsVal.str "a", JsVal.num 7⟩, ⟨JsVal.str "z", JsVal.num 0⟩,
        ⟨JsVal.str "a", JsVal.num 5⟩] "now" (by decide)).1,
    by decide⟩

/-- C20 (amended). The reorder operation sorts the whole task list, the
subtasks with it. For a project and an orders sequence whose positions are
integers, the tasks that have a `parentId` appear after the call in
non-decreasing order of position, those of one position in the order in which
the list before the call has them (the position updates keep the place of
every task and change nothing but `position` and `updatedAt`). Their relative
order is the one before the call exactly when that order is non-decreasing in
the positions that the tasks have after the position updates. -/
theorem reorderTasks_subtasks (strToNumber : String → Option Int) (p : Project)
    (taskOrders : List TaskOrder) (now : String) (hp : IntegerPositions p.tasks)
    (ho : IntegerOrders taskOrders) :
    (subtaskList (reorderTasks strToNumber p taskOrders now).tasks).Pairwise
        (fun x y => positionOf x ≤ positionOf y) ∧
      (∀ v : Int,
        (subtaskList (reorderTasks strToNumber p taskOrders now).tasks).filter
            (fun t => decide (positionOf t = v))
          = (subtaskList (applyOrders taskOrders now p.tasks)).filter
              (fun t => decide (positionOf t = v))) ∧
      (applyOrders taskOrders now p.tasks).map Task.withoutPosition
        = p.tasks.map Task.withoutPosition ∧
      (subtaskList (reorderTasks strToNumber p taskOrders now).tasks
          = subtaskList (applyOrders taskOrders now p.tasks) ↔
        (subtaskList (applyOrders taskOrders now p.tasks)).Pairwise
          (fun x y => positionOf x ≤ positionOf y)) := by
  rw [tasks_after_reorderTasks strToNumber p taskOrders now hp ho]
  refine ⟨(arraySort_sorted _).sublist (List.filter_sublist _), fun v => ?_,
    map_applyOrders Task.withoutPosition (fun _ _ _ => rfl) now taskOrders p.tasks, ?_⟩
  · unfold subtaskList
    rw [filter_arraySort, arraySort_stable]
  · unfold subtaskList
    rw [filter_arraySort]
    exact arraySort_eq_self_iff _

/-- A witness of C20 (amended): orders that leave the subtasks of
`queueProject` in the order of their positions. -/
theorem reorderTasks_subtasks_witness :
    IntegerPositions queueProject.tasks ∧
      IntegerOrders [⟨JsVal.str "s2", JsVal.num 3⟩] ∧
      (subtaskList (reorderTasks noStrings queueProject
          [⟨JsVal.str "s2", JsVal.num 3⟩] "now").tasks).Pairwise
        (fun x y => positionOf x ≤ positionOf y) ∧
      (subtaskList (reorderTasks noStrings queueProject
          [⟨JsVal.str "s2", JsVal.num 3⟩] "now").tasks).map (fun t => t.id)
        = [JsVal.str "s1", JsVal.str "s2"] :=
  ⟨by decide, by decide,
    (reorderTasks_subtasks noStrings queueProject [⟨JsVal.str "s2", JsVal.num 3⟩] "now"
      (by decide) (by decide)).1,
    by decide⟩

/-- C20 as stated fails: in `queueProject` the subtask `s1` comes before the
subtask `s2`; the orders that put `s1` at the position 5 leave `s2` before
`s1`. -/
theorem reorderTasks_moves_subtasks :
    IntegerPositions queueProject.tasks ∧
      IntegerOrders [⟨JsVal.str "s1", JsVal.num 5⟩] ∧
      (subtaskList queueProject.tasks).map (fun t => t.id)
        = [JsVal.str "s1", JsVal.str "s2"] ∧
      (subtaskList (reorderTasks noStrings queueProject
          [⟨JsVal.str "s1", JsVal.num 5⟩] "now").tasks).map (fun t => t.id)
        = [JsVal.str "s2", JsVal.str "s1"] ∧
      (reorderTasks noStrings queueProject [⟨JsVal.str "s1", JsVal.num 5⟩] "now").tasks.map
          (fun t => t.id)
        = [JsVal.str "p", JsVal.str "s2", JsVal.str "s1"] := by
  decide

/-! ## Invariants of the task tree -/

theorem linkSub_of_map_eq (l' l : List Task) (h : l'.map Task.link = l.map Task.link) :
    LinkSub l' l := fun t' ht' =>
  exists_of_map_eq Task.link l' l h t'.link ⟨t', ht', rfl⟩

theorem linkSub_refl (l : List Task) : LinkSub l l := fun t ht => ⟨t, ht, rfl⟩

theorem linkSub_trans (l1 l2 l3 : List Task) (h12 : LinkSub l1 l2) (h23 : LinkSub l2 l3) :
    LinkSub l1 l3 := by
  intro t1 h1
  obtain ⟨t2, h2, e2⟩ := h12 t1 h1
  obtain ⟨t3, h3, e3⟩ := h23 t2 h2
  exact ⟨t3, h3, e3.trans e2⟩

theorem linkSub_of_subset (l' l : List Task) (h : ∀ t ∈ l', t ∈ l) : LinkSub l' l :=
  fun t ht => ⟨t, h t ht, rfl⟩

theorem link_id {t t' : Task} (h : t.link = t'.link) : t.id = t'.id := congrArg Prod.fst h

theorem link_parentId {t t' : Task} (h : t.link = t'.link) : t.parentId = t'.parentId :=
  congrArg Prod.snd h

theorem link_isSub {t t' : Task} (h : t.link = t'.link) : t.isSub = t'.isSub := by
  unfold Task.isSub
  rw [link_parentId h]

theorem depthOne_of_linkSub (l' l : List Task) (h : LinkSub l' l) (hd : DepthOne l) :
    DepthOne l' := by
  intro t' ht' hs c' hc' hcs heq
  obtain ⟨t, ht, e1⟩ := h t' ht'
  obtain ⟨c, hc, e2⟩ := h c' hc'
  refine hd t ht ((link_isSub e1).trans hs) c hc ((link_isSub e2).trans hcs) ?_
  rw [link_parentId e2, link_id e1]
  exact heq

theorem noOrphans_of_linkSub (l' l : List Task) (h1 : LinkSub l' l) (h2 : LinkSub l l')
    (hn : NoOrphans l) : NoOrphans l' := by
  intro t' ht' hs
  obtain ⟨t, ht, e1⟩ := h1 t' ht'
  obtain ⟨q, hq, hqid⟩ := hn t ht ((link_isSub e1).trans hs)
  obtain ⟨q', hq', e2⟩ := h2 q hq
  exact ⟨q', hq', (link_id e2).trans (hqid.trans (link_parentId e1))⟩

theorem links_updateParentTaskStatus (pid : JsVal) (now : String) (l : List Task) :
    (updateParentTaskStatus pid now l).map Task.link = l.map Task.link :=
  map_updateParentTaskStatus Task.link (fun _ _ _ => rfl) pid now l

/-! ### The task list after each call -/

theorem tasks_after_addTask (p : Project) (newId now : String) (task : TaskInput) :
    (addTask p newId now task).2.tasks =
      if ((newTaskOf p.tasks newId now task).parentId.truthy
          && !(p.tasks.any (fun t => decide (t.id = (newTaskOf p.tasks newId now task).parentId))))
          = true then p.tasks
      else if (newTaskOf p.tasks newId now task).parentId.truthy = true then
        updateParentTaskStatus (newTaskOf p.tasks newId now task).parentId now
          (p.tasks ++ [newTaskOf p.tasks newId now task])
      else p.tasks ++ [newTaskOf p.tasks newId now task] := by
  unfold addTask
  simp only
  split <;> rfl

theorem updateTask_of_none (p : Project) (taskId : JsVal) (updates : TaskInput) (now : String)
    (h : p.tasks.find? (fun t => decide (t.id = taskId)) = none) :
    updateTask p taskId updates now = p := by
  unfold updateTask
  rw [h]

theorem deleteTask_of_none (p : Project) (taskId : JsVal) (now : String)
    (h : p.tasks.find? (fun t => decide (t.id = taskId)) = none) :
    deleteTask p taskId now = p := by
  unfold deleteTask
  rw [h]

theorem mergeTask_link (t : Task) (updates : TaskInput) (now : String)
    (h1 : updates.id = none) (h2 : updates.parentId = none) :
    (mergeTask t updates now).link = t.link := by
  simp [mergeTask, Task.link, h1, h2, spread]

theorem links_after_updateTask (p : Project) (taskId : JsVal) (updates : TaskInput)
    (now : String) (h1 : updates.id = none) (h2 : updates.parentId = none) :
    (updateTask p taskId updates now).tasks.map Task.link = p.tasks.map Task.link := by
  cases hf : p.tasks.find? (fun t => decide (t.id = taskId)) with
  | none => rw [updateTask_of_none p taskId updates now hf]
  | some T =>
    rw [tasks_after_updateTask p taskId updates now T hf]
    have hm : (p.tasks.map (fun t => if t.id = taskId then mergeTask t updates now else t)).map
        Task.link = p.tasks.map Task.link := by
      rw [List.map_map]
      apply List.map_congr_left
      intro t _
      by_cases ht : t.id = taskId
      · simp [Function.comp, ht, mergeTask_link t updates now h1 h2]
      · simp [Function.comp, ht]
    split
    · rw [links_updateParentTaskStatus, hm]
    · exact hm

theorem linkSub_after_deleteTask (p : Project) (taskId : JsVal) (now : String) :
    LinkSub (deleteTask p taskId now).tasks p.tasks := by
  cases hf : p.tasks.find? (fun t => decide (t.id = taskId)) with
  | none =>
    rw [deleteTask_of_none p taskId now hf]
    exact linkSub_refl _
  | some T =>
    rw [tasks_after_deleteTask p taskId now T hf]
    have hfil : LinkSub (p.tasks.filter (fun t => t.id ≠ taskId && t.parentId ≠ taskId)) p.tasks :=
      linkSub_of_subset _ _ (fun t ht => List.mem_of_mem_filter ht)
    split
    · exact linkSub_trans _ _ _
        (linkSub_of_map_eq _ _ (links_updateParentTaskStatus _ _ _)) hfil
    · exact hfil

theorem links_applyOrders (taskOrders : List TaskOrder) (now : String) (l : List Task) :
    (applyOrders taskOrders now l).map Task.link = l.map Task.link :=
  map_applyOrders Task.link (fun _ _ _ => rfl) now taskOrders l

theorem linkSub_after_reorderTasks (strToNumber : String → Option Int) (p : Project)
    (taskOrders : List TaskOrder) (now : String) :
    LinkSub (reorderTasks strToNumber p taskOrders now).tasks p.tasks ∧
      LinkSub p.tasks (reorderTasks strToNumber p taskOrders now).tasks := by
  unfold reorderTasks
  constructor
  · exact linkSub_trans _ _ _
      (linkSub_of_subset _ _ (fun t ht => (arraySort_perm _ _).subset ht))
      (linkSub_of_map_eq _ _ (links_applyOrders taskOrders now p.tasks))
  · exact linkSub_trans _ _ _
      (linkSub_of_map_eq _ _ (links_applyOrders taskOrders now p.tasks).symm)
      (linkSub_of_subset _ _ (fun t ht => (arraySort_perm _ _).symm.subset ht))

/-! ### Depth one -/

theorem freshId_spec (tasks : List Task) (id : JsVal) (h : freshId tasks id = true) :
    ∀ q ∈ tasks, q.id ≠ id ∧ q.parentId ≠ id := by
  intro q hq
  have := List.all_eq_true.mp h q hq
  simpa using this

theorem parentTopLevel_spec (tasks : List Task) (pid : JsVal)
    (h : parentTopLevel tasks pid = true) : ∀ q ∈ tasks, q.id = pid → q.isSub = false := by
  intro q hq hid
  have := List.all_eq_true.mp h q hq
  simpa [hid] using this

theorem depthOne_append (tasks : List Task) (N : Task) (hd : DepthOne tasks)
    (hfresh : freshId tasks N.id = true)
    (htop : N.isSub = true → parentTopLevel tasks N.parentId = true)
    (hval : N.isSub = true → ∃ q ∈ tasks, q.id = N.parentId) :
    DepthOne (tasks ++ [N]) := by
  have hf := freshId_spec tasks N.id hfresh
  intro t ht hs c hc hcs heq
  rw [List.mem_append, List.mem_singleton] at ht hc
  rcases ht with ht | rfl
  · rcases hc with hc | rfl
    · exact hd t ht hs c hc hcs heq
    · have := parentTopLevel_spec tasks _ (htop hcs) t ht heq.symm
      rw [hs] at this
      exact absurd this (by simp)
  · rcases hc with hc | rfl
    · exact (hf c hc).2 heq
    · obtain ⟨q, hq, hqid⟩ := hval hs
      exact (hf q hq).1 (hqid.trans heq)

theorem addTask_validated (p : Project) (N : Task)
    (hc : ¬ (N.parentId.truthy && !(p.tasks.any (fun t => decide (t.id = N.parentId)))) = true)
    (hs : N.isSub = true) : ∃ q ∈ p.tasks, q.id = N.parentId := by
  have hs' : N.parentId.truthy = true := hs
  simp only [hs', Bool.true_and, Bool.not_eq_true', Bool.not_eq_false] at hc
  have := List.any_eq_true.mp hc
  obtain ⟨q, hq, hqid⟩ := this
  exact ⟨q, hq, of_decide_eq_true hqid⟩

theorem flatCall_add (p : Project) (newId now : String) (task : TaskInput)
    (h : flatCall p (Call.add newId now task) = true) :
    freshId p.tasks (newTaskOf p.tasks newId now task).id = true ∧
      ((newTaskOf p.tasks newId now task).isSub = true →
        parentTopLevel p.tasks (newTaskOf p.tasks newId now task).parentId = true) := by
  unfold flatCall at h
  rw [Bool.and_eq_true] at h
  refine ⟨h.1, fun hs => ?_⟩
  have h2 := h.2
  rw [hs] at h2
  simpa using h2

theorem flatCall_update (p : Project) (taskId : JsVal) (updates : TaskInput) (now : String)
    (h : flatCall p (Call.update taskId updates now) = true) :
    updates.id = none ∧ updates.parentId = none := by
  unfold flatCall at h
  rw [Bool.and_eq_true] at h
  exact ⟨Option.isNone_iff_eq_none.mp h.1, Option.isNone_iff_eq_none.mp h.2⟩

theorem depthOne_step (strToNumber : String → Option Int) (p : Project) (c : Call)
    (hd : DepthOne p.tasks) (hc : flatCall p c = true) :
    DepthOne (Call.run strToNumber p c).tasks := by
  cases c with
  | add newId now task =>
    obtain ⟨hfresh, htop⟩ := flatCall_add p newId now task hc
    show DepthOne (addTask p newId now task).2.tasks
    rw [tasks_after_addTask]
    split
    · exact hd
    · rename_i hval
      have happ := depthOne_append p.tasks _ hd hfresh htop (addTask_validated p _ hval)
      split
      · exact depthOne_of_linkSub _ _
          (linkSub_of_map_eq _ _ (links_updateParentTaskStatus _ _ _)) happ
      · exact happ
  | update taskId updates now =>
    obtain ⟨h1, h2⟩ := flatCall_update p taskId updates now hc
    exact depthOne_of_linkSub _ _
      (linkSub_of_map_eq _ _ (links_after_updateTask p taskId updates now h1 h2)) hd
  | delete taskId now =>
    exact depthOne_of_linkSub _ _ (linkSub_after_deleteTask p taskId now) hd
  | reorder taskOrders now =>
    exact depthOne_of_linkSub _ _
      (linkSub_after_reorderTasks strToNumber p taskOrders now).1 hd

/-- An invariant of the task list that every allowed call keeps holds after
every sequence of allowed calls. -/
theorem invariant_runCalls (strToNumber : String → Option Int) (Inv : List Task → Prop)
    (ok : Project → Call → Bool)
    (hstep : ∀ p c, Inv p.tasks → ok p c = true → Inv (Call.run strToNumber p c).tasks) :
    ∀ (calls : List Call) (p : Project), Inv p.tasks →
      callsAllowed strToNumber ok p calls = true → Inv (runCalls strToNumber p calls).tasks
  | [], _, hi, _ => hi
  | c :: cs, p, hi, ha => by
    unfold callsAllowed at ha
    rw [Bool.and_eq_true] at ha
    have := invariant_runCalls strToNumber Inv ok hstep cs (Call.run strToNumber p c)
      (hstep p c hi ha.1) ha.2
    simpa [runCalls] using this

/-- C15 (amended). In every project state reachable from an empty task list
by `addTask`, `updateTask`, `deleteTask` and reorder calls in which ids are
fresh (the id of a created task occurs nowhere in the task list, neither as an
id nor as a `parentId`), no subtask is given subtasks (the `parentId` of a
created task is not the id of a task that has a `parentId`) and no patch names
`id` or `parentId`, no task that has a `parentId` is itself the parent of
another task. -/
theorem depthOne_reachable (strToNumber : String → Option Int) (calls : List Call)
    (h : callsAllowed strToNumber flatCall emptyProject calls = true) :
    DepthOne (runCalls strToNumber emptyProject calls).tasks :=
  invariant_runCalls strToNumber DepthOne flatCall
    (fun p c hd hc => depthOne_step strToNumber p c hd hc) calls emptyProject
    (by intro t ht; simp [emptyProject] at ht) h

/-- A witness of C15 (amended): the calls of `familyCalls`. -/
theorem depthOne_reachable_witness :
    callsAllowed noStrings flatCall emptyProject familyCalls = true ∧
      DepthOne (runCalls noStrings emptyProject familyCalls).tasks :=
  ⟨by decide, depthOne_reachable noStrings familyCalls (by decide)⟩

/-- C15 as stated fails: `addTask` accepts a task whose parent has a
`parentId` itself. After the three calls of `nestingCalls` the task `p` has
the parent `g` and is the parent of the task `t`. -/
theorem nesting_reachable :
    (runCalls noStrings emptyProject nestingCalls).tasks.map (fun t => (t.id, t.parentId))
        = [(JsVal.str "g", JsVal.undefined), (JsVal.str "p", JsVal.str "g"),
            (JsVal.str "t", JsVal.str "p")] ∧
      ¬ DepthOne (runCalls noStrings emptyProject nestingCalls).tasks := by
  decide

/-! ### No orphans -/

theorem flatCall_of_tidyCall (p : Project) (c : Call) (h : tidyCall p c = true) :
    flatCall p c = true := by
  cases c <;> first | exact h | rfl

theorem noOrphans_append (tasks : List Task) (N : Task) (hn : NoOrphans tasks)
    (hval : N.isSub = true → ∃ q ∈ tasks, q.id = N.parentId) : NoOrphans (tasks ++ [N]) := by
  intro t ht hs
  rw [List.mem_append, List.mem_singleton] at ht
  rcases ht with ht | rfl
  · obtain ⟨q, hq, hqid⟩ := hn t ht hs
    exact ⟨q, List.mem_append_left _ hq, hqid⟩
  · obtain ⟨q, hq, hqid⟩ := hval hs
    exact ⟨q, List.mem_append_left _ hq, hqid⟩

theorem noOrphans_filter (tasks : List Task) (taskId : JsVal) (ht : taskId.truthy = true)
    (hd : DepthOne tasks) (hn : NoOrphans tasks) :
    NoOrphans (tasks.filter (fun t => t.id ≠ taskId && t.parentId ≠ taskId)) := by
  intro t hmem hs
  rw [List.mem_filter] at hmem
  have hkeep : t.id ≠ taskId ∧ t.parentId ≠ taskId := by simpa using hmem.2
  obtain ⟨q, hq, hqid⟩ := hn t hmem.1 hs
  refine ⟨q, ?_, hqid⟩
  rw [List.mem_filter]
  refine ⟨hq, ?_⟩
  have h1 : q.id ≠ taskId := fun h => hkeep.2 (hqid.symm.trans h)
  have h2 : q.parentId ≠ taskId := by
    intro h
    have hqs : q.isSub = true := by
      unfold Task.isSub
      rw [h]
      exact ht
    exact hd q hq hqs t hmem.1 hs hqid.symm
  simp [h1, h2]

theorem noOrphans_updateParentTaskStatus (pid : JsVal) (now : String) (l : List Task)
    (hn : NoOrphans l) : NoOrphans (updateParentTaskStatus pid now l) :=
  noOrphans_of_linkSub _ _ (linkSub_of_map_eq _ _ (links_updateParentTaskStatus pid now l))
    (linkSub_of_map_eq _ _ (links_updateParentTaskStatus pid now l).symm) hn

theorem noOrphans_step (strToNumber : String → Option Int) (p : Project) (c : Call)
    (hd : DepthOne p.tasks) (hn : NoOrphans p.tasks) (hc : tidyCall p c = true) :
    NoOrphans (Call.run strToNumber p c).tasks := by
  cases c with
  | add newId now task =>
    show NoOrphans (addTask p newId now task).2.tasks
    rw [tasks_after_addTask]
    split
    · exact hn
    · rename_i hval
      have happ := noOrphans_append p.tasks _ hn (addTask_validated p _ hval)
      split
      · exact noOrphans_updateParentTaskStatus _ _ _ happ
      · exact happ
  | update taskId updates now =>
    obtain ⟨h1, h2⟩ := flatCall_update p taskId updates now hc
    have hl := links_after_updateTask p taskId updates now h1 h2
    exact noOrphans_of_linkSub _ _ (linkSub_of_map_eq _ _ hl) (linkSub_of_map_eq _ _ hl.symm) hn
  | delete taskId now =>
    have ht : taskId.truthy = true := hc
    show NoOrphans (deleteTask p taskId now).tasks
    cases hf : p.tasks.find? (fun t => decide (t.id = taskId)) with
    | none =>
      rw [deleteTask_of_none p taskId now hf]
      exact hn
    | some T =>
      rw [tasks_after_deleteTask p taskId now T hf]
      have hfil := noOrphans_filter p.tasks taskId ht hd hn
      split
      · exact noOrphans_updateParentTaskStatus _ _ _ hfil
      · exact hfil
  | reorder taskOrders now =>
    have hl := linkSub_after_reorderTasks strToNumber p taskOrders now
    exact noOrphans_of_linkSub _ _ hl.1 hl.2 hn

/-- C14 (amended). In every project state reachable from an empty task list
by `addTask`, `updateTask`, `deleteTask` and reorder calls in which ids are
fresh (the id of a created task occurs nowhere in the task list, neither as an
id nor as a `parentId`), no subtask is given subtasks (the `parentId` of a
created task is not the id of a task that has a `parentId`), no patch names
`id` or `parentId`, and `deleteTask` gets a truthy id, every task that has a
`parentId` names the id of a task of the same task list. -/
theorem noOrphans_reachable (strToNumber : String → Option Int) (calls : List Call)
    (h : callsAllowed strToNumber tidyCall emptyProject calls = true) :
    NoOrphans (runCalls strToNumber emptyProject calls).tasks :=
  (invariant_runCalls strToNumber (fun tasks => DepthOne tasks ∧ NoOrphans tasks) tidyCall
    (fun p c hi hc =>
      ⟨depthOne_step strToNumber p c hi.1 (flatCall_of_tidyCall p c hc),
        noOrphans_step strToNumber p c hi.1 hi.2 hc⟩)
    calls emptyProject
    ⟨by intro t ht; simp [emptyProject] at ht, by intro t ht; simp [emptyProject] at ht⟩ h).2

/-- A witness of C14 (amended): the calls of `familyCalls`. -/
theorem noOrphans_reachable_witness :
    callsAllowed noStrings tidyCall emptyProject familyCalls = true ∧
      NoOrphans (runCalls noStrings emptyProject familyCalls).tasks :=
  ⟨by decide, noOrphans_reachable noStrings familyCalls (by decide)⟩

/-- C14 as stated fails: `deleteTask` removes the task and the tasks that
name it as their parent, and no task below those. After the calls of
`orphaningCalls` (a task `g`, its subtask `p`, a task `t` with the parent `p`,
then `deleteTask` of `g`) the task `t` is left, and no task has the id `p`
that it names as its parent. -/
theorem orphan_reachable :
    (runCalls noStrings emptyProject orphaningCalls).tasks.map (fun t => (t.id, t.parentId))
        = [(JsVal.str "t", JsVal.str "p")] ∧
      ¬ NoOrphans (runCalls noStrings emptyProject orphaningCalls).tasks := by
  decide

/-! ### Parents follow the propagation rule -/

theorem holdsSubtasks_iff (l : List Task) (P : Task) :
    holdsSubtasks l P = true ↔ ∃ s ∈ l, s.isSub = true ∧ s.parentId = P.id := by
  unfold holdsSubtasks
  rw [List.any_eq_true]
  constructor
  · rintro ⟨s, hs, h⟩
    rw [Bool.and_eq_true] at h
    exact ⟨s, hs, h.1, of_decide_eq_true h.2⟩
  · rintro ⟨s, hs, h1, h2⟩
    exact ⟨s, hs, by rw [Bool.and_eq_true]; exact ⟨h1, decide_eq_true h2⟩⟩

theorem truthy_id_of_holdsSubtasks (l : List Task) (P : Task)
    (h : holdsSubtasks l P = true) : P.id.truthy = true := by
  obtain ⟨s, _, h1, h2⟩ := (holdsSubtasks_iff l P).mp h
  rw [← h2]
  exact h1

theorem propagationRule_congr (a b : List JsVal) (h : ∀ s, s ∈ a ↔ s ∈ b) :
    propagationRule a = propagationRule b := by
  unfold propagationRule
  simp only [h]

theorem mem_statuses_subtasksOf (l : List Task) (q x : JsVal) :
    x ∈ (subtasksOf l q).map (fun st => st.status)
      ↔ ∃ c ∈ l.map Task.core, c.2.1 = q ∧ c.2.2 = x := by
  unfold subtasksOf
  simp only [List.mem_map, List.mem_filter, decide_eq_true_eq]
  constructor
  · rintro ⟨s, ⟨hs, hp⟩, hx⟩
    exact ⟨s.core, ⟨s, hs, rfl⟩, hp, hx⟩
  · rintro ⟨c, ⟨s, hs, rfl⟩, hp, hx⟩
    exact ⟨s, ⟨hs, hp⟩, hx⟩

theorem holdsSubtasks_iff_core (l : List Task) (P : Task) :
    holdsSubtasks l P = true ↔ ∃ c ∈ l.map Task.core, c.2.1.truthy = true ∧ c.2.1 = P.id := by
  rw [holdsSubtasks_iff]
  simp only [List.mem_map]
  constructor
  · rintro ⟨s, hs, h1, h2⟩
    exact ⟨s.core, ⟨s, hs, rfl⟩, h1, h2⟩
  · rintro ⟨c, ⟨s, hs, rfl⟩, h1, h2⟩
    exact ⟨s, hs, h1, h2⟩

/-- The invariant reads only the ids, parent ids and statuses that occur in
the list. -/
theorem parentsFollowRule_congr (l l' : List Task)
    (h : ∀ c, c ∈ l'.map Task.core ↔ c ∈ l.map Task.core) (hp : ParentsFollowRule l) :
    ParentsFollowRule l' := by
  intro P' hP' hh
  have hc : P'.core ∈ l.map Task.core := (h _).mp (List.mem_map.mpr ⟨P', hP', rfl⟩)
  obtain ⟨P, hP, hcore⟩ := List.mem_map.mp hc
  have hid : P.id = P'.id := congrArg Prod.fst hcore
  have hst : P.status = P'.status := congrArg (fun c => c.2.2) hcore
  have hh' : holdsSubtasks l P = true := by
    rw [holdsSubtasks_iff_core] at hh ⊢
    obtain ⟨c, hc, h1, h2⟩ := hh
    exact ⟨c, (h c).mp hc, h1, h2.trans hid.symm⟩
  rw [← hst, hp P hP hh', hid]
  apply propagationRule_congr
  intro x
  rw [mem_statuses_subtasksOf, mem_statuses_subtasksOf]
  constructor
  · rintro ⟨c, hc, h1, h2⟩
    exact ⟨c, (h c).mpr hc, h1, h2⟩
  · rintro ⟨c, hc, h1, h2⟩
    exact ⟨c, (h c).mp hc, h1, h2⟩

theorem subtasksOf_updateParentTaskStatus_of_top (pid q : JsVal) (now : String)
    (l : List Task) (htop : ∀ x ∈ l, x.id = pid → x.isSub = false) (hq : q.truthy = true) :
    subtasksOf (updateParentTaskStatus pid now l) q = subtasksOf l q := by
  rcases updateParentTaskStatus_cases pid now l with h | ⟨s, h⟩
  · rw [h]
  · rw [h]
    cases hf : l.find? (fun t => decide (t.id = pid)) with
    | none => rw [modifyFirst_of_none _ _ l hf]
    | some a =>
      obtain ⟨pre, post, e1, _, e3, e4⟩ :=
        modifyFirst_split (fun t => decide (t.id = pid)) (assignStatus s now) l a hf
      have ha : a.isSub = false :=
        htop a (List.mem_of_find?_eq_some hf) (of_decide_eq_true e3)
      have hne : a.parentId ≠ q := by
        intro e
        unfold Task.isSub at ha
        rw [e, hq] at ha
        exact absurd ha (by simp)
      have hne' : (assignStatus s now a).parentId ≠ q := hne
      rw [e4, e1]
      simp [subtasksOf, List.filter_append, List.filter_cons, hne, hne']

theorem mem_of_mem_updateParentTaskStatus (pid : JsVal) (now : String) (l : List Task)
    (x : Task) (hx : x ∈ updateParentTaskStatus pid now l) (hne : x.id ≠ pid) : x ∈ l := by
  rcases updateParentTaskStatus_cases pid now l with h | ⟨s, h⟩
  · rw [h] at hx
    exact hx
  · rw [h] at hx
    rcases mem_modifyFirst _ _ x l hx with h1 | ⟨t, _, hq, rfl⟩
    · exact h1
    · exact absurd (of_decide_eq_true hq) hne

/-- Propagation to the parent id `pid` restores the invariant when it holds
for every other task and the task with the id `pid` has no `parentId`. -/
theorem parentsFollowRule_updateParentTaskStatus (pid : JsVal) (now : String)
    (l : List Task) (hp : pid.truthy = true) (hnd : (l.map (fun t => t.id)).Nodup)
    (htop : ∀ x ∈ l, x.id = pid → x.isSub = false)
    (hothers : ∀ Q ∈ l, Q.id ≠ pid → holdsSubtasks l Q = true →
      Q.status = propagationRule ((subtasksOf l Q.id).map (fun st => st.status))) :
    ParentsFollowRule (updateParentTaskStatus pid now l) := by
  intro Q hQ hh
  have hlinks := links_updateParentTaskStatus pid now l
  by_cases hid : Q.id = pid
  · have hf := find?_of_nodup _ (nodup_ids_updateParentTaskStatus pid now l hnd) Q hQ
    rw [hid] at hf ⊢
    apply updateParentTaskStatus_fixed pid now l hp Q hf
    rw [subtasksOf_ne_nil_iff]
    obtain ⟨s, hs, _, h2⟩ := (holdsSubtasks_iff _ Q).mp hh
    exact ⟨s, hs, h2.trans hid⟩
  · have hQl := mem_of_mem_updateParentTaskStatus pid now l Q hQ hid
    have hqt := truthy_id_of_holdsSubtasks _ Q hh
    rw [subtasksOf_updateParentTaskStatus_of_top pid Q.id now l htop hqt]
    apply hothers Q hQl hid
    rw [holdsSubtasks_iff] at hh ⊢
    obtain ⟨s, hs, h1, h2⟩ := hh
    obtain ⟨s0, hs0, e⟩ := linkSub_of_map_eq _ _ hlinks s hs
    exact ⟨s0, hs0, (link_isSub e).trans h1, (link_parentId e).trans h2⟩

theorem subtasksOf_map (g : Task → Task) (hg : ∀ t, (g t).parentId = t.parentId)
    (l : List Task) (q : JsVal) : subtasksOf (l.map g) q = (subtasksOf l q).map g := by
  unfold subtasksOf
  rw [List.filter_map]
  congr 1
  apply List.filter_congr
  intro t _
  simp [Function.comp, hg]

theorem holdsSubtasks_map (g : Task → Task) (hg : ∀ t, (g t).link = t.link) (l : List Task)
    (Q : Task) : holdsSubtasks (l.map g) (g Q) = holdsSubtasks l Q := by
  rw [Bool.eq_iff_iff, holdsSubtasks_iff, holdsSubtasks_iff]
  constructor
  · rintro ⟨s', hs', h1, h2⟩
    obtain ⟨s, hs, rfl⟩ := List.mem_map.mp hs'
    exact ⟨s, hs, (link_isSub (hg s)).symm.trans h1,
      (link_parentId (hg s)).symm.trans (h2.trans (link_id (hg Q)))⟩
  · rintro ⟨s, hs, h1, h2⟩
    exact ⟨g s, List.mem_map.mpr ⟨s, hs, rfl⟩, (link_isSub (hg s)).trans h1,
      (link_parentId (hg s)).trans (h2.trans (link_id (hg Q)).symm)⟩

/-- The invariant at one task survives a rewriting of the tasks that keeps
the places in the tree, the status of the task and the statuses of its
subtasks. -/
theorem parentFollowsRule_map (g : Task → Task) (hg : ∀ t, (g t).link = t.link)
    (l : List Task) (Q : Task) (hQs : (g Q).status = Q.status)
    (hsubs : ∀ s ∈ l, s.parentId = Q.id → (g s).status = s.status)
    (hpfr : holdsSubtasks l Q = true →
      Q.status = propagationRule ((subtasksOf l Q.id).map (fun st => st.status)))
    (hh : holdsSubtasks (l.map g) (g Q) = true) :
    (g Q).status
      = propagationRule ((subtasksOf (l.map g) (g Q).id).map (fun st => st.status)) := by
  rw [holdsSubtasks_map g hg] at hh
  rw [hQs, hpfr hh, link_id (hg Q), subtasksOf_map g (fun t => link_parentId (hg t)),
    List.map_map]
  congr 1
  apply List.map_congr_left
  intro s hs
  unfold subtasksOf at hs
  rw [List.mem_filter] at hs
  exact (hsubs s hs.1 (of_decide_eq_true hs.2)).symm

theorem ids_of_links (l' l : List Task) (h : l'.map Task.link = l.map Task.link) :
    l'.map (fun t => t.id) = l.map (fun t => t.id) := by
  have := congrArg (List.map Prod.fst) h
  simpa [List.map_map, Function.comp, Task.link] using this

theorem drivenCall_update (p : Project) (taskId : JsVal) (updates : TaskInput) (now : String)
    (h : drivenCall p (Call.update taskId updates now) = true) :
    updates.id = none ∧ updates.parentId = none ∧
      ∀ t ∈ p.tasks, t.id = taskId →
        (holdsSubtasks p.tasks t = true → updates.status = none) ∧
        (t.isSub = true → updates.status = none ∨ (rd updates.status).truthy = true) := by
  unfold drivenCall statedCall at h
  simp only [Bool.and_eq_true] at h
  obtain ⟨⟨hflat, hall1⟩, hall2⟩ := h
  obtain ⟨h1, h2⟩ := flatCall_update p taskId updates now hflat
  refine ⟨h1, h2, fun t ht hid => ⟨fun hh => ?_, fun hs => ?_⟩⟩
  · have := List.all_eq_true.mp hall1 t ht
    simpa [hid, hh] using this
  · have := List.all_eq_true.mp hall2 t ht
    simpa [hid, hs] using this

/-! ### The invariant after each call -/

theorem parentsFollowRule_updateTask (p : Project) (taskId : JsVal) (updates : TaskInput)
    (now : String) (hnd : (p.tasks.map (fun t => t.id)).Nodup) (hd : DepthOne p.tasks)
    (hpfr : ParentsFollowRule p.tasks) (h1 : updates.id = none) (h2 : updates.parentId = none)
    (hcond : ∀ t ∈ p.tasks, t.id = taskId →
      (holdsSubtasks p.tasks t = true → updates.status = none) ∧
      (t.isSub = true → updates.status = none ∨ (rd updates.status).truthy = true)) :
    ParentsFollowRule (updateTask p taskId updates now).tasks := by
  cases hf : p.tasks.find? (fun t => decide (t.id = taskId)) with
  | none =>
    rw [updateTask_of_none p taskId updates now hf]
    exact hpfr
  | some T =>
    rw [tasks_after_updateTask p taskId updates now T hf]
    have hTmem : T ∈ p.tasks := List.mem_of_find?_eq_some hf
    have hTid : T.id = taskId := by simpa using List.find?_some hf
    have huniq : ∀ t ∈ p.tasks, t.id = taskId → t = T := fun t ht hid =>
      eq_of_nodup_id p.tasks hnd t T ht hTmem (hid.trans hTid.symm)
    have hg : ∀ t : Task,
        ((fun t => if t.id = taskId then mergeTask t updates now else t) t).link = t.link := by
      intro t
      by_cases ht : t.id = taskId
      · simp only [ht, if_true]
        exact mergeTask_link t updates now h1 h2
      · simp only [ht, if_false]
    have hgne : ∀ t : Task, t.id ≠ taskId →
        (fun t => if t.id = taskId then mergeTask t updates now else t) t = t := by
      intro t ht
      simp only [ht, if_false]
    have hgst : ∀ t : Task, t.id = taskId →
        ((fun t => if t.id = taskId then mergeTask t updates now else t) t).status
          = spread t.status updates.status := by
      intro t ht
      simp only [ht, if_true]
      rfl
    have hlinks : (p.tasks.map (fun t => if t.id = taskId then mergeTask t updates now else t)).map
        Task.link = p.tasks.map Task.link := by
      rw [List.map_map]
      apply List.map_congr_left
      intro t _
      exact hg t
    split
    · rename_i hcnd
      simp only [Bool.and_eq_true, decide_eq_true_eq] at hcnd
      obtain ⟨⟨htr, _⟩, _⟩ := hcnd
      have hTsub : T.isSub = true := htr
      apply parentsFollowRule_updateParentTaskStatus T.parentId now _ htr
      · rw [ids_of_links _ _ hlinks]
        exact hnd
      · intro x hx hxid
        obtain ⟨t, ht, rfl⟩ := List.mem_map.mp hx
        rw [link_isSub (hg t)]
        rw [link_id (hg t)] at hxid
        cases hts : t.isSub with
        | false => rfl
        | true => exact absurd hxid.symm (hd t ht hts T hTmem hTsub)
      · intro Q' hQ' hne hh
        obtain ⟨Q, hQ, rfl⟩ := List.mem_map.mp hQ'
        have hhl : holdsSubtasks p.tasks Q = true := by
          rw [← holdsSubtasks_map _ hg p.tasks Q]
          exact hh
        have hQid : Q.id ≠ taskId := by
          intro hQid
          have hQT := huniq Q hQ hQid
          rw [hQT] at hhl
          obtain ⟨s, hs, hss, hsp⟩ := (holdsSubtasks_iff _ _).mp hhl
          exact hd T hTmem hTsub s hs hss hsp
        apply parentFollowsRule_map _ hg p.tasks Q (congrArg Task.status (hgne Q hQid)) ?_
          (hpfr Q hQ) hh
        intro s hs hsp
        by_cases hsid : s.id = taskId
        · exfalso
          apply hne
          rw [link_id (hg Q), ← hsp, huniq s hs hsid]
        · exact congrArg Task.status (hgne s hsid)
    · rename_i hcnd
      intro Q' hQ' hh
      obtain ⟨Q, hQ, rfl⟩ := List.mem_map.mp hQ'
      have hhl : holdsSubtasks p.tasks Q = true := by
        rw [← holdsSubtasks_map _ hg p.tasks Q]
        exact hh
      apply parentFollowsRule_map _ hg p.tasks Q ?_ ?_ (hpfr Q hQ) hh
      · by_cases hQid : Q.id = taskId
        · refine (hgst Q hQid).trans ?_
          rw [(hcond Q hQ hQid).1 hhl]
          rfl
        · exact congrArg Task.status (hgne Q hQid)
      · intro s hs hsp
        by_cases hsid : s.id = taskId
        · have hsT := huniq s hs hsid
          have hssub : s.isSub = true := by
            unfold Task.isSub
            rw [hsp]
            exact truthy_id_of_holdsSubtasks _ Q hhl
          refine (hgst s hsid).trans ?_
          rcases (hcond s hs hsid).2 hssub with hn | htru
          · rw [hn]
            rfl
          · cases hus : updates.status with
            | none => rfl
            | some v =>
              rw [hus] at htru hcnd
              have hTtr : T.parentId.truthy = true := by
                rw [← hsT]
                exact hssub
              have hv : (rd (some v)).truthy = true := htru
              simp only [hTtr, hv, Bool.true_and, decide_eq_true_eq, not_not] at hcnd
              rw [hsT]
              exact hcnd
        · exact congrArg Task.status (hgne s hsid)

theorem parentsFollowRule_deleteTask (p : Project) (taskId : JsVal) (now : String)
    (hnd : (p.tasks.map (fun t => t.id)).Nodup) (hd : DepthOne p.tasks)
    (hpfr : ParentsFollowRule p.tasks) :
    ParentsFollowRule (deleteTask p taskId now).tasks := by
  cases hf : p.tasks.find? (fun t => decide (t.id = taskId)) with
  | none =>
    rw [deleteTask_of_none p taskId now hf]
    exact hpfr
  | some T =>
    rw [tasks_after_deleteTask p taskId now T hf]
    have hTmem : T ∈ p.tasks := List.mem_of_find?_eq_some hf
    have hTid : T.id = taskId := by simpa using List.find?_some hf
    have huniq : ∀ t ∈ p.tasks, t.id = taskId → t = T := fun t ht hid =>
      eq_of_nodup_id p.tasks hnd t T ht hTmem (hid.trans hTid.symm)
    have hmid : ∀ Q ∈ p.tasks.filter (fun t => t.id ≠ taskId && t.parentId ≠ taskId),
        T.parentId ≠ Q.id →
        holdsSubtasks (p.tasks.filter (fun t => t.id ≠ taskId && t.parentId ≠ taskId)) Q = true →
        Q.status = propagationRule
          ((subtasksOf (p.tasks.filter (fun t => t.id ≠ taskId && t.parentId ≠ taskId))
            Q.id).map (fun st => st.status)) := by
      intro Q hQ hne hh
      rw [List.mem_filter] at hQ
      have hkeep : Q.id ≠ taskId ∧ Q.parentId ≠ taskId := by simpa using hQ.2
      have hhl : holdsSubtasks p.tasks Q = true := by
        rw [holdsSubtasks_iff] at hh ⊢
        obtain ⟨s, hs, h1, h2⟩ := hh
        exact ⟨s, List.mem_of_mem_filter hs, h1, h2⟩
      have hsame : subtasksOf (p.tasks.filter (fun t => t.id ≠ taskId && t.parentId ≠ taskId))
          Q.id = subtasksOf p.tasks Q.id := by
        unfold subtasksOf
        rw [List.filter_filter]
        apply List.filter_congr
        intro s hs
        by_cases hsp : s.parentId = Q.id
        · have h1 : s.id ≠ taskId := by
            intro hsid
            apply hne
            rw [← huniq s hs hsid]
            exact hsp
          have h2 : s.parentId ≠ taskId := fun h => hkeep.1 (hsp.symm.trans h)
          simp [hsp, h1, hkeep.1]
        · simp [hsp]
      rw [hsame]
      exact hpfr Q hQ.1 hhl
    split
    · rename_i htr
      apply parentsFollowRule_updateParentTaskStatus T.parentId now _ htr
        (nodup_ids_filter p.tasks _ hnd)
      · intro x hx hxid
        have hxl := List.mem_of_mem_filter hx
        cases hxs : x.isSub with
        | false => rfl
        | true => exact absurd hxid.symm (hd x hxl hxs T hTmem htr)
      · intro Q hQ hne hh
        exact hmid Q hQ (fun e => hne e.symm) hh
    · rename_i htr
      intro Q hQ hh
      apply hmid Q hQ ?_ hh
      intro e
      have := truthy_id_of_holdsSubtasks _ Q hh
      rw [← e] at this
      exact htr this

theorem parentsFollowRule_addTask (p : Project) (newId now : String) (task : TaskInput)
    (hnd : (p.tasks.map (fun t => t.id)).Nodup) (hpfr : ParentsFollowRule p.tasks)
    (hfresh : freshId p.tasks (newTaskOf p.tasks newId now task).id = true)
    (htop : (newTaskOf p.tasks newId now task).isSub = true →
      parentTopLevel p.tasks (newTaskOf p.tasks newId now task).parentId = true) :
    ((addTask p newId now task).2.tasks.map (fun t => t.id)).Nodup ∧
      ParentsFollowRule (addTask p newId now task).2.tasks := by
  rw [tasks_after_addTask]
  have hf := freshId_spec p.tasks _ hfresh
  split
  · exact ⟨hnd, hpfr⟩
  · rename_i hval
    have hndmid : ((p.tasks ++ [newTaskOf p.tasks newId now task]).map (fun t => t.id)).Nodup := by
      rw [List.map_append, List.nodup_append]
      refine ⟨hnd, by simp, ?_⟩
      intro a ha hb
      obtain ⟨t, ht, rfl⟩ := List.mem_map.mp ha
      simp only [List.map_cons, List.map_nil, List.mem_singleton] at hb
      exact (hf t ht).1 hb
    have hmid : ∀ Q ∈ p.tasks ++ [newTaskOf p.tasks newId now task],
        (newTaskOf p.tasks newId now task).parentId ≠ Q.id →
        holdsSubtasks (p.tasks ++ [newTaskOf p.tasks newId now task]) Q = true →
        Q.status = propagationRule
          ((subtasksOf (p.tasks ++ [newTaskOf p.tasks newId now task]) Q.id).map
            (fun st => st.status)) := by
      intro Q hQ hne hh
      obtain ⟨s, hs, hss, hsp⟩ := (holdsSubtasks_iff _ _).mp hh
      rw [List.mem_append, List.mem_singleton] at hs hQ
      have hsl : s ∈ p.tasks := by
        rcases hs with hs | rfl
        · exact hs
        · exact absurd hsp hne
      rcases hQ with hQ | rfl
      · have hhl : holdsSubtasks p.tasks Q = true :=
          (holdsSubtasks_iff _ _).mpr ⟨s, hsl, hss, hsp⟩
        have hsame : subtasksOf (p.tasks ++ [newTaskOf p.tasks newId now task]) Q.id
            = subtasksOf p.tasks Q.id := by
          simp [subtasksOf, List.filter_append, List.filter_cons, hne]
        rw [hsame]
        exact hpfr Q hQ hhl
      · exact absurd hsp (hf s hsl).2
    split
    · rename_i htr
      refine ⟨nodup_ids_updateParentTaskStatus _ _ _ hndmid, ?_⟩
      apply parentsFollowRule_updateParentTaskStatus _ now _ htr hndmid
      · intro x hx hxid
        rw [List.mem_append, List.mem_singleton] at hx
        rcases hx with hx | rfl
        · exact parentTopLevel_spec p.tasks _ (htop htr) x hx hxid
        · obtain ⟨q, hq, hqid⟩ := addTask_validated p _ hval htr
          exact absurd (hqid.trans hxid.symm) (hf q hq).1
      · intro Q hQ hne hh
        exact hmid Q hQ (fun e => hne e.symm) hh
    · rename_i htr
      refine ⟨hndmid, ?_⟩
      intro Q hQ hh
      apply hmid Q hQ ?_ hh
      intro e
      have := truthy_id_of_holdsSubtasks _ Q hh
      rw [← e] at this
      exact htr this

theorem parentsFollowRule_reorderTasks (strToNumber : String → Option Int) (p : Project)
    (taskOrders : List TaskOrder) (now : String) (hpfr : ParentsFollowRule p.tasks) :
    ParentsFollowRule (reorderTasks strToNumber p taskOrders now).tasks := by
  apply parentsFollowRule_congr p.tasks _ _ hpfr
  intro c
  unfold reorderTasks
  rw [((arraySort_perm _ _).map Task.core).mem_iff,
    map_applyOrders Task.core (fun _ _ _ => rfl) now taskOrders p.tasks]

theorem nodup_ids_step (strToNumber : String → Option Int) (p : Project) (c : Call)
    (hnd : (p.tasks.map (fun t => t.id)).Nodup) (hc : flatCall p c = true) :
    ((Call.run strToNumber p c).tasks.map (fun t => t.id)).Nodup := by
  cases c with
  | add newId now task =>
    obtain ⟨hfresh, _⟩ := flatCall_add p newId now task hc
    have hf := freshId_spec p.tasks _ hfresh
    show ((addTask p newId now task).2.tasks.map (fun t => t.id)).Nodup
    rw [tasks_after_addTask]
    have hndmid : ((p.tasks ++ [newTaskOf p.tasks newId now task]).map (fun t => t.id)).Nodup := by
      rw [List.map_append, List.nodup_append]
      refine ⟨hnd, by simp, ?_⟩
      intro a ha hb
      obtain ⟨t, ht, rfl⟩ := List.mem_map.mp ha
      simp only [List.map_cons, List.map_nil, List.mem_singleton] at hb
      exact (hf t ht).1 hb
    split
    · exact hnd
    · split
      · exact nodup_ids_updateParentTaskStatus _ _ _ hndmid
      · exact hndmid
  | update taskId updates now =>
    obtain ⟨h1, h2⟩ := flatCall_update p taskId updates now hc
    show ((updateTask p taskId updates now).tasks.map (fun t => t.id)).Nodup
    rw [ids_of_links _ _ (links_after_updateTask p taskId updates now h1 h2)]
    exact hnd
  | delete taskId now =>
    show ((deleteTask p taskId now).tasks.map (fun t => t.id)).Nodup
    cases hf : p.tasks.find? (fun t => decide (t.id = taskId)) with
    | none =>
      rw [deleteTask_of_none p taskId now hf]
      exact hnd
    | some T =>
      rw [tasks_after_deleteTask p taskId now T hf]
      split
      · exact nodup_ids_updateParentTaskStatus _ _ _ (nodup_ids_filter p.tasks _ hnd)
      · exact nodup_ids_filter p.tasks _ hnd
  | reorder taskOrders now =>
    show ((reorderTasks strToNumber p taskOrders now).tasks.map (fun t => t.id)).Nodup
    unfold reorderTasks
    rw [((arraySort_perm _ _).map (fun t => t.id)).nodup_iff,
      map_applyOrders (fun t => t.id) (fun _ _ _ => rfl) now taskOrders p.tasks]
    exact hnd

theorem flatCall_of_drivenCall (p : Project) (c : Call) (h : drivenCall p c = true) :
    flatCall p c = true := by
  cases c with
  | update taskId updates now =>
    unfold drivenCall statedCall at h
    simp only [Bool.and_eq_true] at h
    exact h.1.1
  | add newId now task => exact h
  | delete taskId now => exact h
  | reorder taskOrders now => exact h

theorem parentsFollowRule_step (strToNumber : String → Option Int) (p : Project) (c : Call)
    (hnd : (p.tasks.map (fun t => t.id)).Nodup) (hd : DepthOne p.tasks)
    (hpfr : ParentsFollowRule p.tasks) (hc : drivenCall p c = true) :
    ParentsFollowRule (Call.run strToNumber p c).tasks := by
  cases c with
  | add newId now task =>
    obtain ⟨hfresh, htop⟩ := flatCall_add p newId now task hc
    exact (parentsFollowRule_addTask p newId now task hnd hpfr hfresh htop).2
  | update taskId updates now =>
    obtain ⟨h1, h2, hcond⟩ := drivenCall_update p taskId updates now hc
    exact parentsFollowRule_updateTask p taskId updates now hnd hd hpfr h1 h2 hcond
  | delete taskId now => exact parentsFollowRule_deleteTask p taskId now hnd hd hpfr
  | reorder taskOrders now =>
    exact parentsFollowRule_reorderTasks strToNumber p taskOrders now hpfr

/-- C16 (amended). In every project state reachable from an empty task list
by `addTask`, `updateTask`, `deleteTask` and reorder calls in which ids are
fresh (the id of a created task occurs nowhere in the task list, neither as an
id nor as a `parentId`), no subtask is given subtasks, no patch names `id`,
`parentId`, or the status of a task that holds subtasks, and every status that
a patch names for a task that has a `parentId` is truthy, every task that has
at least one subtask has the status that the propagation rule derives from
the statuses of its subtasks. -/
theorem parentsFollowRule_reachable (strToNumber : String → Option Int) (calls : List Call)
    (h : callsAllowed strToNumber drivenCall emptyProject calls = true) :
    ParentsFollowRule (runCalls strToNumber emptyProject calls).tasks :=
  (invariant_runCalls strToNumber
    (fun tasks => (tasks.map (fun t => t.id)).Nodup ∧ DepthOne tasks ∧ ParentsFollowRule tasks)
    drivenCall
    (fun p c hi hc =>
      ⟨nodup_ids_step strToNumber p c hi.1 (flatCall_of_drivenCall p c hc),
        depthOne_step strToNumber p c hi.2.1 (flatCall_of_drivenCall p c hc),
        parentsFollowRule_step strToNumber p c hi.1 hi.2.1 hi.2.2 hc⟩)
    calls emptyProject
    ⟨by simp [emptyProject], by intro t ht; simp [emptyProject] at ht,
      by intro t ht; simp [emptyProject] at ht⟩ h).2.2

/-- A witness of C16 (amended): the calls of `familyCalls`. -/
theorem parentsFollowRule_reachable_witness :
    callsAllowed noStrings drivenCall emptyProject familyCalls = true ∧
      ParentsFollowRule (runCalls noStrings emptyProject familyCalls).tasks :=
  ⟨by decide, parentsFollowRule_reachable noStrings familyCalls (by decide)⟩

/-- C16 as stated fails: `updateTask` runs the propagation only when the
status that the patch names is truthy. The calls of `nullStatusCalls` are
calls in which ids are fresh, no subtask is given subtasks and no patch names
`id`, `parentId` or the status of a task that holds subtasks; they leave the
parent `p` completed over its only subtask, whose status is `null`, from
which the propagation rule derives in-progress. -/
theorem stale_parent_reachable :
    callsAllowed noStrings statedCall emptyProject nullStatusCalls = true ∧
      (runCalls noStrings emptyProject nullStatusCalls).tasks.map
          (fun t => (t.id, t.parentId, t.status))
        = [(JsVal.str "p", JsVal.undefined, JsVal.str "completed"),
            (JsVal.str "a", JsVal.str "p", JsVal.null)] ∧
      propagationRule [JsVal.null] = JsVal.str "in-progress" ∧
      ¬ ParentsFollowRule (runCalls noStrings emptyProject nullStatusCalls).tasks := by
  decide

/-! ## What `addTask` creates -/

theorem modifyFirst_append_left (q : Task → Bool) (f : Task → Task) (r : List Task) :
    ∀ l : List Task, (∃ x ∈ l, q x = true) → modifyFirst q f (l ++ r) = modifyFirst q f l ++ r
  | [], h => by
    obtain ⟨x, hx, _⟩ := h
    simp at hx
  | t :: l, h => by
    by_cases hq : q t = true
    · simp [modifyFirst, hq]
    · have h' : ∃ x ∈ l, q x = true := by
        obtain ⟨x, hx, hqx⟩ := h
        rcases List.mem_cons.mp hx with rfl | hx
        · exact absurd hqx hq
        · exact ⟨x, hx, hqx⟩
      simp [modifyFirst, hq, modifyFirst_append_left q f r l h']

/-- The list that an accepted `addTask` leaves: the old list, in which
propagation may have rewritten the first task with the id that the new task
names as its parent, followed by the new task. -/
theorem tasks_after_addTask_ok (p : Project) (newId now : String) (task : TaskInput)
    (created : Task) (hok : (addTask p newId now task).1 = Except.ok created) :
    ∃ l, (addTask p newId now task).2.tasks = l ++ [created] ∧
      (l = p.tasks ∨
        ∃ s, l = modifyFirst (fun t => decide (t.id = created.parentId)) (assignStatus s now)
          p.tasks) := by
  obtain ⟨hc, _⟩ := addTask_ok_eq p newId now task created hok
  have hval : ¬ ((newTaskOf p.tasks newId now task).parentId.truthy
      && !(p.tasks.any (fun t => decide (t.id = (newTaskOf p.tasks newId now task).parentId))))
      = true := by
    intro hbad
    unfold addTask at hok
    simp only at hok
    rw [if_pos hbad] at hok
    exact absurd hok (by simp)
  rw [tasks_after_addTask, if_neg hval, ← hc]
  rw [← hc] at hval
  split
  · rename_i htr
    rcases updateParentTaskStatus_cases created.parentId now (p.tasks ++ [created])
      with h | ⟨s, h⟩
    · exact ⟨p.tasks, h, Or.inl rfl⟩
    · refine ⟨modifyFirst (fun t => decide (t.id = created.parentId)) (assignStatus s now)
        p.tasks, ?_, Or.inr ⟨s, rfl⟩⟩
      rw [h]
      apply modifyFirst_append_left
      obtain ⟨q, hq, hqid⟩ := addTask_validated p created hval htr
      exact ⟨q, hq, decide_eq_true hqid⟩
  · exact ⟨p.tasks, rfl, Or.inl rfl⟩

/-- C22 (amended). For an input that specifies no position, the task that
`addTask` creates has as its position the number of all tasks of the project
before the add, subtasks included; an input that specifies a position
(0 included) keeps it. -/
theorem addTask_position (p : Project) (newId now : String) (task : TaskInput)
    (created : Task) (hok : (addTask p newId now task).1 = Except.ok created) :
    (task.position = none → created.position = JsVal.num p.tasks.length) ∧
      (∀ v, task.position = some v → created.position = v) := by
  rw [(addTask_ok_eq p newId now task created hok).1]
  constructor
  · intro h
    simp [newTaskOf, h, spread, rd, jsOr, JsVal.truthy]
  · intro v h
    simp [newTaskOf, h, spread]

/-- A witness of C22 (amended): a task without properties is added to
`familyProject`, which has three tasks. -/
theorem addTask_position_witness :
    (addTask familyProject "n" "now" plainInput).1
        = Except.ok (newTaskOf familyProject.tasks "n" "now" plainInput) ∧
      (newTaskOf familyProject.tasks "n" "now" plainInput).position = JsVal.num 3 :=
  ⟨by decide,
    (addTask_position familyProject "n" "now" plainInput _ (by decide)).1 rfl⟩

/-- C22 as stated fails: `familyProject` has one top-level task and two
subtasks; a task added without a position gets the position 3, the number
of all tasks, not 1, the number of top-level tasks. -/
theorem position_counts_subtasks :
    (topLevelTasks familyProject.tasks).length = 1 ∧
      familyProject.tasks.length = 3 ∧
      plainInput.position = none ∧
      (addTask familyProject "n" "now" plainInput).1
        = Except.ok (newTaskOf familyProject.tasks "n" "now" plainInput) ∧
      (newTaskOf familyProject.tasks "n" "now" plainInput).position = JsVal.num 3 := by
  decide

/-- C23 (amended). The task that an accepted `addTask` returns has the status
not-started when the input specifies no status and the priority medium when
the input specifies no priority; it carries the input's own value for every
property that the input specifies other than `createdAt` and `updatedAt`,
which are the time of the call whatever the input specifies; and it is the
last task of the project's list after the call. -/
theorem addTask_returns (p : Project) (newId now : String) (task : TaskInput)
    (created : Task) (hok : (addTask p newId now task).1 = Except.ok created) :
    (task.status = none → created.status = JsVal.str "not-started") ∧
      (task.priority = none → created.priority = JsVal.str "medium") ∧
      (∀ v, task.id = some v → created.id = v) ∧
      (∀ v, task.parentId = some v → created.parentId = v) ∧
      (∀ v, task.position = some v → created.position = v) ∧
      (∀ v, task.status = some v → created.status = v) ∧
      (∀ v, task.priority = some v → created.priority = v) ∧
      (∀ k, getExtra created.extra k = namedExtra task.extra k) ∧
      created.createdAt = JsVal.str now ∧ created.updatedAt = JsVal.str now ∧
      (addTask p newId now task).2.tasks.getLast? = some created := by
  have hc := (addTask_ok_eq p newId now task created hok).1
  obtain ⟨l, hl, _⟩ := tasks_after_addTask_ok p newId now task created hok
  refine ⟨?_, ?_, ?_, ?_, ?_, ?_, ?_, ?_, ?_, ?_, ?_⟩
  · intro h
    rw [hc]
    simp [newTaskOf, h, spread, rd, jsOr, JsVal.truthy]
  · intro h
    rw [hc]
    simp [newTaskOf, h, spread, rd, jsOr, JsVal.truthy]
  · intro v h
    rw [hc]
    simp [newTaskOf, h, spread]
  · intro v h
    rw [hc]
    simp [newTaskOf, h, spread]
  · intro v h
    rw [hc]
    simp [newTaskOf, h, spread]
  · intro v h
    rw [hc]
    simp [newTaskOf, h, spread]
  · intro v h
    rw [hc]
    simp [newTaskOf, h, spread]
  · intro k
    rw [hc]
    show getExtra (spreadExtra [] task.extra) k = namedExtra task.extra k
    rw [getExtra_spreadExtra]
    cases namedExtra task.extra k <;> simp [getExtra]
  · rw [hc]
    rfl
  · rw [hc]
    rfl
  · rw [hl]
    simp

/-- A witness of C23 (amended): the input `fullInput`, added to
`familyProject`. -/
theorem addTask_returns_witness :
    (addTask familyProject "n" "now" fullInput).1
        = Except.ok (newTaskOf familyProject.tasks "n" "now" fullInput) ∧
      (newTaskOf familyProject.tasks "n" "now" fullInput).status = JsVal.str "on-hold" ∧
      (addTask familyProject "n" "now" fullInput).2.tasks.getLast?
        = some (newTaskOf familyProject.tasks "n" "now" fullInput) :=
  ⟨by decide,
    (addTask_returns familyProject "n" "now" fullInput _ (by decide)).2.2.2.2.2.1 _ rfl,
    (addTask_returns familyProject "n" "now" fullInput _ (by decide)).2.2.2.2.2.2.2.2.2.2⟩

/-- C23 as stated fails: the input `{createdAt: "2020"}` is accepted, and the
task returned carries the time of the call as `createdAt`, not the input's
value. -/
theorem addTask_overrides_createdAt :
    (createdAtInput (JsVal.str "2020")).createdAt = some (JsVal.str "2020") ∧
      (addTask emptyProject "n" "now" (createdAtInput (JsVal.str "2020"))).1
        = Except.ok (newTaskOf [] "n" "now" (createdAtInput (JsVal.str "2020"))) ∧
      (newTaskOf [] "n" "now" (createdAtInput (JsVal.str "2020"))).createdAt
        = JsVal.str "now" := by
  decide

/-- C30. For every project and every accepted input, the task list after
`addTask` is a list of the length of the old one followed by the new task;
that list is the old list, or the old list in which the first task with the
id that the new task names as its parent has a new status and `updatedAt`;
position by position, every task of the old list is as before, unless its id
is that parent id, and then it differs at most in status and `updatedAt`. -/
theorem addTask_appends (p : Project) (newId now : String) (task : TaskInput)
    (created : Task) (hok : (addTask p newId now task).1 = Except.ok created) :
    ∃ l, (addTask p newId now task).2.tasks = l ++ [created] ∧
      (addTask p newId now task).2.tasks.length = p.tasks.length + 1 ∧
      (l = p.tasks ∨
        ∃ s, l = modifyFirst (fun t => decide (t.id = created.parentId)) (assignStatus s now)
          p.tasks) ∧
      List.Forall₂
        (fun t t' => t' = t ∨ (t.id = created.parentId ∧ t'.withoutStatus = t.withoutStatus))
        p.tasks l := by
  obtain ⟨l, hl, hcases⟩ := tasks_after_addTask_ok p newId now task created hok
  have hrel : List.Forall₂
      (fun t t' => t' = t ∨ (t.id = created.parentId ∧ t'.withoutStatus = t.withoutStatus))
      p.tasks l := by
    rcases hcases with h | ⟨s, h⟩
    · rw [h, List.forall₂_same]
      intro x _
      exact Or.inl rfl
    · rw [h]
      have := forall₂_map_modifyFirst id (fun t => decide (t.id = created.parentId))
        (assignStatus s now) p.tasks
      rw [List.map_id] at this
      exact this.imp (fun a b hab => hab.imp id
        (fun hq => ⟨of_decide_eq_true hq.1, by rw [hq.2]; rfl⟩))
  refine ⟨l, hl, ?_, hcases, hrel⟩
  rw [hl, List.length_append, hrel.length_eq]
  rfl

/-- A witness of C30: a completed subtask of `p` is added to `familyProject`. -/
theorem addTask_appends_witness :
    (addTask familyProject "n" "now" (subtaskInput "p" "completed")).1
        = Except.ok (newTaskOf familyProject.tasks "n" "now" (subtaskInput "p" "completed")) ∧
      ∃ l, (addTask familyProject "n" "now" (subtaskInput "p" "completed")).2.tasks
          = l ++ [newTaskOf familyProject.tasks "n" "now" (subtaskInput "p" "completed")] ∧
        (addTask familyProject "n" "now" (subtaskInput "p" "completed")).2.tasks.length
          = familyProject.tasks.length + 1 :=
  ⟨by decide,
    (addTask_appends familyProject "n" "now" (subtaskInput "p" "completed") _
      (by decide)).imp (fun _ h => ⟨h.1, h.2.1⟩)⟩

/-! ## The rollup is monotone in the statuses -/

theorem forall₂_filter {R : Task → Task → Prop} (q q' : Task → Bool)
    (hq : ∀ a b, R a b → q a = q' b) :
    ∀ {l l' : List Task}, List.Forall₂ R l l' → List.Forall₂ R (l.filter q) (l'.filter q')
  | _, _, List.Forall₂.nil => List.Forall₂.nil
  | _, _, List.Forall₂.cons (a := a) (b := b) hab h => by
    have ih := forall₂_filter q q' hq h
    have e := hq a b hab
    cases hqa : q a with
    | true =>
      rw [List.filter_cons_of_pos hqa, List.filter_cons_of_pos (e ▸ hqa)]
      exact List.Forall₂.cons hab ih
    | false =>
      have hqb : q' b = false := e ▸ hqa
      rw [List.filter_cons_of_neg (by simp [hqa]), List.filter_cons_of_neg (by simp [hqb])]
      exact ih

theorem forall₂_mem_left {R : Task → Task → Prop} :
    ∀ {l l' : List Task}, List.Forall₂ R l l' → List.Forall₂ (fun a b => R a b ∧ a ∈ l) l l'
  | _, _, List.Forall₂.nil => List.Forall₂.nil
  | _, _, List.Forall₂.cons hab h =>
    List.Forall₂.cons ⟨hab, List.mem_cons_self _ _⟩
      ((forall₂_mem_left h).imp (fun _ _ hx => ⟨hx.1, List.mem_cons_of_mem _ hx.2⟩))

theorem length_filter_le_of_forall₂ {R : Task → Task → Prop} (q q' : Task → Bool)
    (hq : ∀ a b, R a b → q a = true → q' b = true) :
    ∀ {l l' : List Task}, List.Forall₂ R l l' → (l.filter q).length ≤ (l'.filter q').length
  | _, _, List.Forall₂.nil => le_rfl
  | _, _, List.Forall₂.cons (a := a) (b := b) hab h => by
    have ih := length_filter_le_of_forall₂ q q' hq h
    cases hqa : q a with
    | true =>
      rw [List.filter_cons_of_pos hqa, List.filter_cons_of_pos (hq a b hab hqa)]
      simp only [List.length_cons]
      omega
    | false =>
      rw [List.filter_cons_of_neg (by simp [hqa])]
      cases hqb : q' b with
      | true =>
        rw [List.filter_cons_of_pos hqb]
        simp only [List.length_cons]
        omega
      | false =>
        rw [List.filter_cons_of_neg (by simp [hqb])]
        exact ih

/-- The subtasks that the loop finds for two top-level tasks at the same
place. -/
theorem subtasks_scoreLe (l l' : List Task) (h : List.Forall₂ (ScoreLe l) l l') (M M' : Task)
    (hM : M ∈ l) (htop : M.isSub = false) (hid : M'.id = M.id) :
    (l'.filter (fun st => decide (st.parentId = M'.id))).length
        = (l.filter (fun st => decide (st.parentId = M.id))).length ∧
      ((l.filter (fun st => decide (st.parentId = M.id))).filter
          (fun st => decide (st.status = JsVal.str "completed"))).length
        ≤ ((l'.filter (fun st => decide (st.parentId = M'.id))).filter
          (fun st => decide (st.status = JsVal.str "completed"))).length := by
  have hsub : List.Forall₂ (ScoreLe l) (l.filter (fun st => decide (st.parentId = M.id)))
      (l'.filter (fun st => decide (st.parentId = M'.id))) := by
    apply forall₂_filter _ _ _ h
    intro a b hab
    rw [hid, link_parentId hab.1]
  refine ⟨hsub.length_eq.symm, ?_⟩
  apply length_filter_le_of_forall₂ _ _ _ (forall₂_mem_left hsub)
  intro a b hab hc
  have hpa : a.parentId = M.id := by
    have := (List.mem_filter.mp hab.2).2
    exact of_decide_eq_true this
  exact decide_eq_true (hab.1.2.2 ⟨M, hM, htop, hpa.symm⟩ (of_decide_eq_true hc))

theorem le_fl_add {s x : ℚ} (h0 : 0 ≤ s) (hx : 0 ≤ x) (hs : fl s = s) : s ≤ fl (s + x) := by
  have := fl_mono h0 (le_add_of_nonneg_right hx)
  rw [hs] at this
  exact this

/-- One turn of the loop of `calculateProgress`, for two top-level tasks at
the same place. -/
theorem progressStep_le (l l' : List Task) (h : List.Forall₂ (ScoreLe l) l l') (M M' : Task)
    (hM : M ∈ l) (htop : M.isSub = false) (hMM : ScoreLe l M M') (acc acc' : ℚ × ℚ)
    (hacc : WeightsLe acc acc') :
    WeightsLe (progressStep l acc M) (progressStep l' acc' M') := by
  obtain ⟨h1, h0, hle, hfl⟩ := hacc
  obtain ⟨hlen, hcount⟩ := subtasks_scoreLe l l' h M M' hM htop (link_id hMM.1)
  unfold WeightsLe progressStep
  simp only
  by_cases hz : (l.filter (fun st => decide (st.parentId = M.id))).length = 0
  · have hz' : (l'.filter (fun st => decide (st.parentId = M'.id))).length = 0 := by
      rw [hlen]; exact hz
    rw [if_pos hz, if_pos hz']
    have hw := hMM.2.1 htop (List.length_eq_zero.mp hz)
    refine ⟨by rw [h1], ?_, ?_, ?_⟩
    · split_ifs
      · exact fl_nonneg (by linarith)
      · exact fl_nonneg (by linarith)
      · exact h0
    · unfold statusWeight at hw
      by_cases c1 : M.status = JsVal.str "completed"
      · by_cases c1' : M'.status = JsVal.str "completed"
        · simp only [c1, c1', if_true]
          exact fl_mono (by linarith) (by linarith)
        · exfalso
          by_cases c2' : M'.status = JsVal.str "in-progress"
          · simp [c1, c1', c2'] at hw
            norm_num at hw
          · simp [c1, c1', c2'] at hw
            norm_num at hw
      · by_cases c2 : M.status = JsVal.str "in-progress"
        · by_cases c1' : M'.status = JsVal.str "completed"
          · simp only [c1, c2, c1', if_true, if_false]
            exact fl_mono (by linarith) (by linarith)
          · by_cases c2' : M'.status = JsVal.str "in-progress"
            · simp only [c1, c2, c1', c2', if_true, if_false]
              exact fl_mono (by linarith) (by linarith)
            · exfalso
              simp [c1, c2, c1', c2'] at hw
              norm_num at hw
        · simp only [c1, c2, if_false]
          have h0' : 0 ≤ acc'.2 := le_trans h0 hle
          split_ifs
          · exact le_trans hle (le_fl_add h0' (by norm_num) hfl)
          · exact le_trans hle (le_fl_add h0' (by norm_num) hfl)
          · exact hle
    · have h0' : 0 ≤ acc'.2 := le_trans h0 hle
      split_ifs
      · exact fl_fl (by linarith)
      · exact fl_fl (by linarith)
      · exact hfl
  · have hz' : ¬ (l'.filter (fun st => decide (st.parentId = M'.id))).length = 0 := by
      rw [hlen]; exact hz
    rw [if_neg hz, if_neg hz']
    have hn : (0 : ℚ) < ((l.filter (fun st => decide (st.parentId = M.id))).length : ℚ) := by
      exact_mod_cast Nat.pos_of_ne_zero hz
    have hq0 : (0 : ℚ) ≤
        (((l.filter (fun st => decide (st.parentId = M.id))).filter
          (fun st => decide (st.status = JsVal.str "completed"))).length : ℚ)
          / ((l.filter (fun st => decide (st.parentId = M.id))).length : ℚ) := by
      positivity
    have hqle :
        (((l.filter (fun st => decide (st.parentId = M.id))).filter
          (fun st => decide (st.status = JsVal.str "completed"))).length : ℚ)
          / ((l.filter (fun st => decide (st.parentId = M.id))).length : ℚ)
        ≤ (((l'.filter (fun st => decide (st.parentId = M'.id))).filter
          (fun st => decide (st.status = JsVal.str "completed"))).length : ℚ)
          / ((l'.filter (fun st => decide (st.parentId = M'.id))).length : ℚ) := by
      rw [hlen]
      apply div_le_div_of_nonneg_right _ hn.le
      exact_mod_cast hcount
    have hf0 := fl_nonneg hq0
    have hfle := fl_mono hq0 hqle
    have h0' : 0 ≤ acc'.2 := le_trans h0 hle
    refine ⟨by rw [h1], fl_nonneg (by linarith), fl_mono (by linarith) (by linarith),
      fl_fl (by linarith)⟩

theorem foldl_progressStep_le (l l' : List Task) (h : List.Forall₂ (ScoreLe l) l l') :
    ∀ {m m' : List Task},
      List.Forall₂ (fun M M' => ScoreLe l M M' ∧ M ∈ l ∧ M.isSub = false) m m' →
      ∀ acc acc' : ℚ × ℚ, WeightsLe acc acc' →
        WeightsLe (m.foldl (progressStep l) acc) (m'.foldl (progressStep l') acc')
  | _, _, List.Forall₂.nil, _, _, hacc => hacc
  | _, _, List.Forall₂.cons hab hm, acc, acc', hacc => by
    rw [List.foldl_cons, List.foldl_cons]
    exact foldl_progressStep_le l l' h hm _ _
      (progressStep_le l l' h _ _ hab.2.1 hab.2.2 hab.1 acc acc' hacc)

theorem mathRound_mono {x y : ℚ} (h : x ≤ y) : mathRound x ≤ mathRound y := by
  unfold mathRound
  exact Int.floor_mono (by linarith)

/-- The rollup of the second of two lists is at least that of the first when,
place by place, it reads no less. -/
theorem calculateProgress_le_of_scoreLe (l l' : List Task)
    (h : List.Forall₂ (ScoreLe l) l l') :
    ∃ a b : Int, calculateProgress l = some a ∧ calculateProgress l' = some b ∧ a ≤ b := by
  have hmain : List.Forall₂ (fun M M' => ScoreLe l M M' ∧ M ∈ l ∧ M.isSub = false)
      (l.filter (fun task => !task.isSub)) (l'.filter (fun task => !task.isSub)) := by
    have h1 : List.Forall₂ (fun a b => ScoreLe l a b ∧ a ∈ l)
        (l.filter (fun task => !task.isSub)) (l'.filter (fun task => !task.isSub)) := by
      apply forall₂_filter _ _ _ (forall₂_mem_left h)
      intro a b hab
      rw [link_isSub hab.1.1]
    refine (forall₂_mem_left h1).imp ?_
    intro a b hab
    refine ⟨hab.1.1, hab.1.2, ?_⟩
    have := (List.mem_filter.mp hab.2).2
    simpa using this
  by_cases hne : l.filter (fun task => !task.isSub) = []
  · have hne' : l'.filter (fun task => !task.isSub) = [] := by
      have := hmain.length_eq
      rw [hne] at this
      exact List.length_eq_zero.mp this.symm
    exact ⟨0, 0, calculateProgress_of_no_main l hne, calculateProgress_of_no_main l' hne',
      le_rfl⟩
  · have hne' : l'.filter (fun task => !task.isSub) ≠ [] := by
      intro hc
      have := hmain.length_eq
      rw [hc] at this
      exact hne (List.length_eq_zero.mp this)
    refine ⟨_, _, calculateProgress_of_main l hne, calculateProgress_of_main l' hne', ?_⟩
    have hw : WeightsLe (progressWeights l) (progressWeights l') :=
      foldl_progressStep_le l l' h hmain (0, 0) (0, 0) ⟨rfl, le_rfl, le_rfl, fl_zero⟩
    obtain ⟨w1, w0, wle, _⟩ := hw
    have hpos : (1 : ℚ) ≤ (progressWeights l).1 := (progressWeights_ok l).2 hne
    have hpos' : (0 : ℚ) < (progressWeights l).1 := by linarith
    apply mathRound_mono
    rw [← w1]
    have hd0 : 0 ≤ (progressWeights l).2 / (progressWeights l).1 := div_nonneg w0 hpos'.le
    have hdle : (progressWeights l).2 / (progressWeights l).1
        ≤ (progressWeights l').2 / (progressWeights l).1 :=
      div_le_div_of_nonneg_right wle hpos'.le
    have hf0 := fl_nonneg hd0
    have hfle := fl_mono hd0 hdle
    exact fl_mono (by linarith) (by linarith)

/-! ## What the rollup reads -/

theorem statusWeight_le_one (s : JsVal) : statusWeight s ≤ 1 := by
  unfold statusWeight
  split_ifs <;> norm_num

theorem scoreLe_refl (l : List Task) (x : Task) : ScoreLe l x x :=
  ⟨rfl, fun _ _ => le_rfl, fun _ h => h⟩

theorem forall₂_replace {R : Task → Task → Prop} (hrefl : ∀ x, R x x) (t t' : Task)
    (h : R t t') (post : List Task) :
    ∀ pre : List Task, List.Forall₂ R (pre ++ t :: post) (pre ++ t' :: post)
  | [] => List.Forall₂.cons h ((List.forall₂_same).mpr (fun x _ => hrefl x))
  | a :: pre => List.Forall₂.cons (hrefl a) (forall₂_replace hrefl t t' h post pre)

theorem calculateProgress_eq_of_le_le (l l' : List Task)
    (h1 : ∃ a b : Int, calculateProgress l = some a ∧ calculateProgress l' = some b ∧ a ≤ b)
    (h2 : ∃ a b : Int, calculateProgress l' = some a ∧ calculateProgress l = some b ∧ a ≤ b) :
    calculateProgress l' = calculateProgress l := by
  obtain ⟨a, b, ha, hb, hab⟩ := h1
  obtain ⟨a', b', ha', hb', hab'⟩ := h2
  rw [ha] at hb'
  rw [hb] at ha'
  have e1 : a = b' := Option.some.inj hb'
  have e2 : b = a' := Option.some.inj ha'
  rw [ha, hb]
  congr 1
  omega

/-- The rollup reads only the `id`, the `parentId` and the `status` of the
tasks, in the order of the list. -/
theorem calculateProgress_congr_core (l l' : List Task)
    (h : l'.map Task.core = l.map Task.core) : calculateProgress l' = calculateProgress l := by
  have hrel : List.Forall₂ (fun t t' => t'.core = t.core) l l' := by
    have : List.Forall₂ (fun a b => a = b) (l.map Task.core) (l'.map Task.core) := by
      rw [List.forall₂_eq_eq_eq]
      exact h.symm
    rw [List.forall₂_map_left_iff, List.forall₂_map_right_iff] at this
    exact this.imp (fun _ _ hab => hab.symm)
  have hs : ∀ t t' : Task, t'.core = t.core →
      t'.link = t.link ∧ t'.status = t.status := by
    intro t t' hc
    have e1 : t'.id = t.id := congrArg Prod.fst hc
    have e2 : t'.parentId = t.parentId := congrArg (fun c => c.2.1) hc
    have e3 : t'.status = t.status := congrArg (fun c => c.2.2) hc
    exact ⟨by unfold Task.link; rw [e1, e2], e3⟩
  apply calculateProgress_eq_of_le_le
  · apply calculateProgress_le_of_scoreLe
    refine hrel.imp ?_
    intro t t' hc
    obtain ⟨e1, e2⟩ := hs t t' hc
    exact ⟨e1, fun _ _ => by rw [e2], fun _ hcomp => by rw [e2]; exact hcomp⟩
  · apply calculateProgress_le_of_scoreLe
    refine hrel.flip.imp ?_
    intro t' t hc
    obtain ⟨e1, e2⟩ := hs t t' hc
    exact ⟨e1.symm, fun _ _ => by rw [e2], fun _ hcomp => by rw [← e2]; exact hcomp⟩

/-- The own status of a top-level task that has a subtask, and that no
top-level task has as a subtask, is not read by the rollup. -/
theorem calculateProgress_withStatus (pre post : List Task) (P : Task) (s : JsVal)
    (hsub : directSubtasks (pre ++ P :: post) P ≠ [])
    (hno : ∀ M ∈ pre ++ P :: post, M.isSub = false → M.id ≠ P.parentId) :
    calculateProgress (pre ++ Task.withStatus s P :: post)
      = calculateProgress (pre ++ P :: post) := by
  have hmem : ∀ x, x ∈ pre ++ Task.withStatus s P :: post →
      x ∈ pre ++ P :: post ∨ x = Task.withStatus s P := by
    intro x hx
    simp only [List.mem_append, List.mem_cons] at hx ⊢
    tauto
  apply calculateProgress_eq_of_le_le
  · apply calculateProgress_le_of_scoreLe
    apply forall₂_replace (scoreLe_refl _)
    refine ⟨rfl, fun _ hnil => absurd hnil hsub, fun hM => ?_⟩
    obtain ⟨M, hMl, hMtop, hMid⟩ := hM
    exact absurd hMid (hno M hMl hMtop)
  · apply calculateProgress_le_of_scoreLe
    apply forall₂_replace (scoreLe_refl _)
    refine ⟨rfl, fun _ hnil => ?_, fun hM => ?_⟩
    · exfalso
      obtain ⟨x, hx⟩ := List.exists_mem_of_ne_nil _ hsub
      unfold directSubtasks at hx hnil
      rw [List.mem_filter] at hx
      have hxp : x.parentId = P.id := of_decide_eq_true hx.2
      rw [List.filter_eq_nil_iff] at hnil
      have hx' : x ∈ pre ++ P :: post := hx.1
      simp only [List.mem_append, List.mem_cons] at hx'
      rcases hx' with hx' | rfl | hx'
      · exact hnil x (by simp [hx']) (decide_eq_true hxp)
      · exact hnil (Task.withStatus s x) (by simp) (decide_eq_true hxp)
      · exact hnil x (by simp [hx']) (decide_eq_true hxp)
    · obtain ⟨M, hMl, hMtop, hMid⟩ := hM
      rcases hmem M hMl with hin | rfl
      · exact absurd hMid (hno M hin hMtop)
      · exact absurd hMid (hno P (by simp) hMtop)

/-- C24 (amended). For every task list and every top-level task of it that
has at least one subtask, provided no top-level task of the list has the
task's own `parentId` as its id (which holds whenever every id is truthy):
replacing the task's own status by any other status leaves
`calculateProgress` unchanged. One top-level task, of any status, with two
subtasks, one completed and one not-started, gives 50. -/
theorem own_status_ignored (pre post : List Task) (P : Task) (s : JsVal)
    (htop : P.isSub = false) (hsub : directSubtasks (pre ++ P :: post) P ≠ [])
    (hno : ∀ M ∈ pre ++ P :: post, M.isSub = false → M.id ≠ P.parentId) :
    P ∈ topLevelTasks (pre ++ P :: post) ∧
      calculateProgress (pre ++ Task.withStatus s P :: post)
        = calculateProgress (pre ++ P :: post) ∧
      ∀ st : JsVal,
        calculateProgress
            [Task.withStatus st (leafTask "p" "in-progress"), subTask "a" "p" "completed",
              subTask "b" "p" "not-started"]
          = some 50 := by
  refine ⟨?_, calculateProgress_withStatus pre post P s hsub hno, fun st => ?_⟩
  · unfold topLevelTasks
    rw [List.mem_filter]
    exact ⟨by simp, by simp [htop]⟩
  · have h := calculateProgress_withStatus [] [subTask "a" "p" "completed",
      subTask "b" "p" "not-started"] (leafTask "p" "in-progress") st (by decide) (by decide)
    have h50 : calculateProgress [leafTask "p" "in-progress", subTask "a" "p" "completed",
        subTask "b" "p" "not-started"] = some 50 := by decide!
    rw [← h50]
    exact h

/-- A witness of C24 (amended): the parent `p` of `familyProject`, set to
completed. -/
theorem own_status_ignored_witness :
    (leafTask "p" "in-progress").isSub = false ∧
      directSubtasks familyProject.tasks (leafTask "p" "in-progress") ≠ [] ∧
      calculateProgress
          [Task.withStatus (JsVal.str "completed") (leafTask "p" "in-progress"),
            subTask "a" "p" "completed", subTask "b" "p" "not-started"]
        = calculateProgress familyProject.tasks :=
  ⟨by decide, by decide,
    (own_status_ignored [] [subTask "a" "p" "completed", subTask "b" "p" "not-started"]
      (leafTask "p" "in-progress") (JsVal.str "completed") (by decide) (by decide)
      (by decide)).2.1⟩

/-- C24 as stated fails: in `nullIdTasks` the task `p` carries `parentId:
null`, so it is a top-level task, and it has the subtask `c`; the task `m`
has the id `null`, so the loop counts `p` among the subtasks of `m`.
Replacing the status not-started of `p` by completed moves the rollup from 0
to 50. -/
theorem own_status_read :
    (nullIdTasks "not-started").map (fun t => (t.id, t.parentId, t.isSub))
        = [(JsVal.null, JsVal.undefined, false), (JsVal.str "p", JsVal.null, false),
            (JsVal.str "c", JsVal.str "p", true)] ∧
      (nullIdTasks "not-started").map
          (fun t => (directSubtasks (nullIdTasks "not-started") t).map (fun st => st.id))
        = [[JsVal.str "p"], [JsVal.str "c"], []] ∧
      calculateProgress (nullIdTasks "not-started") = some 0 ∧
      calculateProgress (nullIdTasks "completed") = some 50 := by
  refine ⟨by decide, by decide, by decide!, by decide!⟩

/-- C29. For every task list and every task in it, changing that one task's
status to completed, everything else as it is, never decreases
`calculateProgress`; and changing a top-level task without subtasks from
not-started or on-hold to in-progress never decreases it either. -/
theorem calculateProgress_monotone (pre post : List Task) (t : Task) :
    (∃ a b : Int, calculateProgress (pre ++ t :: post) = some a ∧
        calculateProgress (pre ++ Task.withStatus (JsVal.str "completed") t :: post) = some b ∧
        a ≤ b) ∧
      (t.isSub = false → directSubtasks (pre ++ t :: post) t = [] →
        (t.status = JsVal.str "not-started" ∨ t.status = JsVal.str "on-hold") →
        ∃ a b : Int, calculateProgress (pre ++ t :: post) = some a ∧
          calculateProgress (pre ++ Task.withStatus (JsVal.str "in-progress") t :: post)
            = some b ∧
          a ≤ b) := by
  constructor
  · apply calculateProgress_le_of_scoreLe
    apply forall₂_replace (scoreLe_refl _)
    refine ⟨rfl, fun _ _ => ?_, fun _ _ => rfl⟩
    have : statusWeight (Task.withStatus (JsVal.str "completed") t).status = 1 := by
      simp [Task.withStatus, statusWeight]
    rw [this]
    exact statusWeight_le_one _
  · intro _ _ hst
    apply calculateProgress_le_of_scoreLe
    apply forall₂_replace (scoreLe_refl _)
    refine ⟨rfl, fun _ _ => ?_, fun _ hc => ?_⟩
    · have h1 : statusWeight (Task.withStatus (JsVal.str "in-progress") t).status = 1 / 2 := by
        simp [Task.withStatus, statusWeight]
      have h0 : statusWeight t.status = 0 := by
        rcases hst with h | h <;> simp [h, statusWeight]
      rw [h1, h0]
      norm_num
    · rcases hst with h | h <;> rw [h] at hc <;> simp at hc

/-! ## Reordering and the rollup -/

theorem exactFraction_perm (l l' : List Task) (h : l'.Perm l) (M : Task) :
    exactFraction l' M = exactFraction l M := by
  have hp : (directSubtasks l' M).Perm (directSubtasks l M) := h.filter _
  unfold exactFraction completedCount
  rw [hp.length_eq, hp.countP_eq]

theorem exact_sum_perm (l l' : List Task) (h : l'.Perm l) :
    ((topLevelTasks l').map (exactFraction l')).sum
      = ((topLevelTasks l).map (exactFraction l)).sum := by
  have hf : exactFraction l' = exactFraction l := funext (exactFraction_perm l l' h)
  have ht : (topLevelTasks l').Perm (topLevelTasks l) := h.filter _
  rw [hf]
  exact (ht.map _).sum_eq

theorem mathRound_near {x y : ℚ} (h : |x - y| ≤ 1) : |mathRound x - mathRound y| ≤ 1 := by
  unfold mathRound
  rw [abs_le] at h
  have h1 : ⌊x + 1 / 2⌋ ≤ ⌊y + 1 / 2⌋ + 1 := by
    rw [← Int.floor_add_one]
    exact Int.floor_mono (by linarith [h.2])
  have h2 : ⌊y + 1 / 2⌋ ≤ ⌊x + 1 / 2⌋ + 1 := by
    rw [← Int.floor_add_one]
    exact Int.floor_mono (by linarith [h.1])
  rw [abs_le]
  constructor <;> omega

/-- Two lists with the same tasks in different orders have rollups that
differ by at most 1: each is within `1/2 + 2 ^ (-15)` of the same exact
value. -/
theorem calculateProgress_perm_near (l l' : List Task) (h : l'.Perm l)
    (hN : (topLevelTasks l).length < 2 ^ 32) :
    ∃ a b : Int, calculateProgress l = some a ∧ calculateProgress l' = some b ∧
      |b - a| ≤ 1 := by
  have ht : (topLevelTasks l').Perm (topLevelTasks l) := h.filter _
  have hlen : (topLevelTasks l').length = (topLevelTasks l).length := ht.length_eq
  by_cases hne : l.filter (fun task => !task.isSub) = []
  · have hne' : l'.filter (fun task => !task.isSub) = [] := by
      have h0 : (topLevelTasks l).length = 0 := by simp [topLevelTasks, hne]
      rw [← hlen] at h0
      exact List.length_eq_zero.mp h0
    exact ⟨0, 0, calculateProgress_of_no_main l hne, calculateProgress_of_no_main l' hne',
      by simp⟩
  · have h1 : 1 ≤ (topLevelTasks l).length := by
      have : (topLevelTasks l).length ≠ 0 := fun h0 => hne (List.length_eq_zero.mp h0)
      omega
    have hne' : l'.filter (fun task => !task.isSub) ≠ [] := by
      intro hc
      have h0 : (topLevelTasks l').length = 0 := by simp [topLevelTasks, hc]
      omega
    refine ⟨_, _, calculateProgress_of_main l hne, calculateProgress_of_main l' hne', ?_⟩
    rw [progressWeights_eq l (le_trans hN.le (by norm_num)),
      progressWeights_eq l' (by rw [hlen]; exact le_trans hN.le (by norm_num))]
    have e1 := double_value_near_exact l h1 hN
    have e2 := double_value_near_exact l' (by rw [hlen]; exact h1) (by rw [hlen]; exact hN)
    rw [exact_sum_perm l l' h, hlen] at e2
    apply mathRound_near
    simp only [hlen]
    rw [abs_le] at e1 e2 ⊢
    have h15 : (1 : ℚ) / 2 ^ 15 ≤ 1 / 2 := by norm_num
    constructor <;> linarith [e1.1, e1.2, e2.1, e2.2]

/-- C21 (amended). For every project and every orders sequence, the reorder
operation changes no task's status (the tasks keep their `id`, `parentId` and
`status`, in another order) and leaves the stored progress field untouched;
`calculateProgress` is invariant under the changes of position; and, for
fewer than `2 ^ 32` top-level tasks, `calculateProgress` evaluated on the
reordered list differs by at most 1 from `calculateProgress` evaluated on
the list before the call. -/
theorem reorderTasks_progress (strToNumber : String → Option Int) (p : Project)
    (taskOrders : List TaskOrder) (now : String) :
    ((reorderTasks strToNumber p taskOrders now).tasks.map Task.core).Perm
        (p.tasks.map Task.core) ∧
      (reorderTasks strToNumber p taskOrders now).progress = p.progress ∧
      calculateProgress (applyOrders taskOrders now p.tasks) = calculateProgress p.tasks ∧
      ((topLevelTasks p.tasks).length < 2 ^ 32 →
        ∃ a b : Int, calculateProgress p.tasks = some a ∧
          calculateProgress (reorderTasks strToNumber p taskOrders now).tasks = some b ∧
          |b - a| ≤ 1) := by
  have hcore : (applyOrders taskOrders now p.tasks).map Task.core = p.tasks.map Task.core :=
    map_applyOrders Task.core (fun _ _ _ => rfl) now taskOrders p.tasks
  have hcalc := calculateProgress_congr_core p.tasks _ hcore
  refine ⟨?_, rfl, hcalc, fun hN => ?_⟩
  · unfold reorderTasks
    rw [← hcore]
    exact (arraySort_perm _ _).map _
  · have htop : (topLevelTasks (applyOrders taskOrders now p.tasks)).length
        = (topLevelTasks p.tasks).length := by
      have h1 := filter_eq_of_map_eq (fun t : Task => t.isSub) (fun b => !b)
        (applyOrders taskOrders now p.tasks) p.tasks
        (map_applyOrders (fun t : Task => t.isSub) (fun _ _ _ => rfl) now taskOrders p.tasks)
      have h2 := congrArg List.length h1
      simpa [topLevelTasks] using h2
    have := calculateProgress_perm_near (applyOrders taskOrders now p.tasks)
      (reorderTasks strToNumber p taskOrders now).tasks (arraySort_perm _ _)
      (by rw [htop]; exact hN)
    rw [hcalc] at this
    exact this

/-- C21 as stated fails: in `thirdsProject` the top-level tasks come in the
order `A`, `I`, `B`, `N` with the scores `1/3`, `1/2`, `2/3`, `0`, and
`calculateProgress` gives 38. The orders `swapOrders` exchange the positions
of `A` and `B`; on the reordered list the double sum `2/3 + 1/2 + 1/3` is
`1.4999999999999998` and `calculateProgress` gives 37. -/
theorem reorderTasks_changes_progress :
    calculateProgress thirdsProject.tasks = some 38 ∧
      (reorderTasks noStrings thirdsProject swapOrders "now").tasks.map (fun t => t.id)
        = [JsVal.str "B", JsVal.str "I", JsVal.str "A", JsVal.str "N", JsVal.str "a1",
            JsVal.str "a2", JsVal.str "a3", JsVal.str "b1", JsVal.str "b2", JsVal.str "b3"] ∧
      calculateProgress (reorderTasks noStrings thirdsProject swapOrders "now").tasks
        = some 37 := by
  refine ⟨by decide!, by decide, by decide!⟩

/-! ## Login -/

/-- C25. For every login request that passes the validation: if no active
user has the given email, or the password check of the user found fails, the
handler responds 401 with the error `Invalid credentials`, with no token and
no refresh token in the body, and leaves the users table and the audit log as
they were, so that no refresh token is stored; and every other request that
fails in one of the two ways gets the very same response. -/
theorem login_fails_uniformly (env : LoginEnv) (st : AuthState) (email password : String)
    (h : st.users.find? (fun u => decide (u.email = email) && u.isActive) = none ∨
      ∃ u, st.users.find? (fun u => decide (u.email = email) && u.isActive) = some u ∧
        env.validatePassword u password = false) :
    login env st email password = (invalidCredentials, st) ∧
      invalidCredentials.status = 401 ∧
      invalidCredentials.error = some "Invalid credentials" ∧
      invalidCredentials.token = none ∧ invalidCredentials.refreshToken = none ∧
      ∀ (env' : LoginEnv) (st' : AuthState) (email' password' : String),
        (st'.users.find? (fun u => decide (u.email = email') && u.isActive) = none ∨
          ∃ u, st'.users.find? (fun u => decide (u.email = email') && u.isActive) = some u ∧
            env'.validatePassword u password' = false) →
        (login env' st' email' password').1 = (login env st email password).1 := by
  have key : ∀ (env : LoginEnv) (st : AuthState) (email password : String),
      (st.users.find? (fun u => decide (u.email = email) && u.isActive) = none ∨
        ∃ u, st.users.find? (fun u => decide (u.email = email) && u.isActive) = some u ∧
          env.validatePassword u password = false) →
      login env st email password = (invalidCredentials, st) := by
    intro env st email password h
    unfold login
    rcases h with h | ⟨u, h, hv⟩
    · rw [h]
    · rw [h]
      simp [hv]
  refine ⟨key env st email password h, rfl, rfl, rfl, rfl, ?_⟩
  intro env' st' email' password' h'
  rw [key env st email password h, key env' st' email' password' h']

/-- A witness of C25: a wrong password for the administrator of `twoUsers`,
and against it an email that no user has. -/
theorem login_fails_uniformly_witness :
    (∃ u, twoUsers.users.find? (fun u => decide (u.email = "admin@example.com") && u.isActive)
          = some u ∧ plainEnv.validatePassword u "wrong" = false) ∧
      login plainEnv twoUsers "admin@example.com" "wrong" = (invalidCredentials, twoUsers) ∧
      (login plainEnv twoUsers "nobody@example.com" "secret").1
        = (login plainEnv twoUsers "admin@example.com" "wrong").1 ∧
      (login plainEnv twoUsers "admin@example.com" "secret").1.status = 200 :=
  ⟨⟨adminUser, by decide, by decide⟩,
    (login_fails_uniformly plainEnv twoUsers "admin@example.com" "wrong"
      (Or.inr ⟨adminUser, by decide, by decide⟩)).1,
    (login_fails_uniformly plainEnv twoUsers "admin@example.com" "wrong"
      (Or.inr ⟨adminUser, by decide, by decide⟩)).2.2.2.2.2 plainEnv twoUsers
      "nobody@example.com" "secret" (Or.inl (by decide)),
    by decide⟩

/-! ## Access to a project -/

theorem startsWithChars_iff : ∀ (s sub : List Char),
    startsWithChars s sub = true ↔ ∃ post, s = sub ++ post
  | s, [] => by simp [startsWithChars]
  | [], d :: ds => by simp [startsWithChars]
  | c :: cs, d :: ds => by
    simp only [startsWithChars, Bool.and_eq_true, decide_eq_true_eq, startsWithChars_iff cs ds,
      List.cons_append, List.cons.injEq]
    constructor
    · rintro ⟨h1, post, h2⟩
      exact ⟨post, h1, h2⟩
    · rintro ⟨post, h1, h2⟩
      exact ⟨h1, post, h2⟩

theorem includesChars_iff (sub : List Char) : ∀ s : List Char,
    includesChars s sub = true ↔ ∃ pre post, s = pre ++ sub ++ post
  | [] => by
    simp only [includesChars, startsWithChars_iff]
    constructor
    · rintro ⟨post, h⟩
      exact ⟨[], post, by simpa using h⟩
    · rintro ⟨pre, post, h⟩
      have h' := h.symm
      simp only [List.append_eq_nil] at h'
      exact ⟨[], by simp [h'.1.2]⟩
  | c :: cs => by
    simp only [includesChars, Bool.or_eq_true, startsWithChars_iff, includesChars_iff sub cs]
    constructor
    · rintro (⟨post, h⟩ | ⟨pre, post, h⟩)
      · exact ⟨[], post, by simpa using h⟩
      · exact ⟨c :: pre, post, by simp [h]⟩
    · rintro ⟨pre, post, h⟩
      cases pre with
      | nil => exact Or.inl ⟨post, by simpa using h⟩
      | cons a pre =>
        simp only [List.cons_append, List.cons.injEq] at h
        exact Or.inr ⟨pre, post, h.2⟩

theorem stringIncludes_iff (s sub : String) : stringIncludes s sub = true ↔ Contains s sub := by
  unfold stringIncludes Contains
  exact includesChars_iff sub.toList s.toList

/-- C26. The method `canUserAccess(user, permission)` returns true exactly
when the user's role is admin, or the user is the owner of the project, or
the user is listed in `teamMembers` and the user's role has the permission,
or the user's role is client, `metadata.clientUserId` is the user's id and the
permission string contains `read`; in every other case it returns false. In
particular an administrator and the owner are granted every permission on
every project. -/
theorem canUserAccess_iff (project : ProjectAccess) (user : User) (permission : String) :
    (canUserAccess project user permission = true ↔
      ((∃ r, user.role = some r ∧ r.name = "admin") ∨
        project.ownerId = user.id ∨
        (user.id ∈ project.teamMembers ∧
          ∃ r, user.role = some r ∧ permission ∈ r.permissions) ∨
        ((∃ r, user.role = some r ∧ r.name = "client") ∧
          project.clientUserId = user.id ∧ Contains permission "read"))) ∧
      (canUserAccess project user permission = false ↔
        ¬ ((∃ r, user.role = some r ∧ r.name = "admin") ∨
          project.ownerId = user.id ∨
          (user.id ∈ project.teamMembers ∧
            ∃ r, user.role = some r ∧ permission ∈ r.permissions) ∨
          ((∃ r, user.role = some r ∧ r.name = "client") ∧
            project.clientUserId = user.id ∧ Contains permission "read"))) ∧
      (∀ (q : ProjectAccess) (w : String),
        ((∃ r, user.role = some r ∧ r.name = "admin") → canUserAccess q user w = true) ∧
        (q.ownerId = user.id → canUserAccess q user w = true)) := by
  have key : ∀ (project : ProjectAccess) (permission : String),
      canUserAccess project user permission = true ↔
      ((∃ r, user.role = some r ∧ r.name = "admin") ∨
        project.ownerId = user.id ∨
        (user.id ∈ project.teamMembers ∧
          ∃ r, user.role = some r ∧ permission ∈ r.permissions) ∨
        ((∃ r, user.role = some r ∧ r.name = "client") ∧
          project.clientUserId = user.id ∧ Contains permission "read")) := by
    intro project permission
    unfold canUserAccess
    cases hr : user.role with
    | none => simp
    | some r =>
      have hc1 : project.teamMembers.contains user.id = true ↔ user.id ∈ project.teamMembers := by
        simp
      have hc2 : r.permissions.contains permission = true ↔ permission ∈ r.permissions := by
        simp
      simp only [Option.map_some', Option.some.injEq, Option.getD_some, Role.hasPermission,
        exists_eq_left', Bool.and_eq_true, decide_eq_true_eq, hc1, hc2]
      by_cases h1 : r.name = "admin"
      · simp [h1]
      · by_cases h2 : project.ownerId = user.id
        · simp [h1, h2]
        · by_cases h3 : user.id ∈ project.teamMembers ∧ permission ∈ r.permissions
          · simp [h1, h2, h3]
          · rw [if_neg h1, if_neg h2, if_neg h3]
            by_cases h4 : r.name = "client" ∧ project.clientUserId = user.id
            · rw [if_pos h4, stringIncludes_iff]
              simp [h1, h2, h3, h4]
            · rw [if_neg h4]
              simp only [h1, h2, h3, false_or, Bool.false_eq_true, false_iff]
              rintro ⟨h5, h6, _⟩
              exact h4 ⟨h5, h6⟩
  refine ⟨key project permission, ?_, fun q w => ⟨fun ha => ?_, fun ho => ?_⟩⟩
  · rw [← key project permission]
    simp
  · exact (key q w).mpr (Or.inl ha)
  · exact (key q w).mpr (Or.inr (Or.inl ho))

/-! ## The guards on the executive summary and the system roles -/

/-- C28, on the code: the default role `project_manager` holds the permission
`reports.executive`, and the guard of the executive summary,
`authorize(['admin', 'project-manager'])`, responds 403 to a user with that
role, and calls `next()` for an administrator. -/
theorem executive_summary_forbidden :
    managerUser.role.map (fun r => r.name) = some "project_manager" ∧
      managerUser.role.map (fun r => r.permissions) = some (defaultPermissions "project_manager") ∧
      managerUser.role.map (fun r => r.hasPermission (PermissionArg.str "reports.executive"))
        = some true ∧
      executiveSummaryGuard managerUser = Guard.respond 403 "Insufficient permissions" ∧
      executiveSummaryGuard adminUser = Guard.next := by
  decide

/-- C27, on the code: the role `technician` is a system role; the routes that
update and delete a role reject the request of an administrator and leave the
table as it was, and the routes that add and remove a permission accept it
and change the permissions of the role. -/
theorem system_role_permissions_changed :
    (defaultRole 4).map (fun r => (r.name, r.isSystem, r.permissions))
        = some ("technician", true,
            ["projects.read", "projects.update.tasks", "reports.project"]) ∧
      putRole (some adminUser) true defaultRoles 4
          { displayName := none, description := none, permissions := some [], priority := none }
        = (guardResponse 400 "Cannot modify system roles", defaultRoles) ∧
      deleteRole (some adminUser) 0 defaultRoles 4
        = (guardResponse 400 "Cannot delete system roles", defaultRoles) ∧
      (postPermission (some adminUser) defaultRoles 4 "projects.delete").1.status = 200 ∧
      (findByPk (postPermission (some adminUser) defaultRoles 4 "projects.delete").2 4).map
          (fun r => r.permissions)
        = some ["projects.read", "projects.update.tasks", "reports.project",
            "projects.delete"] ∧
      (deletePermission (some adminUser) defaultRoles 4 "projects.read").1.status = 200 ∧
      (findByPk (deletePermission (some adminUser) defaultRoles 4 "projects.read").2 4).map
          (fun r => r.permissions)
        = some ["projects.update.tasks", "reports.project"] := by
  decide

end AVProjectTracker
